import Mathlib

/-!
Verification of the event-ingestion sanitation pipeline of the
`jabu-velocity-medi-assesment` repository.

The development shallowly embeds the Python code of `events/sanitation.py`,
`events/management/commands/ingest_events.py`, `events/admin.py` and the
deduplication step of `events/services/google_places.py` as executable Lean
definitions, and proves or refutes the frozen specification claims about them.

Python values are modelled by the inductive type `PyVal`; machine floats are
modelled by exact rationals (`Rat`); functions that can raise model the raised
exception class through `Except PyExc`.  Library calls made by the source
(`html.unescape`, `urllib.parse.urlsplit`/`urlunsplit`, `datetime.fromtimestamp`,
`dateutil.parser.parse`, the optional `validators` package) are embedded at the
level of detail the claims exercise; each such embedding carries a doc comment
stating exactly what is modelled.
-/

/-! ## Characters: the ASCII fragments of Python's `str` methods

All text this repository ingests and all constants in its tables are ASCII;
the case-mapping embeddings below implement the ASCII fragment of Python's
`str.lower`/`str.upper`/`str.title`, and `pyIsSpace` implements the character
class matched by `\s` in Python's `re` module on strings (which also backs
`str.strip`). -/

/-- Whitespace as recognised by Python's `re` module `\s` class and `str.strip`:
ASCII space, `\t`, `\n`, `\r`, vertical tab, form feed, the file/group/record/unit
separators 0x1C-0x1F, plus the common Unicode space code points. -/
def pyIsSpace (c : Char) : Bool :=
  c = ' ' || c = '\t' || c = '\n' || c.toNat = 0xd || c.toNat = 0xb || c.toNat = 0xc ||
  (0x1c ≤ c.toNat && c.toNat ≤ 0x1f) || c.toNat = 0x85 || c.toNat = 0xa0 ||
  c.toNat = 0x1680 || (0x2000 ≤ c.toNat && c.toNat ≤ 0x200a) ||
  c.toNat = 0x2028 || c.toNat = 0x2029 || c.toNat = 0x202f || c.toNat = 0x205f ||
  c.toNat = 0x3000

/-- Characters matched by `SPECIAL_CHARS_PATTERN` in `events/sanitation.py`
(line 235): the regex character class `[\x00-\x08\x0b\x0c\x0e-\x1f\x7f]`,
i.e. the C0 control characters other than tab/newline/carriage-return, plus DEL. -/
def isCtrlChar (c : Char) : Bool :=
  c.toNat ≤ 8 || c.toNat = 0xb || c.toNat = 0xc ||
  (0xe ≤ c.toNat && c.toNat ≤ 0x1f) || c.toNat = 0x7f

/-- ASCII lowercase letter test. -/
def isAsciiLowerCh (c : Char) : Bool := 'a' ≤ c && c ≤ 'z'

/-- ASCII uppercase letter test. -/
def isAsciiUpperCh (c : Char) : Bool := 'A' ≤ c && c ≤ 'Z'

/-- ASCII letter test; models Python's notion of a cased character on the ASCII
inputs this pipeline handles. -/
def isAsciiAlpha (c : Char) : Bool := isAsciiLowerCh c || isAsciiUpperCh c

/-- ASCII digit test. -/
def isAsciiDigit (c : Char) : Bool := '0' ≤ c && c ≤ '9'

/-- ASCII fragment of Python's `str.lower` on one character. -/
def asciiLower (c : Char) : Char :=
  if isAsciiUpperCh c then Char.ofNat (c.toNat + 32) else c

/-- ASCII fragment of Python's `str.upper` on one character. -/
def asciiUpper (c : Char) : Char :=
  if isAsciiLowerCh c then Char.ofNat (c.toNat - 32) else c

/-- Python `str.lower` (ASCII fragment). -/
def pyLower (s : String) : String := ⟨s.data.map asciiLower⟩

/-- Python `str.title` on a character list: an alphabetic character is
uppercased when the previous character is not alphabetic and lowercased
otherwise; `prevCased` records whether the previous character was alphabetic. -/
def titleMapAux : Bool → List Char → List Char
  | _, [] => []
  | prevCased, c :: rest =>
      (if isAsciiAlpha c then (if prevCased then asciiLower c else asciiUpper c) else c)
        :: titleMapAux (isAsciiAlpha c) rest

/-- Python `str.title` (ASCII fragment): word-initial capitalisation. -/
def pyTitle (s : String) : String := ⟨titleMapAux false s.data⟩

/-- Python `str.strip` with no argument on a character list: drop leading and
trailing whitespace. -/
def stripChars (l : List Char) : List Char :=
  ((l.dropWhile pyIsSpace).reverse.dropWhile pyIsSpace).reverse

/-- Python `str.strip` with no argument. -/
def pyStrip (s : String) : String := ⟨stripChars s.data⟩

/-- Test whether the first list is an initial run of the second. -/
def leadsWith : List Char → List Char → Bool
  | [], _ => true
  | _ :: _, [] => false
  | a :: as, b :: bs => a = b && leadsWith as bs

/-- Containment of one character list in another as a contiguous run; models
Python's `in` operator on strings (`key in normalized`). -/
def listContains (needle : List Char) : List Char → Bool
  | [] => decide (needle = [])
  | b :: bs => leadsWith needle (b :: bs) || listContains needle bs

/-! ## Python values

`PyVal` covers the value shapes the sanitation pipeline can receive: `None`,
booleans, integers, floats (modelled exactly as rationals), strings, `date` and
`datetime` objects, and opaque non-primitive objects (dicts such as
`raw_payload`, which the pipeline passes through without inspecting). -/

/-- Python `datetime.date` value. -/
structure PyDate where
  year : Int
  month : Int
  day : Int
deriving DecidableEq, Repr

/-- Python `datetime.datetime` values as they arise in this pipeline, kept
abstract by provenance: `fromTimestamp s` is `datetime.fromtimestamp(s)` (local
time) for an in-range argument, `atMidnight d` is
`datetime.combine(d, datetime.min.time())`, and `dateutilParsed s` is the result
of `dateutil.parser.parse(s, dayfirst=True, fuzzy=True)` on a parseable string.
No claim inspects calendar fields, so the constructors record provenance only. -/
inductive PyDatetime
  | fromTimestamp (secs : Rat)
  | atMidnight (d : PyDate)
  | dateutilParsed (s : String)
deriving DecidableEq, Repr

/-- Python values flowing through the sanitation pipeline. -/
inductive PyVal
  | none
  | bool (b : Bool)
  | int (n : Int)
  | float (x : Rat)
  | str (s : String)
  | pydate (d : PyDate)
  | pydatetime (t : PyDatetime)
  | obj (id : Nat)
deriving DecidableEq, Repr

/-- Exception classes relevant to the embedded code. -/
inductive PyExc
  | valueError
  | osError
  | overflowError
  | attributeError
deriving DecidableEq, Repr

/-- Python truthiness (`if not x`), per value shape: `None`, `False`, zero and
the empty string are falsy.  Opaque objects are modelled truthy (no code path
in the embedded pipeline truth-tests an opaque object). -/
def pyTruthy : PyVal → Bool
  | .none => false
  | .bool b => b
  | .int n => n != 0
  | .float x => x != 0
  | .str s => s != ""
  | .pydate _ => true
  | .pydatetime _ => true
  | .obj _ => true

/-- Python `str(x)`.  Exact for strings, `None`, booleans and integers (the
shapes the claims exercise); schematic constant renderings stand in for floats,
dates and opaque objects, whose textual form no claim depends on. -/
def pyStr : PyVal → String
  | .str s => s
  | .none => "None"
  | .bool true => "True"
  | .bool false => "False"
  | .int n => toString n
  | .float x => toString x
  | .pydate _ => "datetime.date"
  | .pydatetime _ => "datetime.datetime"
  | .obj _ => "object"

/-! ## RULE 3 of `sanitation.py`: title/description cleaning (`clean_text`)

`clean_text` applies, in order: control-character removal
(`SPECIAL_CHARS_PATTERN.sub('', ...)`), HTML tag stripping
(`HTML_TAG_PATTERN.sub(' ', ...)` with pattern `<[^>]+>`), HTML entity
unescaping (`html.unescape`), whitespace collapsing
(`MULTIPLE_SPACES_PATTERN.sub(' ', ...)` with pattern `\s+`), `strip()`, and
finally the `max_length` truncation.  The three boolean flags of the source
are modelled at their default value `True`, which every call site uses. -/

/-- Removal of the characters matched by `SPECIAL_CHARS_PATTERN`
(sanitation.py line 277). -/
def removeCtrl (l : List Char) : List Char := l.filter (fun c => !isCtrlChar c)

/-- Locate the first `'>'` in the list: returns the run before it (which
contains no `'>'`) and the remainder after it, the latter bundled with the fact
that it is shorter than the input.  Mirrors how the regex `<[^>]+>` matches up
to the first `'>'`. -/
def splitGt : (cs : List Char) → Option (List Char × { l : List Char // l.length < cs.length })
  | [] => Option.none
  | c :: rest =>
    if c = '>' then some ([], ⟨rest, by simp⟩)
    else
      match splitGt rest with
      | some (pre, ⟨post, h⟩) => some (c :: pre, ⟨post, by simpa using Nat.lt_succ_of_lt h⟩)
      | Option.none => Option.none

/-- Global substitution of the regex `<[^>]+>` by a single space, scanning left
to right (`HTML_TAG_PATTERN.sub(' ', ...)`, sanitation.py line 281).  At a
`'<'`, the regex matches exactly when a `'>'` occurs later with at least one
character in between, the match ending at the first such `'>'`. -/
def stripTagsFuel : Nat → List Char → List Char
  | 0, cs => cs
  | _, [] => []
  | fuel + 1, c :: rest =>
    if c = '<' then
      match splitGt rest with
      | some (pre, post) =>
          if pre = [] then c :: stripTagsFuel fuel rest
          else ' ' :: stripTagsFuel fuel post.1
      | Option.none => c :: stripTagsFuel fuel rest
    else c :: stripTagsFuel fuel rest

/-- Entry point of the tag substitution: every scanning step consumes at least
one character, so fuel equal to the length of the input always suffices (the
out-of-fuel branch is unreachable from here). -/
def stripTags (cs : List Char) : List Char := stripTagsFuel cs.length cs

/-- Characters that may appear in a named character-reference body: the regex
`html._charref` allows any character outside `[\t\n\x0c <&#;]`. -/
def isRefNameChar (c : Char) : Bool :=
  !(c = '\t' || c = '\n' || c.toNat = 0xc || c = ' ' || c = '<' || c = '&' || c = '#' || c = ';')

/-- Named character references recognised by the embedding of `html.unescape`,
as runs of characters paired with their replacement text.  CPython's table is
the full HTML5 list; this embedding restricts it to the basic ampersand,
angle-bracket and quote references (each present, as in HTML5, both with and
without the trailing semicolon), which are the only named references the
repository's data and the claims exercise.  As in CPython, a reference with
semicolon takes priority through the longest-match lookup. -/
def charRefTable : List (List Char × List Char) :=
  [ ("amp;".data, "&".data), ("amp".data, "&".data),
    ("lt;".data, "<".data), ("lt".data, "<".data),
    ("gt;".data, ">".data), ("gt".data, ">".data),
    ("quot;".data, "\"".data), ("quot".data, "\"".data) ]

/-- Lookup of a full character-reference body in `charRefTable`. -/
def refLookup (g : List Char) : Option (List Char) :=
  (charRefTable.find? (fun kv => kv.1 = g)).map (·.2)

/-- Longest-proper-prefix lookup used by CPython's `_replace_charref` when the
full match body is not a known reference: prefixes of the body of length
`x`, for `x` descending from `body.length - 1` to `2`, are tried in turn.
Returns the replacement together with the unconsumed tail of the body. -/
def refPrefAux (g : List Char) : Nat → Option (List Char × List Char)
  | 0 => Option.none
  | x + 1 =>
    if x + 1 < 2 then Option.none
    else
      match refLookup (g.take (x + 1)) with
      | some v => some (v, g.drop (x + 1))
      | Option.none => refPrefAux g x

/-- Numeric value of a run of ASCII digits. -/
def digitsVal (ds : List Char) : Nat :=
  ds.foldl (fun acc c => 10 * acc + (c.toNat - 48)) 0

/-- Replacement text for a numeric character reference `&#NUM;`, mirroring
CPython `html._replace_charref`: `0` maps to U+FFFD; `0x0D` maps to CR;
code points `0x80`-`0x9F` go through the Windows-1252 remapping (modelled
uniformly as U+FFFD here -- none of CPython's actual remapped values is an
ASCII control character, which is all the development relies on); surrogates
and values beyond U+10FFFF map to U+FFFD; the HTML5 invalid code points
(C0 controls other than whitespace, DEL, 0xFDD0-0xFDEF and the `*FFFE`/`*FFFF`
noncharacters) are dropped; anything else decodes to its code point. -/
def numericRefChars (n : Nat) : List Char :=
  if n = 0 then ['�']
  else if n = 0xd then [Char.ofNat 0xd]
  else if 0x80 ≤ n && n ≤ 0x9f then ['�']
  else if (0xd800 ≤ n && n ≤ 0xdfff) || n > 0x10ffff then ['�']
  else if (1 ≤ n && n ≤ 8) || n = 0xb || (0xe ≤ n && n ≤ 0x1f) || n = 0x7f
          || (0xfdd0 ≤ n && n ≤ 0xfdef) || (n % 0x10000 ≥ 0xfffe) then []
  else [Char.ofNat n]

/-- Embedding of CPython's `html.unescape` (restricted to the reference table
`charRefTable` plus decimal numeric references; hexadecimal references, which
nothing in the repository or the claims exercises, are treated like unknown
bodies).  A string without `'&'` is returned unchanged, exactly as in CPython.
Scanning is left to right; at each `'&'` the longest candidate body (at most 32
name characters, plus an optional directly following semicolon) is matched and
replaced as CPython's `_replace_charref` does. -/
def pyUnescapeFuel : Nat → List Char → List Char
  | 0, cs => cs
  | _, [] => []
  | fuel + 1, c :: rest =>
    if c = '&' then
      if rest.head? = some '#' then
        let ds := rest.tail.takeWhile isAsciiDigit
        if ds = [] then c :: pyUnescapeFuel fuel rest
        else
          let semi : Bool := (rest.tail.drop ds.length).head? = some ';'
          let rem := rest.tail.drop (ds.length + (if semi then 1 else 0))
          numericRefChars (digitsVal ds) ++ pyUnescapeFuel fuel rem
      else
        let nm := (rest.takeWhile isRefNameChar).take 32
        if nm = [] then c :: pyUnescapeFuel fuel rest
        else
          let semi : Bool := (rest.drop nm.length).head? = some ';'
          let g := if semi then nm ++ [';'] else nm
          let rem := rest.drop g.length
          match refLookup g with
          | some v => v ++ pyUnescapeFuel fuel rem
          | Option.none =>
            match refPrefAux g (g.length - 1) with
            | some (v, tl) => v ++ tl ++ pyUnescapeFuel fuel rem
            | Option.none => c :: g ++ pyUnescapeFuel fuel rem
    else c :: pyUnescapeFuel fuel rest

/-- Entry point of the entity substitution: every scanning step consumes at
least one character, so fuel equal to the length of the input always suffices
(the out-of-fuel branch is unreachable from here). -/
def pyUnescape (cs : List Char) : List Char := pyUnescapeFuel cs.length cs

/-- Drop one leading literal space, if present. -/
def dropSpaceHead : List Char → List Char
  | ' ' :: t => t
  | l => l

/-- Global substitution of the regex `\s+` by a single space
(`MULTIPLE_SPACES_PATTERN.sub(' ', ...)`, sanitation.py line 289), written as a
right fold: a whitespace character contributes one `' '` and absorbs the space
that the rest of the run contributed. -/
def collapseWs : List Char → List Char
  | [] => []
  | c :: rest =>
    if pyIsSpace c then ' ' :: dropSpaceHead (collapseWs rest)
    else c :: collapseWs rest

/-- Python slicing `s[:k]` for a possibly negative bound `k`: a negative bound
counts from the end of the string. -/
def pySliceTo (l : List Char) (k : Int) : List Char :=
  if 0 ≤ k then l.take k.toNat else l.take (l.length - (-k).toNat)

/-- Core of `clean_text` (sanitation.py lines 238-292) before the truncation
step: control-character removal, tag stripping, entity unescaping, whitespace
collapsing and `strip()`, applied to `str(text)`. -/
def cleanCore (v : PyVal) : List Char :=
  stripChars (collapseWs (pyUnescape (stripTags (removeCtrl (pyStr v).data))))

/-- Truncation step of `clean_text` (sanitation.py lines 295-296): when a
`max_length` is given, is truthy (non-zero) and the result is longer, the
result is cut to `result[:max_length - 3]` plus `"..."`. -/
def applyMaxLength (l : List Char) (maxLength : Option Nat) : List Char :=
  match maxLength with
  | Option.none => l
  | some m => if m ≠ 0 ∧ l.length > m then pySliceTo l ((m : Int) - 3) ++ "...".data else l

/-- Embedding of `clean_text` (sanitation.py lines 238-298) with its boolean
flags at their default value `True`: falsy input gives `""`; otherwise the
input is stringified and passed through the cleaning pipeline and the optional
truncation. -/
def clean_text (text : PyVal) (maxLength : Option Nat) : String :=
  if !pyTruthy text then ""
  else ⟨applyMaxLength (cleanCore text) maxLength⟩

/-- Embedding of `clean_title` (sanitation.py line 301): `clean_text` with
maximum length 500. -/
def clean_title (title : PyVal) : String := clean_text title (some 500)

/-- Embedding of `clean_description` (sanitation.py line 315): `clean_text`
with maximum length 5000. -/
def clean_description (description : PyVal) : String := clean_text description (some 5000)

/-! ## RULE 1 of `sanitation.py`: city name standardisation -/

/-- The `CITY_NAME_MAPPINGS` table of sanitation.py lines 43-77, in source
order (a Python dict literal preserves insertion order, and the partial-match
loop iterates in that order). -/
def CITY_NAME_MAPPINGS : List (String × String) :=
  [ ("johannesburg", "Johannesburg"),
    ("jhb", "Johannesburg"),
    ("joburg", "Johannesburg"),
    ("jo\x27burg", "Johannesburg"),
    ("jozi", "Johannesburg"),
    ("egoli", "Johannesburg"),
    ("johannesberg", "Johannesburg"),
    ("johannesburgo", "Johannesburg"),
    ("gauteng", "Johannesburg"),
    ("sandton", "Johannesburg"),
    ("rosebank", "Johannesburg"),
    ("soweto", "Johannesburg"),
    ("midrand", "Johannesburg"),
    ("fourways", "Johannesburg"),
    ("randburg", "Johannesburg"),
    ("roodepoort", "Johannesburg"),
    ("kempton park", "Johannesburg"),
    ("boksburg", "Johannesburg"),
    ("benoni", "Johannesburg"),
    ("alberton", "Johannesburg"),
    ("pretoria", "Pretoria"),
    ("pta", "Pretoria"),
    ("tshwane", "Pretoria"),
    ("city of tshwane", "Pretoria"),
    ("hatfield", "Pretoria"),
    ("menlyn", "Pretoria"),
    ("brooklyn", "Pretoria"),
    ("centurion", "Pretoria"),
    ("arcadia", "Pretoria"),
    ("sunnyside", "Pretoria") ]

/-- Exact dictionary lookup `CITY_NAME_MAPPINGS[normalized]`. -/
def cityExactLookup (normalized : String) : Option String :=
  (CITY_NAME_MAPPINGS.find? (fun kv => kv.1 = normalized)).map (·.2)

/-- Partial-match scan of sanitation.py lines 110-112: the first table entry
whose key is a substring of the normalised city wins. -/
def citySubstringLookup (normalized : String) : Option String :=
  (CITY_NAME_MAPPINGS.find? (fun kv => listContains kv.1.data normalized.data)).map (·.2)

/-- Embedding of `standardize_city_name` (sanitation.py lines 80-115) on a
Python value.  Falsy input returns `None`; a non-string truthy input raises
`AttributeError` at `city.lower()`; otherwise the lowercased, stripped name is
looked up exactly, then by substring, and finally falls back to
`city.strip().title()`. -/
def standardize_city_name (city : PyVal) : Except PyExc PyVal :=
  if !pyTruthy city then .ok .none
  else
    match city with
    | .str s =>
      let normalized := pyStrip (pyLower s)
      match cityExactLookup normalized with
      | some canonical => .ok (.str canonical)
      | Option.none =>
        match citySubstringLookup normalized with
        | some canonical => .ok (.str canonical)
        | Option.none => .ok (.str (pyTitle (pyStrip s)))
    | _ => .error .attributeError

/-- Embedding of `extract_city_from_address` (sanitation.py lines 118-138):
scan the lowercased address for any table key as a substring; `None` when
nothing matches (no title-case fallback).  Falsy input returns `None`; truthy
non-string input raises `AttributeError` at `address.lower()`. -/
def extract_city_from_address (address : PyVal) : Except PyExc PyVal :=
  if !pyTruthy address then .ok .none
  else
    match address with
    | .str s =>
      let addressLower := pyLower s
      match citySubstringLookup addressLower with
      | some canonical => .ok (.str canonical)
      | Option.none => .ok .none
    | _ => .error .attributeError

/-! ## RULE 2 of `sanitation.py`: date parsing -/

/-- Embedding of `datetime.fromtimestamp` on CPython for a 64-bit Linux as
documented: arguments whose rounded value does not fit the platform `time_t`
(here `2^63`) raise `OverflowError`; arguments that fit but fall outside the
representable `datetime` year range 1-9999 raise `ValueError`; in-range
arguments produce the local-time datetime, recorded abstractly as
`PyDatetime.fromTimestamp`.  The year-range bounds are the UTC epoch-second
bounds; they are timezone-dependent in reality, but no claim exercises inputs
within timezone distance of them. -/
def pyFromTimestamp (secs : Rat) : Except PyExc PyDatetime :=
  if secs < -(2 ^ 63 : Int) || secs > (2 ^ 63 : Int) then .error .overflowError
  else if secs < (-62135596800 : Int) || secs > (253402300799 : Int) then .error .valueError
  else .ok (.fromTimestamp secs)

/-- Abstract embedding of `dateutil.parser.parse(s, dayfirst=True, fuzzy=True)`:
strings containing at least one ASCII digit are treated as parseable (their
result is the abstract datetime `PyDatetime.dateutilParsed s`), anything else
raises `ParserError`, which the source catches as a `ValueError`.  Only the
parseable/unparseable split and the stability of the result are relied upon by
the claims; the calendar content of a parse is never inspected. -/
def dateutilParse (s : String) : Option PyDatetime :=
  if s.data.any isAsciiDigit then some (.dateutilParsed s) else Option.none

/-- Numeric branch of `parse_date` (sanitation.py lines 183-191): a value
greater than `1e12` is treated as milliseconds and divided by 1000; then
`datetime.fromtimestamp` is attempted, with only `ValueError` and `OSError`
caught (an `OverflowError` therefore escapes). -/
def parseDateNumeric (q : Rat) (default : Option PyDatetime) :
    Except PyExc (Option PyDatetime) :=
  let q' := if q > (10 ^ 12 : Int) then q / 1000 else q
  match pyFromTimestamp q' with
  | .ok dt => .ok (some dt)
  | .error e => if e = .valueError || e = .osError then .ok default else .error e

/-- Embedding of `parse_date` (sanitation.py lines 145-209).  The branch order
follows the source: `None`, `datetime`, `date`, numeric (`isinstance(x, (int,
float))`, which is also true for `bool` since Python's `bool` is a subtype of
`int`), string, and the unsupported-type fallthrough that returns the default. -/
def parse_date (dateInput : PyVal) (default : Option PyDatetime) :
    Except PyExc (Option PyDatetime) :=
  match dateInput with
  | .none => .ok default
  | .pydatetime dt => .ok (some dt)
  | .pydate d => .ok (some (.atMidnight d))
  | .int n => parseDateNumeric (n : Rat) default
  | .float x => parseDateNumeric x default
  | .bool b => parseDateNumeric (if b then 1 else 0) default
  | .str s =>
    let dateStr := pyStrip s
    if dateStr = "" then .ok default
    else
      match dateutilParse dateStr with
      | some dt => .ok (some dt)
      | Option.none => .ok default
  | .obj _ => .ok default

/-! ## RULE 4 of `sanitation.py`: URL validation -/

/-- Characters allowed after the first character of a URL scheme by
`urllib.parse` (`scheme_chars`): ASCII letters, digits and `+`, `-`, `.`. -/
def isSchemeChar (c : Char) : Bool :=
  isAsciiAlpha c || isAsciiDigit c || c = '+' || c = '-' || c = '.'

/-- Parsed URL in the shape `urllib.parse.urlparse` returns.  The `params`
component (split from the last path segment at `';'`) is left merged into
`path`; `urlunparse` re-joins it with `';'`, so every string this development
manipulates is unaffected by the merge. -/
structure ParsedUrl where
  scheme : String
  netloc : String
  path : String
  query : String
  fragment : String
deriving DecidableEq, Repr

/-- Helper for `pyUrlParse`: split a character list at the first occurrence of
a given character, when present. -/
def splitFirst (c : Char) : List Char → Option (List Char × List Char)
  | [] => Option.none
  | a :: rest =>
    if a = c then some ([], rest)
    else (splitFirst c rest).map (fun p => (a :: p.1, p.2))

/-- Leading/trailing characters stripped by `urllib.parse` before splitting
(WHATWG: C0 controls and space). -/
def isC0OrSpace (c : Char) : Bool := c.toNat ≤ 0x20

/-- Strip leading and trailing C0-control-or-space characters, as
`urllib.parse` does before splitting a URL. -/
def stripEnds (l : List Char) : List Char :=
  ((l.dropWhile isC0OrSpace).reverse.dropWhile isC0OrSpace).reverse

/-- Embedding of `urllib.parse.urlparse` (CPython 3.10+ `urlsplit`, with
`params` merged into `path`): tab/CR/LF are removed and surrounding C0
controls and spaces stripped; a scheme is split off at the first `':'` when the
text before it is a letter followed by scheme characters, and is lowercased;
`'//'` introduces the netloc, which runs to the first `'/'`, `'?'` or `'#'`
(mismatched square brackets in it raise `ValueError`); the fragment is split at
the first `'#'`; the query at the first `'?'`. -/
def pyUrlParse (s : String) : Except PyExc ParsedUrl :=
  let cs0 := (stripEnds s.data).filter (fun c => !(c = '\t' || c.toNat = 0xd || c = '\n'))
  let schemeSplit :=
    match splitFirst ':' cs0 with
    | some (pre, post) =>
      if pre ≠ [] && isAsciiAlpha (pre.headD ' ') && pre.all isSchemeChar
      then (pre.map asciiLower, post)
      else ([], cs0)
    | Option.none => ([], cs0)
  let scheme := schemeSplit.1
  let cs1 := schemeSplit.2
  let netlocSplit :=
    if leadsWith "//".data cs1 then
      let afterSlashes := cs1.drop 2
      (afterSlashes.takeWhile (fun c => !(c = '/' || c = '?' || c = '#')),
       afterSlashes.dropWhile (fun c => !(c = '/' || c = '?' || c = '#')))
    else ([], cs1)
  let netloc := netlocSplit.1
  let cs2 := netlocSplit.2
  if (netloc.contains '[' && !netloc.contains ']') ||
     (netloc.contains ']' && !netloc.contains '[') then .error .valueError
  else
    let fragSplit := match splitFirst '#' cs2 with
                     | some (pre, post) => (pre, post)
                     | Option.none => (cs2, [])
    let querySplit := match splitFirst '?' fragSplit.1 with
                      | some (pre, post) => (pre, post)
                      | Option.none => (fragSplit.1, [])
    .ok ⟨⟨scheme⟩, ⟨netloc⟩, ⟨querySplit.1⟩, ⟨querySplit.2⟩, ⟨fragSplit.2⟩⟩

/-- Embedding of `urllib.parse.urlunparse` (CPython `urlunsplit`, with the
merged `params` convention of `ParsedUrl`). -/
def pyUrlUnparse (p : ParsedUrl) : String :=
  let url0 := p.path.data
  let url1 :=
    if p.netloc ≠ "" || leadsWith "//".data url0 then
      "//".data ++ p.netloc.data ++
        (if url0 ≠ [] && !leadsWith "/".data url0 then '/' :: url0 else url0)
    else url0
  let url2 := if p.scheme ≠ "" then p.scheme.data ++ ':' :: url1 else url1
  let url3 := if p.query ≠ "" then url2 ++ '?' :: p.query.data else url2
  let url4 := if p.fragment ≠ "" then url3 ++ '#' :: p.fragment.data else url3
  ⟨url4⟩

/-- Stage restatement of `pyUrlParse`: the tab/CR/LF removal and the
surrounding C0-control/space strip. -/
def urlPreprocess (s : String) : List Char :=
  (stripEnds s.data).filter (fun c => !(c = '\t' || c.toNat = 0xd || c = '\n'))

/-- Stage restatement of `pyUrlParse`: the scheme split at the first `':'`. -/
def urlSchemeSplit (cs0 : List Char) : List Char × List Char :=
  match splitFirst ':' cs0 with
  | some (pre, post) =>
    if pre ≠ [] && isAsciiAlpha (pre.headD ' ') && pre.all isSchemeChar
    then (pre.map asciiLower, post)
    else ([], cs0)
  | Option.none => ([], cs0)

/-- Stage restatement of `pyUrlParse`: the netloc split after `'//'`. -/
def urlNetlocSplit (cs1 : List Char) : List Char × List Char :=
  if leadsWith "//".data cs1 then
    ((cs1.drop 2).takeWhile (fun c => !(c = '/' || c = '?' || c = '#')),
     (cs1.drop 2).dropWhile (fun c => !(c = '/' || c = '?' || c = '#')))
  else ([], cs1)

/-- Stage restatement of `pyUrlParse`: the bracket check and the fragment and
query splits. -/
def urlTail (scheme netloc cs2 : List Char) : Except PyExc ParsedUrl :=
  if (netloc.contains '[' && !netloc.contains ']') ||
     (netloc.contains ']' && !netloc.contains '[') then .error .valueError
  else
    let fragSplit := match splitFirst '#' cs2 with
                     | some (pre, post) => (pre, post)
                     | Option.none => (cs2, [])
    let querySplit := match splitFirst '?' fragSplit.1 with
                      | some (pre, post) => (pre, post)
                      | Option.none => (fragSplit.1, [])
    .ok ⟨⟨scheme⟩, ⟨netloc⟩, ⟨querySplit.1⟩, ⟨querySplit.2⟩, ⟨fragSplit.2⟩⟩

/-- Modelled from the spec: whether the optional `validators` package is
importable.  The repository's dependency manifest is not part of the sources
under verification; the specification's URL examples (`"not a url"` rejected)
and the repository's own test `test_validate_invalid_url` both require the
package to be present, so `HAS_VALIDATORS` is modelled as `True`. -/
def HAS_VALIDATORS : Bool := true

/-- Characters the modelled `validators.url` accepts inside a host name. -/
def isHostChar (c : Char) : Bool :=
  isAsciiAlpha c || isAsciiDigit c || c = '.' || c = '-' || c = '_' || c = ':' || c = '@'

/-- Printable non-whitespace character (above the C0 controls and the space,
and not a Unicode whitespace character, mirroring `\S` in the library's
pattern). -/
def isPrintableCh (c : Char) : Bool := 0x20 < c.toNat && !pyIsSpace c

/-- Modelled from the spec: the `validators` package's `validators.url`
predicate, which the spec summarises as rejecting structurally invalid URLs
(e.g. ones whose host contains spaces).  The model accepts exactly the
`http`/`https` URLs whose host is non-empty, contains a dot, and consists of
host-name characters, and whose path, query and fragment consist of printable
non-space characters; this is the fragment of the real library's regex (whose
character classes only match printable characters) that the claims exercise. -/
def validatorsUrl (s : String) : Bool :=
  match pyUrlParse s with
  | .error _ => false
  | .ok p =>
    (p.scheme = "http" || p.scheme = "https") &&
    p.netloc ≠ "" && p.netloc.data.contains '.' && p.netloc.data.all isHostChar &&
    p.path.data.all isPrintableCh && p.query.data.all isPrintableCh &&
    p.fragment.data.all isPrintableCh

/-- Stage restatement of `validate_and_clean_url`: the scheme prepended to a
URL that lacks one (`https://`, or `https:` before a protocol-relative `//`). -/
def schemePrefix (u : String) : String :=
  if !(leadsWith "http://".data u.data || leadsWith "https://".data u.data ||
       leadsWith "//".data u.data)
  then "https://" ++ u
  else if leadsWith "//".data u.data then "https:" ++ u
  else u

/-- Stage restatement of `validate_and_clean_url`: parsing and the checks on
the parse result. -/
def validateTail (u2 : String) : String :=
  match pyUrlParse u2 with
  | .error _ => ""
  | .ok p =>
    if p.scheme = "" || p.netloc = "" then ""
    else if p.scheme ≠ "http" && p.scheme ≠ "https" then ""
    else if HAS_VALIDATORS && !validatorsUrl u2 then ""
    else pyUrlUnparse p

/-- Embedding of `validate_and_clean_url` (sanitation.py lines 333-394): falsy
input and whitespace-only input give `""`; a scheme is prepended when missing
(`https://`, or `https:` before a protocol-relative `//`); the URL is parsed,
required to have a scheme in `http`/`https` and a netloc, optionally checked by
`validators.url`, and reconstructed with `urlunparse`; any parse error yields
`""`. -/
def validate_and_clean_url (url : PyVal) : String :=
  if !pyTruthy url then ""
  else
    let u := pyStrip (pyStr url)
    if u = "" then ""
    else validateTail (schemePrefix u)

/-! ## The composite sanitiser and the event-record shape -/

/-- Raw or sanitised event record: one optional slot per field name that the
pipeline and the ingestion flows mention.  `Option.none` models the key being
absent from the Python dict; `some v` models the key being present with value
`v` (possibly `PyVal.none`). -/
structure EventData where
  title : Option PyVal := Option.none
  description : Option PyVal := Option.none
  city : Option PyVal := Option.none
  address : Option PyVal := Option.none
  venue_name : Option PyVal := Option.none
  category : Option PyVal := Option.none
  event_url : Option PyVal := Option.none
  image_url : Option PyVal := Option.none
  start_date : Option PyVal := Option.none
  source : Option PyVal := Option.none
  source_id : Option PyVal := Option.none
  latitude : Option PyVal := Option.none
  longitude : Option PyVal := Option.none
  raw_payload : Option PyVal := Option.none
deriving DecidableEq, Repr

/-- Stage of `sanitize_event_data` (sanitation.py lines 416-464): the `title`
key (line 431). -/
def sanitizeTitle (o : Option PyVal) : Except PyExc (Option PyVal) :=
  match o with
  | some v => pure (some (PyVal.str (clean_title v)))
  | Option.none => pure Option.none

/-- Stage of `sanitize_event_data`: the `description` key (line 434). -/
def sanitizeDescription (o : Option PyVal) : Except PyExc (Option PyVal) :=
  match o with
  | some v => pure (some (PyVal.str (clean_description v)))
  | Option.none => pure Option.none

/-- Stage of `sanitize_event_data`: the `city` key, with the fallback to
extraction from `address` when `city` is absent (lines 437-443). -/
def sanitizeCity (city address : Option PyVal) : Except PyExc (Option PyVal) :=
  match city with
  | some v => do
      let c ← standardize_city_name v
      pure (some c)
  | Option.none =>
    match address with
    | some a => do
        let c ← extract_city_from_address a
        pure (some c)
    | Option.none => pure Option.none

/-- Stage of `sanitize_event_data`: the `start_date` key (lines 446-448). -/
def sanitizeStartDate (o : Option PyVal) : Except PyExc (Option PyVal) :=
  match o with
  | some v => do
      let d ← parse_date v Option.none
      pure (some (match d with
                  | some dt => PyVal.pydatetime dt
                  | Option.none => PyVal.none))
  | Option.none => pure Option.none

/-- Stage of `sanitize_event_data`: the `venue_name` key (line 451). -/
def sanitizeVenueName (o : Option PyVal) : Except PyExc (Option PyVal) :=
  match o with
  | some v => pure (some (PyVal.str (clean_text v (some 500))))
  | Option.none => pure Option.none

/-- Stage of `sanitize_event_data`: the `event_url` key (line 454). -/
def sanitizeEventUrl (o : Option PyVal) : Except PyExc (Option PyVal) :=
  match o with
  | some v => pure (some (PyVal.str (validate_and_clean_url v)))
  | Option.none => pure Option.none

/-- Stage of `sanitize_event_data`: the `category` key (line 457). -/
def sanitizeCategory (o : Option PyVal) : Except PyExc (Option PyVal) :=
  match o with
  | some v => pure (some (PyVal.str (clean_text v (some 200))))
  | Option.none => pure Option.none

/-- Stage of `sanitize_event_data`: the `address` key (line 460). -/
def sanitizeAddress (o : Option PyVal) : Except PyExc (Option PyVal) :=
  match o with
  | some v => pure (some (PyVal.str (clean_text v (some 500))))
  | Option.none => pure Option.none

/-- Embedding of `sanitize_event_data` (sanitation.py lines 416-464): each
recognised key is transformed when present (`city` falls back to extraction
from `address` when the `city` key is absent); `start_date` is parsed with
default `None`; all other keys pass through unchanged.  An exception raised by
any field transformer propagates, as in the source. -/
def sanitize_event_data (data : EventData) : Except PyExc EventData := do
  let title ← sanitizeTitle data.title
  let description ← sanitizeDescription data.description
  let city ← sanitizeCity data.city data.address
  let startDate ← sanitizeStartDate data.start_date
  let venueName ← sanitizeVenueName data.venue_name
  let eventUrl ← sanitizeEventUrl data.event_url
  let category ← sanitizeCategory data.category
  let address ← sanitizeAddress data.address
  pure { data with
         title := title, description := description, city := city,
         start_date := startDate, venue_name := venueName,
         event_url := eventUrl, category := category, address := address }

/-! ## Ingestion: deduplication at the fetcher and the two upsert loops

The storage layer (Django ORM over the `Event` model, whose `source_id` column
carries a unique constraint) is modelled as an association list from `source_id`
values to the field set written by `update_or_create`; `update_or_create`
becomes lookup-then-replace-or-append.  The race in which a concurrent
ingestion inserts the same key between the lookup and the insert surfaces in
the source as an `IntegrityError`; the per-record classifiers below therefore
take the storage outcome as an explicit parameter so that this outcome can be
injected, while the sequential batch model computes the outcome from the
store. -/

/-- Field set written by `update_or_create` in both entry points
(ingest_events.py lines 115-132, admin.py lines 186-203), with the `.get`
defaults of the source: empty strings, city `'Johannesburg'`, source
`'google_places'`, `None` coordinates and an empty dict payload (`PyVal.obj 0`
models the empty dict literal). -/
structure StoredFields where
  title : PyVal
  venue_name : PyVal
  description : PyVal
  city : PyVal
  address : PyVal
  category : PyVal
  event_url : PyVal
  image_url : PyVal
  latitude : PyVal
  longitude : PyVal
  source : PyVal
  start_date : PyVal
  raw_payload : PyVal
deriving DecidableEq, Repr

/-- Defaults applied by the `sanitized.get(key, default)` calls that build the
`update_or_create` field set. -/
def storedFieldsOf (s : EventData) : StoredFields where
  title := s.title.getD (.str "")
  venue_name := s.venue_name.getD (.str "")
  description := s.description.getD (.str "")
  city := s.city.getD (.str "Johannesburg")
  address := s.address.getD (.str "")
  category := s.category.getD (.str "")
  event_url := s.event_url.getD (.str "")
  image_url := s.image_url.getD (.str "")
  latitude := s.latitude.getD .none
  longitude := s.longitude.getD .none
  source := s.source.getD (.str "google_places")
  start_date := s.start_date.getD .none
  raw_payload := s.raw_payload.getD (.obj 0)

/-- Storage table: rows keyed by the unique `source_id` value, in insertion
order. -/
def Store := List (PyVal × StoredFields)
deriving DecidableEq

/-- Embedding of `Event.objects.update_or_create(source_id=..., defaults=...)`
against the sequential store: replace the fields of the existing row with that
key, or append a new row; the boolean is Django's `created` flag. -/
def upsertStore (st : Store) (sid : PyVal) (f : StoredFields) : Store × Bool :=
  match st with
  | [] => ([(sid, f)], true)
  | (k, g) :: rest =>
    if k = sid then ((k, f) :: rest, false)
    else
      let r := upsertStore rest sid f
      ((k, g) :: r.1, r.2)

/-- Per-record tallies kept by both ingestion entry points. -/
structure Counts where
  created : Nat
  updated : Nat
  skipped : Nat
  errors : Nat
deriving DecidableEq, Repr

/-- Zero tallies. -/
def Counts.zero : Counts := ⟨0, 0, 0, 0⟩

/-- Classification of one processed record. -/
inductive RecordResult
  | created
  | updated
  | skipped
  | error
deriving DecidableEq, Repr

/-- Add one record's classification to the tallies. -/
def Counts.add (c : Counts) : RecordResult → Counts
  | .created => { c with created := c.created + 1 }
  | .updated => { c with updated := c.updated + 1 }
  | .skipped => { c with skipped := c.skipped + 1 }
  | .error => { c with errors := c.errors + 1 }

/-- Outcome of the `update_or_create` storage call, as seen by the caller:
success with Django's `created` flag, an `IntegrityError` (the uniqueness race
on `source_id`), or any other exception. -/
inductive UpsertOutcome
  | ok (created : Bool)
  | integrityError
  | otherError
deriving DecidableEq, Repr

/-- The `source_id` lookup both entry points perform:
`sanitized.get('source_id')` followed by the falsiness test `if not source_id`.
Returns the value when the key is present and truthy. -/
def truthySourceId (s : EventData) : Option PyVal :=
  match s.source_id with
  | some v => if pyTruthy v then some v else Option.none
  | Option.none => Option.none

/-- Per-record control flow of the management command's loop body
(ingest_events.py lines 90-158), given the sanitation result and the storage
outcome.  The `dry_run` check precedes the `source_id` check; `IntegrityError`
is caught by its own `except` arm, which increments the error tally
(lines 145-151); every other exception is caught by the generic arm
(lines 152-158).  No exception propagates. -/
def commandRecordResult (dryRun : Bool) (sanitized : Except PyExc EventData)
    (storage : UpsertOutcome) : RecordResult :=
  match sanitized with
  | .error _ => .error
  | .ok s =>
    if dryRun then .created
    else
      match truthySourceId s with
      | Option.none => .skipped
      | some _ =>
        match storage with
        | .ok true => .created
        | .ok false => .updated
        | .integrityError => .error
        | .otherError => .error

/-- Per-record control flow of `EventAdmin._process_venue`
(admin.py lines 173-208), given the sanitation result and the storage outcome.
The `source_id` check precedes the `dry_run` check; the inner
`except IntegrityError` returns `'skipped'` (lines 205-206) and the outer
`except Exception` returns `'error'`.  No exception propagates. -/
def adminRecordResult (dryRun : Bool) (sanitized : Except PyExc EventData)
    (storage : UpsertOutcome) : RecordResult :=
  match sanitized with
  | .error _ => .error
  | .ok s =>
    match truthySourceId s with
    | Option.none => .skipped
    | some _ =>
      if dryRun then .created
      else
        match storage with
        | .ok true => .created
        | .ok false => .updated
        | .integrityError => .skipped
        | .otherError => .error

/-- One iteration of the management command's `for venue_data in venues` loop
(ingest_events.py lines 90-158) in the sequential (race-free) storage model:
sanitise, honour `dry_run` before anything touches storage, skip records
without a truthy `source_id`, and otherwise upsert. -/
def commandStep (dryRun : Bool) (acc : Store × Counts) (raw : EventData) :
    Store × Counts :=
  match sanitize_event_data raw with
  | .error _ => (acc.1, acc.2.add .error)
  | .ok s =>
    if dryRun then (acc.1, acc.2.add .created)
    else
      match truthySourceId s with
      | Option.none => (acc.1, acc.2.add .skipped)
      | some sid =>
        let r := upsertStore acc.1 sid (storedFieldsOf s)
        (r.1, acc.2.add (if r.2 then .created else .updated))

/-- The management command's whole processing loop over fetched venues,
starting from a given store. -/
def commandIngest (dryRun : Bool) (venues : List EventData) (st : Store) :
    Store × Counts :=
  venues.foldl (commandStep dryRun) (st, Counts.zero)

/-- Deduplication step of `GooglePlacesService.search_event_venues`
(google_places.py lines 204-212): keep the first venue for each `source_id`
value, preserving order.  `_transform_place` always populates `source_id`, so
the `venue['source_id']` subscript never raises for fetcher output; the model
reads the record's `source_id` slot directly. -/
def dedupBySourceId (seen : List (Option PyVal)) : List EventData → List EventData
  | [] => []
  | v :: rest =>
    if v.source_id ∈ seen then dedupBySourceId seen rest
    else v :: dedupBySourceId (v.source_id :: seen) rest

/-- Embedding of the tail of `search_event_venues` (google_places.py lines
204-212): the accumulated API results are deduplicated by `source_id` and cut
to `max_results` (`unique_venues[:max_results]`).  The upstream HTTP fetching
is the external collaborator; `raw` stands for the accumulated `all_venues`
list. -/
def searchEventVenues (raw : List EventData) (maxResults : Nat) : List EventData :=
  (dedupBySourceId [] raw).take maxResults

/-- Embedding of `search_all_cities` (google_places.py lines 387-408): the
per-city result lists are each produced by `search_event_venues` and then
concatenated, with no cross-city deduplication.  `rawPerCity` holds each
city's accumulated raw API results. -/
def searchAllCities (rawPerCity : List (List EventData)) (maxPerCity : Nat) :
    List EventData :=
  (rawPerCity.map (fun r => searchEventVenues r maxPerCity)).flatten

/-- The management command's single-city path (`ingest_events.py` lines 75-77
feeding the loop at lines 90-158): fetch-with-dedup, then process. -/
def commandIngestCity (dryRun : Bool) (raw : List EventData) (maxResults : Nat)
    (st : Store) : Store × Counts :=
  commandIngest dryRun (searchEventVenues raw maxResults) st

/-! ## Predicates and concrete records used by the claim statements -/

/-- Python `str.upper` (ASCII fragment). -/
def pyUpper (s : String) : String := ⟨s.data.map asciiUpper⟩

/-- Test for a match of the tag regex `<[^>]+>` at the head of the list. -/
def tagAt (cs : List Char) : Bool :=
  match cs with
  | '<' :: rest =>
    (match splitGt rest with
     | some (pre, _) => decide (pre ≠ [])
     | Option.none => false)
  | _ => false

/-- Test whether any position of the list starts a match of `<[^>]+>`, i.e.
whether the string contains an HTML-tag-shaped substring. -/
def hasTag : List Char → Bool
  | [] => false
  | c :: rest => tagAt (c :: rest) || hasTag rest

/-- Absence of ampersands, the trigger of HTML character-reference decoding. -/
def noAmp (s : String) : Bool := !s.data.contains '&'

/-- Absence of the control characters matched by `SPECIAL_CHARS_PATTERN`. -/
def noCtrl (s : String) : Bool := s.data.all (fun c => !isCtrlChar c)

/-- No two adjacent whitespace characters. -/
def noTwoSpaces : List Char → Bool
  | c1 :: c2 :: rest => !(pyIsSpace c1 && pyIsSpace c2) && noTwoSpaces (c2 :: rest)
  | _ => true

/-- Every whitespace character is a plain ASCII space. -/
def spacesAreBlank (l : List Char) : Bool := l.all (fun c => !pyIsSpace c || c = ' ')

/-- The first character, if any, is not whitespace. -/
def headNotSpace (l : List Char) : Bool :=
  match l.head? with
  | some c => !pyIsSpace c
  | Option.none => true

/-- The last character, if any, is not whitespace. -/
def lastNotSpace (l : List Char) : Bool :=
  match l.getLast? with
  | some c => !pyIsSpace c
  | Option.none => true

/-- Collapsed-and-trimmed whitespace: all whitespace is the single ASCII
space, never doubled, and neither end is whitespace. -/
def wsCollapsed (s : String) : Bool :=
  spacesAreBlank s.data && noTwoSpaces s.data && headNotSpace s.data && lastNotSpace s.data

/-- Freedom from HTML-tag-shaped substrings. -/
def tagFree (s : String) : Bool := !hasTag s.data

/-- Plain-text invariant claimed for a sanitised text field of bound `m`: when
the slot is present its value is a string with no control characters, collapsed
and trimmed whitespace, and length at most `m`. -/
def plainTextField (m : Nat) (o : Option PyVal) : Prop :=
  ∀ v, o = some v → ∃ s, v = PyVal.str s ∧ noCtrl s = true ∧ wsCollapsed s = true ∧ s.length ≤ m

/-- Syntactic validity of an output URL as the claims state it: it parses, its
scheme is `http` or `https`, and its host is present. -/
def isValidHttpUrl (s : String) : Bool :=
  match pyUrlParse s with
  | .ok p => (p.scheme = "http" || p.scheme = "https") && p.netloc ≠ ""
  | .error _ => false

/-- Raw venue record used by the batch scenarios: carries
`source_id = "google_places:abc"`. -/
def venueOne : EventData :=
  { title := some (.str "Venue One"),
    city := some (.str "jhb"),
    source_id := some (.str "google_places:abc") }

/-- Second raw venue record with the same `source_id` as `venueOne`. -/
def venueTwo : EventData :=
  { title := some (.str "Venue Two"),
    city := some (.str "pta"),
    source_id := some (.str "google_places:abc") }

/-- Raw venue record with no `source_id` key. -/
def venueNoId : EventData :=
  { title := some (.str "Venue Without Id") }

/-- The sanitised form of `venueOne` (title cleaned, city canonicalised,
`source_id` passed through). -/
def sanitizedVenueOne : EventData :=
  { title := some (.str "Venue One"),
    city := some (.str "Johannesburg"),
    source_id := some (.str "google_places:abc") }

/-- Record whose description holds a double-escaped ampersand entity; feeding
its sanitised form through the sanitiser again decodes one more level. -/
def doubleEscapedRecord : EventData :=
  { description := some (.str "Tom &amp;amp; Jerry") }

/-- Record whose title holds an escaped tag, which `clean_text` decodes into
real markup after tag stripping has already run. -/
def escapedTagRecord : EventData :=
  { title := some (.str "&lt;b&gt;") }

/-- Result of `clean_text` before the truncation step (equivalently,
`clean_text` with no `max_length`): the "cleaned form" the truncation contract
speaks about. -/
def cleanUntruncated (v : PyVal) : String :=
  if !pyTruthy v then "" else ⟨cleanCore v⟩

/-- Decidable equality for `Except`, needed to evaluate embedded fallible
functions inside `decide`. -/
instance {ε α : Type} [DecidableEq ε] [DecidableEq α] : DecidableEq (Except ε α) := fun x y =>
  match x, y with
  | .ok a, .ok b => if h : a = b then isTrue (by rw [h]) else isFalse (by simpa using h)
  | .error e, .error f => if h : e = f then isTrue (by rw [h]) else isFalse (by simpa using h)
  | .ok _, .error _ => isFalse (by simp)
  | .error _, .ok _ => isFalse (by simp)

/-! # Theorems

One main theorem per claim of CLAIMS.json, preceded by the supporting lemmas.
Counterexample theorems are closed evaluations of the embedded code at
explicit inputs. -/

/-- Claim C3 (code evaluated at the failing input): `parse_date(10**30, None)`
raises `OverflowError` instead of returning the default.  The value exceeds
`1e12`, is divided by 1000, and `datetime.fromtimestamp` then overflows the
platform `time_t`; the surrounding `except` clause catches only `ValueError`
and `OSError`, so the `OverflowError` escapes, contradicting the claim that
every failure path returns the given default. -/
theorem C3_parse_date_overflow_escapes :
    parse_date (.int (10 ^ 30)) Option.none = .error .overflowError := by
  simp only [parse_date, parseDateNumeric, pyFromTimestamp]
  norm_num
  rintro (h | h) <;> exact absurd h (by decide)

/-- Claim C10: `parse_date` treats booleans as numeric Unix timestamps because
Python's `bool` is a subtype of `int`: `True` yields the local-time datetime of
epoch second 1 and `False` that of epoch second 0, for every default, instead
of the unsupported-type branch returning the default. -/
theorem C10_parse_date_bool_is_numeric (d : Option PyDatetime) :
    parse_date (.bool true) d = .ok (some (.fromTimestamp 1)) ∧
    parse_date (.bool false) d = .ok (some (.fromTimestamp 0)) := by
  have h1 : pyFromTimestamp 1 = .ok (.fromTimestamp 1) := by decide
  have h0 : pyFromTimestamp 0 = .ok (.fromTimestamp 0) := by decide
  have hc1 : ((1 : Rat) > ((10 : Int) ^ 12 : Int)) = False := by norm_num
  have hc0 : ((0 : Rat) > ((10 : Int) ^ 12 : Int)) = False := by norm_num
  constructor <;>
    simp [parse_date, parseDateNumeric, hc1, hc0, h1, h0]

/-- Witness for C10 at the concrete default `None`. -/
theorem C10_parse_date_bool_is_numeric_witness :
    parse_date (.bool true) Option.none = .ok (some (.fromTimestamp 1)) ∧
    parse_date (.bool false) Option.none = .ok (some (.fromTimestamp 0)) :=
  C10_parse_date_bool_is_numeric Option.none

/-- Claim C1 counterexample: in the management command, a record with a truthy
`source_id` whose upsert hits an `IntegrityError` is classified as an error --
the errors counter is incremented and the skipped counter is not -- refuting
the claim that both ingestion entry points classify it as skipped. -/
theorem C1_counterexample_command_counts_race_as_error :
    commandRecordResult false (sanitize_event_data venueOne) .integrityError
      = .error ∧
    Counts.zero.add
        (commandRecordResult false (sanitize_event_data venueOne) .integrityError)
      = ⟨0, 0, 0, 1⟩ := by
  decide

/-- Claim C1 as amended: a storage-layer uniqueness violation during the upsert
never propagates from either entry point, and is classified as skipped by the
admin view but as an error (not skipped) by the management command, for every
record carrying a truthy `source_id`. -/
theorem C1_integrity_error_admin_skips_command_errors
    (s : EventData) (sid : PyVal) (h : truthySourceId s = some sid) :
    adminRecordResult false (.ok s) .integrityError = .skipped ∧
    commandRecordResult false (.ok s) .integrityError = .error := by
  constructor <;> simp [adminRecordResult, commandRecordResult, h]

/-- Witness for the amended C1 at a concrete record. -/
theorem C1_integrity_error_admin_skips_command_errors_witness :
    adminRecordResult false (.ok venueOne) .integrityError = .skipped ∧
    commandRecordResult false (.ok venueOne) .integrityError = .error :=
  C1_integrity_error_admin_skips_command_errors venueOne
    (.str "google_places:abc") (by decide)

/-- Claim C5 counterexample: in the management command's dry-run mode, a record
without a `source_id` is tallied as created, not skipped, because the dry-run
check precedes the `source_id` check (ingest_events.py lines 101-112). -/
theorem C5_counterexample_dry_run_missing_id_counted_created :
    (commandIngest true [venueNoId] []).2 = ⟨1, 0, 0, 0⟩ := by
  decide

/-- Dry-run processing in the management command never changes the store. -/
theorem dryRunFoldStore (venues : List EventData) (acc : Store × Counts) :
    (venues.foldl (commandStep true) acc).1 = acc.1 := by
  induction venues generalizing acc with
  | nil => rfl
  | cons v vs ih =>
    rw [List.foldl_cons, ih]
    cases h : sanitize_event_data v <;> simp [commandStep, h]

/-- Dry-run processing in the management command tallies every record whose
sanitation succeeds as created, regardless of `source_id`. -/
theorem dryRunFoldCounts (venues : List EventData) :
    ∀ acc : Store × Counts,
      (∀ v ∈ venues, (sanitize_event_data v).isOk = true) →
      (venues.foldl (commandStep true) acc).2 =
        { acc.2 with created := acc.2.created + venues.length } := by
  induction venues with
  | nil => intro acc _; simp
  | cons v vs ih =>
    intro acc h
    have hv := h v (by simp)
    have hvs : ∀ w ∈ vs, (sanitize_event_data w).isOk = true := by
      intro w hw; exact h w (by simp [hw])
    rw [List.foldl_cons]
    cases hs : sanitize_event_data v with
    | error e => rw [hs] at hv; simp [Except.isOk, Except.toBool] at hv
    | ok y =>
      rw [ih _ hvs]
      obtain ⟨st, c⟩ := acc
      obtain ⟨a, b, c1, d⟩ := c
      simp [commandStep, hs, Counts.add]
      omega

/-- Claim C5 as amended: dry-run ingestion never writes to storage in the
management command, and tallies every record whose sanitation succeeds as
created -- including records without a `source_id`, since the dry-run check
precedes the `source_id` check; in the admin view the `source_id` check comes
first, so a record without one is tallied as skipped even under dry run and
records with one as created. -/
theorem C5_dry_run_never_writes_and_tallies
    (venues : List EventData) (st : Store) (s : EventData) (o : UpsertOutcome)
    (hok : ∀ v ∈ venues, (sanitize_event_data v).isOk = true) :
    (commandIngest true venues st).1 = st ∧
    (commandIngest true venues st).2 = ⟨venues.length, 0, 0, 0⟩ ∧
    (truthySourceId s = Option.none → adminRecordResult true (.ok s) o = .skipped) ∧
    (∀ sid, truthySourceId s = some sid → adminRecordResult true (.ok s) o = .created) := by
  refine ⟨dryRunFoldStore venues (st, Counts.zero), ?_, ?_, ?_⟩
  · rw [commandIngest, dryRunFoldCounts venues (st, Counts.zero) hok]
    simp [Counts.zero]
  · intro h; simp [adminRecordResult, h]
  · intro sid h; simp [adminRecordResult, h]

/-- Witness for the amended C5: one dry run over a record with no `source_id`
leaves the empty store empty and reports it as created; the admin classifier
skips the same record under dry run. -/
theorem C5_dry_run_never_writes_and_tallies_witness :
    (commandIngest true [venueNoId] []).1 = [] ∧
    (commandIngest true [venueNoId] []).2 = ⟨1, 0, 0, 0⟩ ∧
    (truthySourceId venueNoId = Option.none →
      adminRecordResult true (.ok venueNoId) .otherError = .skipped) ∧
    (∀ sid, truthySourceId venueNoId = some sid →
      adminRecordResult true (.ok venueNoId) .otherError = .created) :=
  C5_dry_run_never_writes_and_tallies [venueNoId] [] venueNoId .otherError
    (by intro v hv; simp at hv; subst hv; decide)

/-- Claim C4 counterexample: the all-cities batch concatenates per-city
deduplicated lists with no cross-city deduplication, so a venue returned by two
city searches survives into the batch twice and its second occurrence is
processed and tallied (as updated) rather than dropped before sanitation. -/
theorem C4_counterexample_all_cities_duplicate_is_tallied :
    (searchAllCities [[venueOne], [venueOne]] 50).length = 2 ∧
    (commandIngest false (searchAllCities [[venueOne], [venueOne]] 50) []).2
      = ⟨1, 1, 0, 0⟩ := by
  decide

/-- Claim C4 as amended: within one city's fetch, records sharing a
`source_id` are deduplicated before sanitation keeping the first occurrence
(so the dropped duplicate is counted under no tally), and ingesting two raw
records sharing `source_id = "google_places:abc"` from an empty store creates
exactly one row and reports `created = 1`; across the all-cities batch the
deduplication is per city only (see the counterexample). -/
theorem C4_single_city_dedup_first_occurrence :
    (∀ r1 r2 : EventData, r1.source_id = r2.source_id →
        searchEventVenues [r1, r2] 50 = [r1]) ∧
    (commandIngestCity false [venueOne, venueTwo] 50 []).1.map Prod.fst
        = [PyVal.str "google_places:abc"] ∧
    (commandIngestCity false [venueOne, venueTwo] 50 []).2 = ⟨1, 0, 0, 0⟩ := by
  refine ⟨?_, by decide, by decide⟩
  intro r1 r2 h
  simp [searchEventVenues, dedupBySourceId, h]

/-- Witness for the amended C4 at the concrete duplicate pair. -/
theorem C4_single_city_dedup_first_occurrence_witness :
    searchEventVenues [venueOne, venueTwo] 50 = [venueOne] :=
  C4_single_city_dedup_first_occurrence.1 venueOne venueTwo (by decide)

/-- Claim C9: every alias of the static table normalises to its canonical city,
as does its uppercased and space-padded form; a non-empty name matching no
alias exactly or as a substring is returned trimmed and title-cased rather than
rejected; in particular `"Cape Town"` normalises to `"Cape Town"`. -/
theorem C9_city_alias_coverage_and_fallback :
    (∀ p ∈ CITY_NAME_MAPPINGS,
        standardize_city_name (.str p.1) = .ok (.str p.2) ∧
        standardize_city_name (.str (pyUpper p.1)) = .ok (.str p.2) ∧
        standardize_city_name (.str (" " ++ p.1 ++ " ")) = .ok (.str p.2)) ∧
    (∀ s : String, s ≠ "" →
        cityExactLookup (pyStrip (pyLower s)) = Option.none →
        citySubstringLookup (pyStrip (pyLower s)) = Option.none →
        standardize_city_name (.str s) = .ok (.str (pyTitle (pyStrip s)))) ∧
    standardize_city_name (.str "Cape Town") = .ok (.str "Cape Town") := by
  refine ⟨by decide, ?_, by decide⟩
  intro s hne h1 h2
  simp [standardize_city_name, pyTruthy, hne, h1, h2]

/-- Witness for C9 at a table alias and at the unmapped name of the claim. -/
theorem C9_city_alias_coverage_and_fallback_witness :
    standardize_city_name (.str "jhb") = .ok (.str "Johannesburg") ∧
    standardize_city_name (.str "Cape Town") = .ok (.str "Cape Town") :=
  ⟨(C9_city_alias_coverage_and_fallback.1 ("jhb", "Johannesburg") (by decide)).1,
   C9_city_alias_coverage_and_fallback.2.2⟩

/-- Claim C8 counterexample: for `maxLength = 1` (below the length of the
ellipsis marker), Python's negative slice `result[:-2]` makes the truncated
result three characters long, not `maxLength` long: `clean("ab", 1)` is
`"..."`. -/
theorem C8_counterexample_small_max_length :
    clean_text (.str "ab") (some 1) = "..." ∧
    (clean_text (.str "ab") (some 1)).length ≠ 1 := by
  decide

/-- Claim C8 as amended: for every `maxLength` of at least 3 (every call site
uses 200, 500 or 5000), an input whose cleaned form is longer than `maxLength`
is truncated to exactly `maxLength - 3` characters plus `"..."`, giving total
length exactly `maxLength` and the ellipsis as suffix; for `maxLength` of 1 or
2 the negative slice makes the result longer than `maxLength` (see the
counterexample). -/
theorem C8_truncation_exact (v : PyVal) (m : Nat) (h3 : 3 ≤ m)
    (hlong : (cleanUntruncated v).length > m) :
    clean_text v (some m)
        = ⟨(cleanUntruncated v).data.take (m - 3) ++ "...".data⟩ ∧
    (clean_text v (some m)).length = m ∧
    ∃ p, (clean_text v (some m)).data = p ++ "...".data := by
  by_cases ht : pyTruthy v = true
  · have hcore : (cleanCore v).length > m := by
      have : cleanUntruncated v = ⟨cleanCore v⟩ := by simp [cleanUntruncated, ht]
      rw [this] at hlong
      simpa [String.length] using hlong
    have hm0 : m ≠ 0 := by omega
    have hslice : pySliceTo (cleanCore v) ((m : Int) - 3) = (cleanCore v).take (m - 3) := by
      have hpos : (0 : Int) ≤ (m : Int) - 3 := by omega
      have : ((m : Int) - 3).toNat = m - 3 := by omega
      simp [pySliceTo, hpos, this]
    have happ : applyMaxLength (cleanCore v) (some m)
        = (cleanCore v).take (m - 3) ++ "...".data := by
      simp [applyMaxLength, hm0, hcore, hslice]
    have hclean : clean_text v (some m) = ⟨(cleanCore v).take (m - 3) ++ "...".data⟩ := by
      simp [clean_text, ht, happ]
    have hcu : (cleanUntruncated v).data = cleanCore v := by
      simp [cleanUntruncated, ht]
    refine ⟨by rw [hclean, hcu], ?_, ⟨(cleanCore v).take (m - 3), by rw [hclean]⟩⟩
    rw [hclean]
    have : ((cleanCore v).take (m - 3)).length = m - 3 := by
      rw [List.length_take]
      omega
    simp [String.length, this]
    omega
  · exfalso
    have : cleanUntruncated v = "" := by
      simp [cleanUntruncated, ht]
    rw [this] at hlong
    simp [String.length] at hlong

/-- Witness for the amended C8: `clean("A"*100, maxLength=50)` is the first 47
characters plus `"..."`, has length exactly 50, and ends with the ellipsis. -/
theorem C8_truncation_exact_witness :
    clean_text (.str (String.mk (List.replicate 100 'A'))) (some 50)
        = ⟨(cleanUntruncated (.str (String.mk (List.replicate 100 'A')))).data.take (50 - 3)
            ++ "...".data⟩ ∧
    (clean_text (.str (String.mk (List.replicate 100 'A'))) (some 50)).length = 50 ∧
    ∃ p, (clean_text (.str (String.mk (List.replicate 100 'A'))) (some 50)).data
            = p ++ "...".data :=
  C8_truncation_exact (.str (String.mk (List.replicate 100 'A'))) 50
    (by norm_num) (by decide)

/-! ## Lemmas about the tag stripper -/

/-- Characterisation of a successful `splitGt`: the input decomposes as the
pre-run, the first `'>'`, and the remainder, with no `'>'` in the pre-run. -/
theorem splitGt_eq_some (cs : List Char) (pre : List Char)
    (post : { l : List Char // l.length < cs.length })
    (h : splitGt cs = some (pre, post)) :
    cs = pre ++ '>' :: post.1 ∧ '>' ∉ pre := by
  induction cs generalizing pre with
  | nil => simp [splitGt] at h
  | cons c rest ih =>
    by_cases hc : c = '>'
    · subst hc
      simp only [splitGt, if_pos rfl] at h
      obtain ⟨h1, h2⟩ := Prod.mk.injEq .. ▸ Option.some.injEq .. ▸ h
      cases h1
      simp only [← h2]
      exact ⟨rfl, by simp⟩
    · simp only [splitGt, if_neg hc] at h
      cases hsub : splitGt rest with
      | none => rw [hsub] at h; simp at h
      | some pr =>
        obtain ⟨pre', post'⟩ := pr
        rw [hsub] at h
        simp only [Option.map_some] at h
        obtain ⟨h1, h2⟩ := Prod.mk.injEq .. ▸ Option.some.injEq .. ▸ h
        obtain ⟨hdec, hmem⟩ := ih pre' post' hsub
        subst h1
        constructor
        · simp only [List.cons_append]
          rw [← h2]
          simp [hdec]
        · simp only [List.mem_cons, not_or]
          exact ⟨fun hcc => hc hcc.symm, hmem⟩

/-- A `splitGt` failure means the list contains no `'>'` at all. -/
theorem splitGt_eq_none (cs : List Char) (h : splitGt cs = Option.none) :
    '>' ∉ cs := by
  induction cs with
  | nil => simp
  | cons c rest ih =>
    by_cases hc : c = '>'
    · subst hc; simp [splitGt] at h
    · simp only [splitGt, if_neg hc] at h
      cases hsub : splitGt rest with
      | none =>
        simp only [List.mem_cons, not_or]
        exact ⟨fun hcc => hc hcc.symm, ih hsub⟩
      | some pr => rw [hsub] at h; simp at h

/-- Conversely, `splitGt` succeeds whenever the list contains a `'>'`. -/
theorem splitGt_isSome_of_mem (cs : List Char) (h : '>' ∈ cs) :
    splitGt cs ≠ Option.none := by
  intro hn
  exact splitGt_eq_none cs hn h

/-- Unfolding equation for the tag stripper at a leading `'<'` with a match
further on (`pre` non-empty). -/
theorem stripTagsFuel_succ_match (f : Nat) (rest pre : List Char)
    (post : { l : List Char // l.length < rest.length })
    (hsub : splitGt rest = some (pre, post)) (hpre : pre ≠ []) :
    stripTagsFuel (f + 1) ('<' :: rest) = ' ' :: stripTagsFuel f post.1 := by
  simp [stripTagsFuel, hsub, hpre]

/-- Unfolding equation for the tag stripper at a leading `'<'` immediately
followed by `'>'` (`pre` empty): no match, the character is emitted. -/
theorem stripTagsFuel_succ_emptyPre (f : Nat) (rest pre : List Char)
    (post : { l : List Char // l.length < rest.length })
    (hsub : splitGt rest = some (pre, post)) (hpre : pre = []) :
    stripTagsFuel (f + 1) ('<' :: rest) = '<' :: stripTagsFuel f rest := by
  simp [stripTagsFuel, hsub, hpre]

/-- Unfolding equation for the tag stripper at a leading `'<'` with no `'>'`
ahead: no match, the character is emitted. -/
theorem stripTagsFuel_succ_noGt (f : Nat) (rest : List Char)
    (hsub : splitGt rest = Option.none) :
    stripTagsFuel (f + 1) ('<' :: rest) = '<' :: stripTagsFuel f rest := by
  simp [stripTagsFuel, hsub]

/-- Unfolding equation for the tag stripper at an ordinary character. -/
theorem stripTagsFuel_succ_other (f : Nat) (a : Char) (rest : List Char)
    (ha : a ≠ '<') :
    stripTagsFuel (f + 1) (a :: rest) = a :: stripTagsFuel f rest := by
  simp [stripTagsFuel, ha]

/-- Every character emitted by the tag stripper is a character of the input or
a space. -/
theorem stripTagsFuel_chars (fuel : Nat) :
    ∀ (l : List Char) (c : Char), c ∈ stripTagsFuel fuel l → c ∈ l ∨ c = ' ' := by
  induction fuel with
  | zero => intro l c h; exact Or.inl (by simpa [stripTagsFuel] using h)
  | succ f ih =>
    intro l c h
    match l with
    | [] => simp [stripTagsFuel] at h
    | a :: rest =>
      by_cases ha : a = '<'
      · subst ha
        cases hsub : splitGt rest with
        | none =>
          rw [stripTagsFuel_succ_noGt f rest hsub] at h
          rcases List.mem_cons.1 h with h1 | h1
          · exact Or.inl (by simp [h1])
          · rcases ih rest c h1 with h2 | h2
            · exact Or.inl (List.mem_cons_of_mem _ h2)
            · exact Or.inr h2
        | some pr =>
          obtain ⟨pre, post⟩ := pr
          by_cases hpre : pre = []
          · rw [stripTagsFuel_succ_emptyPre f rest pre post hsub hpre] at h
            rcases List.mem_cons.1 h with h1 | h1
            · exact Or.inl (by simp [h1])
            · rcases ih rest c h1 with h2 | h2
              · exact Or.inl (List.mem_cons_of_mem _ h2)
              · exact Or.inr h2
          · rw [stripTagsFuel_succ_match f rest pre post hsub hpre] at h
            rcases List.mem_cons.1 h with h1 | h1
            · exact Or.inr h1
            · rcases ih post.1 c h1 with h2 | h2
              · obtain ⟨hdec, _⟩ := splitGt_eq_some rest pre post hsub
                refine Or.inl (List.mem_cons_of_mem _ ?_)
                rw [hdec]
                exact List.mem_append_right _ (List.mem_cons_of_mem _ h2)
              · exact Or.inr h2
      · rw [stripTagsFuel_succ_other f a rest ha] at h
        rcases List.mem_cons.1 h with h1 | h1
        · exact Or.inl (by simp [h1])
        · rcases ih rest c h1 with h2 | h2
          · exact Or.inl (List.mem_cons_of_mem _ h2)
          · exact Or.inr h2

/-- A non-`'<'` head never starts a tag match. -/
theorem tagAt_cons_ne (c : Char) (l : List Char) (hc : c ≠ '<') :
    tagAt (c :: l) = false := by
  cases l <;> simp [tagAt, hc]

/-- A `'<'` with no `'>'` ahead never starts a tag match. -/
theorem tagAt_of_noGt (l : List Char) (h : '>' ∉ l) : tagAt ('<' :: l) = false := by
  cases hsub : splitGt l with
  | none => simp [tagAt, hsub]
  | some pr =>
    obtain ⟨pre, post⟩ := pr
    obtain ⟨hdec, _⟩ := splitGt_eq_some l pre post hsub
    exact absurd (hdec ▸ List.mem_append_right pre (by simp)) h

/-- A `'<'` immediately followed by `'>'` never starts a tag match (the regex
body `[^>]+` needs at least one character). -/
theorem tagAt_lt_gt (l : List Char) : tagAt ('<' :: '>' :: l) = false := by
  simp [tagAt, splitGt]

/-- Unfolding equation for `hasTag`. -/
theorem hasTag_cons (c : Char) (l : List Char) :
    hasTag (c :: l) = (tagAt (c :: l) || hasTag l) := rfl

/-- Output of the tag stripper contains no tag-shaped substring, given
sufficient fuel: the global substitution of `<[^>]+>` leaves no further match
of the same pattern. -/
theorem stripTagsFuel_tagFree :
    ∀ (fuel : Nat) (l : List Char), l.length ≤ fuel →
      hasTag (stripTagsFuel fuel l) = false := by
  intro fuel
  induction fuel using Nat.strong_induction_on with
  | _ fuel ih =>
    match fuel with
    | 0 =>
      intro l hl
      have : l = [] := List.length_eq_zero.1 (Nat.le_zero.1 hl)
      subst this
      rfl
    | f + 1 =>
      intro l hl
      match l with
      | [] => simp [stripTagsFuel, hasTag]
      | a :: rest =>
        have hrest : rest.length ≤ f := by
          simp only [List.length_cons] at hl; omega
        have ihf := ih f (by omega)
        by_cases ha : a = '<'
        · subst ha
          cases hsub : splitGt rest with
          | none =>
            rw [stripTagsFuel_succ_noGt f rest hsub]
            have hnog : '>' ∉ rest := splitGt_eq_none rest hsub
            have hnog2 : '>' ∉ stripTagsFuel f rest := by
              intro hm
              rcases stripTagsFuel_chars f rest '>' hm with h2 | h2
              · exact hnog h2
              · exact absurd h2 (by decide)
            rw [hasTag_cons, tagAt_of_noGt _ hnog2, ihf rest hrest]
            rfl
          | some pr =>
            obtain ⟨pre, post⟩ := pr
            obtain ⟨p1, hlt⟩ := post
            by_cases hpre : pre = []
            · rw [stripTagsFuel_succ_emptyPre f rest pre ⟨p1, hlt⟩ hsub hpre]
              obtain ⟨hdec, _⟩ := splitGt_eq_some rest pre ⟨p1, hlt⟩ hsub
              rw [hpre, List.nil_append] at hdec
              have hf : 1 ≤ f := by rw [hdec] at hrest; simp at hrest; omega
              obtain ⟨f', rfl⟩ : ∃ f', f = f' + 1 := ⟨f - 1, by omega⟩
              have hpostlen : p1.length ≤ f' := by
                rw [hdec] at hrest; simp at hrest; omega
              have hout : stripTagsFuel (f' + 1) rest = '>' :: stripTagsFuel f' p1 := by
                rw [hdec]; exact stripTagsFuel_succ_other f' '>' p1 (by decide)
              rw [hasTag_cons, hout, tagAt_lt_gt, hasTag_cons,
                  tagAt_cons_ne _ _ (by decide), ih f' (by omega) p1 hpostlen]
              rfl
            · rw [stripTagsFuel_succ_match f rest pre ⟨p1, hlt⟩ hsub hpre]
              have hpostlen : p1.length ≤ f := Nat.le_trans (Nat.le_of_lt hlt) hrest
              rw [hasTag_cons, tagAt_cons_ne _ _ (by decide), ihf p1 hpostlen]
              rfl
        · rw [stripTagsFuel_succ_other f a rest ha]
          by_cases hgt : '>' ∈ stripTagsFuel f rest
          · rw [hasTag_cons, tagAt_cons_ne _ _ ha, ihf rest hrest]
            rfl
          · rw [hasTag_cons, tagAt_cons_ne _ _ ha, ihf rest hrest]
            rfl

/-- The tag substitution is the identity on tag-free text (for any fuel). -/
theorem stripTagsFuel_id_of_tagFree :
    ∀ (l : List Char) (f : Nat), hasTag l = false → stripTagsFuel f l = l := by
  intro l
  induction l with
  | nil => intro f _; cases f <;> rfl
  | cons a rest ih =>
    intro f h
    cases f with
    | zero => rfl
    | succ f1 =>
      have hrest : hasTag rest = false := by
        rw [hasTag_cons] at h; exact (Bool.or_eq_false_iff.1 h).2
      by_cases ha : a = '<'
      · subst ha
        have htag : tagAt ('<' :: rest) = false := by
          rw [hasTag_cons] at h; exact (Bool.or_eq_false_iff.1 h).1
        cases hsub : splitGt rest with
        | none => rw [stripTagsFuel_succ_noGt f1 rest hsub, ih f1 hrest]
        | some pr =>
          obtain ⟨pre, post⟩ := pr
          obtain ⟨p1, hlt⟩ := post
          by_cases hpre : pre = []
          · rw [stripTagsFuel_succ_emptyPre f1 rest pre ⟨p1, hlt⟩ hsub hpre, ih f1 hrest]
          · exfalso
            simp [tagAt, hsub, hpre] at htag
      · rw [stripTagsFuel_succ_other f1 a rest ha, ih f1 hrest]

/-! ## Lemmas about the entity unescaper -/

/-- Unfolding equation for the unescaper at an ordinary character. -/
theorem pyUnescapeFuel_succ_ne (f : Nat) (c : Char) (rest : List Char) (hc : c ≠ '&') :
    pyUnescapeFuel (f + 1) (c :: rest) = c :: pyUnescapeFuel f rest := by
  simp [pyUnescapeFuel, hc]

/-- The unescaper is the identity on ampersand-free text (for any fuel),
exactly as CPython's `html.unescape` returns its argument unchanged when it
contains no `'&'`. -/
theorem pyUnescapeFuel_id_of_noAmp :
    ∀ (l : List Char) (f : Nat), '&' ∉ l → pyUnescapeFuel f l = l := by
  intro l
  induction l with
  | nil => intro f _; cases f <;> rfl
  | cons a rest ih =>
    intro f h
    cases f with
    | zero => rfl
    | succ f1 =>
      have ha : a ≠ '&' := fun hq => h (hq ▸ List.mem_cons_self a rest)
      have hrest : '&' ∉ rest := fun hq => h (List.mem_cons_of_mem a hq)
      rw [pyUnescapeFuel_succ_ne f1 a rest ha, ih f1 hrest]

/-- Value of `Char.ofNat` at a valid code point. -/
theorem toNat_ofNat_valid {n : Nat} (h : n.isValidChar) : (Char.ofNat n).toNat = n := by
  simp only [Char.ofNat, h, dif_pos, Char.ofNatAux, Char.toNat]
  rfl

/-- Every character a numeric character reference decodes to is whitespace or
is not a control character matched by `SPECIAL_CHARS_PATTERN`. -/
theorem numericRefChars_chars (n : Nat) (c : Char) (h : c ∈ numericRefChars n) :
    pyIsSpace c = true ∨ isCtrlChar c = false := by
  unfold numericRefChars at h
  by_cases h0 : n = 0
  · simp [h0] at h; subst h; right; decide
  · rw [if_neg h0] at h
    by_cases hd : n = 0xd
    · simp [hd] at h; subst h; left; decide
    · rw [if_neg hd] at h
      by_cases h80 : (0x80 ≤ n && n ≤ 0x9f) = true
      · simp [h80] at h; subst h; right; decide
      · rw [if_neg h80] at h
        by_cases hs : ((0xd800 ≤ n && n ≤ 0xdfff) || n > 0x10ffff) = true
        · simp only [hs, if_true, List.mem_singleton] at h; subst h; right; decide
        · rw [if_neg hs] at h
          by_cases hinv : ((1 ≤ n && n ≤ 8) || n = 0xb || (0xe ≤ n && n ≤ 0x1f) || n = 0x7f
              || (0xfdd0 ≤ n && n ≤ 0xfdef) || (n % 0x10000 ≥ 0xfffe)) = true
          · simp [hinv] at h
          · rw [if_neg hinv] at h
            simp only [List.mem_singleton] at h
            subst h
            simp only [Bool.and_eq_true, Bool.or_eq_true, not_or, Bool.not_eq_true,
              decide_eq_false_iff_not, not_and_or, not_le, not_lt, gt_iff_lt,
              decide_eq_true_eq, not_and] at h80 hs hinv
            have hvalid : n.isValidChar := by
              rcases hs with ⟨hs1, hs2⟩
              rcases hs1 with hlo | hhi
              · exact Or.inl (by omega)
              · by_cases hn : n < 0xd800
                · exact Or.inl hn
                · exact Or.inr ⟨by omega, by omega⟩
            have htn : (Char.ofNat n).toNat = n := toNat_ofNat_valid hvalid
            by_cases hc : n = 0xc
            · left
              simp [pyIsSpace, htn, hc]
            · right
              simp only [isCtrlChar, htn, Bool.or_eq_false_iff, Bool.and_eq_false_iff]
              refine ⟨⟨⟨⟨?_, ?_⟩, ?_⟩, ?_⟩, ?_⟩ <;> simp only [decide_eq_false_iff_not, not_le,
                Bool.and_eq_false_iff, decide_eq_false_iff_not] <;> omega

/-- Membership in `takeWhile` implies membership in the list. -/
theorem mem_of_mem_takeWhileAux (p : Char → Bool) (l : List Char) (c : Char)
    (h : c ∈ l.takeWhile p) : c ∈ l := by
  have hd := List.takeWhile_append_dropWhile (p := p) (l := l)
  rw [← hd]
  exact List.mem_append_left _ h

/-- Replacement strings in the named-reference table contain no control
characters. -/
theorem refLookup_val (g v : List Char) (h : refLookup g = some v) :
    ∀ c ∈ v, isCtrlChar c = false := by
  unfold refLookup at h
  cases hf : charRefTable.find? (fun kv => kv.1 = g) with
  | none => rw [hf] at h; simp at h
  | some kv =>
    rw [hf] at h
    simp at h
    subst h
    have hmem : kv ∈ charRefTable := List.mem_of_find?_eq_some hf
    have hall : ∀ kv ∈ charRefTable, ∀ c ∈ kv.2, isCtrlChar c = false := by decide
    exact hall kv hmem

/-- The longest-prefix fallback produces a table replacement (no control
characters) and a tail drawn from the reference body. -/
theorem refPrefAux_spec (g : List Char) :
    ∀ (k : Nat) (v tl : List Char), refPrefAux g k = some (v, tl) →
      (∀ c ∈ v, isCtrlChar c = false) ∧ ∀ c ∈ tl, c ∈ g := by
  intro k
  induction k with
  | zero => intro v tl h; simp [refPrefAux] at h
  | succ x ih =>
    intro v tl h
    unfold refPrefAux at h
    by_cases hx : x + 1 < 2
    · rw [if_pos hx] at h; simp at h
    · rw [if_neg hx] at h
      cases hl : refLookup (g.take (x + 1)) with
      | some v' =>
        rw [hl] at h
        simp only [Option.some.injEq, Prod.mk.injEq] at h
        obtain ⟨hv, htl⟩ := h
        subst hv htl
        exact ⟨refLookup_val _ _ hl, fun c hc => List.mem_of_mem_drop hc⟩
      | none => rw [hl] at h; exact ih v tl h

/-- Every character emitted by the unescaper is a character of the input, or
whitespace, or a non-control character (replacement text never introduces the
control characters that `SPECIAL_CHARS_PATTERN` removes). -/
theorem pyUnescapeFuel_chars :
    ∀ (f : Nat) (l : List Char) (c : Char), c ∈ pyUnescapeFuel f l →
      c ∈ l ∨ pyIsSpace c = true ∨ isCtrlChar c = false := by
  intro f
  induction f with
  | zero =>
    intro l c h
    exact Or.inl (by simpa [pyUnescapeFuel] using h)
  | succ f ih =>
    intro l c h
    match l with
    | [] => simp [pyUnescapeFuel] at h
    | a :: rest =>
      have memTailDrop : ∀ (k : Nat) (x : Char), x ∈ rest.tail.drop k → x ∈ a :: rest := by
        intro k x hx
        have h1 : x ∈ rest.tail := List.mem_of_mem_drop hx
        rw [← List.drop_one] at h1
        exact List.mem_cons_of_mem _ (List.mem_of_mem_drop h1)
      have memDrop : ∀ (k : Nat) (x : Char), x ∈ rest.drop k → x ∈ a :: rest := fun k x hx =>
        List.mem_cons_of_mem _ (List.mem_of_mem_drop hx)
      have memNm : ∀ x ∈ (rest.takeWhile isRefNameChar).take 32, x ∈ a :: rest := by
        intro x hx
        exact List.mem_cons_of_mem _ (mem_of_mem_takeWhileAux _ _ _ (List.mem_of_mem_take hx))
      by_cases ha : a = '&'
      · subst ha
        simp only [pyUnescapeFuel, if_true] at h
        by_cases hh : rest.head? = some '#'
        · rw [if_pos hh] at h
          by_cases hds : rest.tail.takeWhile isAsciiDigit = []
          · rw [if_pos hds] at h
            rcases List.mem_cons.1 h with h1 | h1
            · exact Or.inl (by simp [h1])
            · rcases ih rest c h1 with h2 | h2
              · exact Or.inl (List.mem_cons_of_mem _ h2)
              · exact Or.inr h2
          · rw [if_neg hds] at h
            rcases List.mem_append.1 h with h1 | h1
            · exact Or.inr (numericRefChars_chars _ c h1)
            · rcases ih _ c h1 with h2 | h2
              · exact Or.inl (memTailDrop _ c h2)
              · exact Or.inr h2
        · rw [if_neg hh] at h
          by_cases hnm : (rest.takeWhile isRefNameChar).take 32 = []
          · rw [if_pos hnm] at h
            rcases List.mem_cons.1 h with h1 | h1
            · exact Or.inl (by simp [h1])
            · rcases ih rest c h1 with h2 | h2
              · exact Or.inl (List.mem_cons_of_mem _ h2)
              · exact Or.inr h2
          · rw [if_neg hnm] at h
            set nm := (rest.takeWhile isRefNameChar).take 32 with hnmdef
            set semi : Bool := decide ((rest.drop nm.length).head? = some ';') with hsemidef
            set g := if semi then nm ++ [';'] else nm with hgdef
            have memG : ∀ x ∈ g, x ∈ '&' :: rest ∨ isCtrlChar x = false := by
              intro x hx
              rw [hgdef] at hx
              by_cases hsm : semi = true
              · rw [if_pos hsm] at hx
                rcases List.mem_append.1 hx with h1 | h1
                · exact Or.inl (memNm x h1)
                · simp only [List.mem_singleton] at h1
                  subst h1
                  exact Or.inr (by decide)
              · rw [if_neg hsm] at hx
                exact Or.inl (memNm x hx)
            cases hlk : refLookup g with
            | some v =>
              rw [hlk] at h
              rcases List.mem_append.1 h with h1 | h1
              · exact Or.inr (Or.inr (refLookup_val g v hlk c h1))
              · rcases ih _ c h1 with h2 | h2
                · exact Or.inl (memDrop _ c h2)
                · exact Or.inr h2
            | none =>
              rw [hlk] at h
              cases hpa : refPrefAux g (g.length - 1) with
              | some pr =>
                obtain ⟨v, tl⟩ := pr
                rw [hpa] at h
                obtain ⟨hval, htl⟩ := refPrefAux_spec g (g.length - 1) v tl hpa
                rcases List.mem_append.1 h with h1 | h1
                · rcases List.mem_append.1 h1 with h3 | h3
                  · exact Or.inr (Or.inr (hval c h3))
                  · rcases memG c (htl c h3) with h4 | h4
                    · exact Or.inl h4
                    · exact Or.inr (Or.inr h4)
                · rcases ih _ c h1 with h2 | h2
                  · exact Or.inl (memDrop _ c h2)
                  · exact Or.inr h2
              | none =>
                rw [hpa] at h
                rcases List.mem_cons.1 h with h1 | h1
                · exact Or.inl (by simp [h1])
                · rcases List.mem_append.1 h1 with h3 | h3
                  · rcases memG c h3 with h4 | h4
                    · exact Or.inl h4
                    · exact Or.inr (Or.inr h4)
                  · rcases ih _ c h3 with h2 | h2
                    · exact Or.inl (memDrop _ c h2)
                    · exact Or.inr h2
      · rw [pyUnescapeFuel_succ_ne f a rest ha] at h
        rcases List.mem_cons.1 h with h1 | h1
        · exact Or.inl (by simp [h1])
        · rcases ih rest c h1 with h2 | h2
          · exact Or.inl (List.mem_cons_of_mem _ h2)
          · exact Or.inr h2

/-! ## Lemmas about whitespace collapsing and stripping -/

/-- The head-space dropper returns the list itself or its tail after a space. -/
theorem dropSpaceHead_eq (m : List Char) :
    dropSpaceHead m = m ∨ ∃ t, m = ' ' :: t ∧ dropSpaceHead m = t := by
  cases m with
  | nil => exact Or.inl rfl
  | cons d t =>
    by_cases hd : d = ' '
    · subst hd; exact Or.inr ⟨t, rfl, rfl⟩
    · refine Or.inl ?_
      unfold dropSpaceHead
      split
      · rename_i heq
        cases heq
        exact absurd rfl hd
      · rfl

/-- Characters of `dropSpaceHead` come from the argument. -/
theorem dropSpaceHead_subset (m : List Char) (c : Char) (h : c ∈ dropSpaceHead m) : c ∈ m := by
  rcases dropSpaceHead_eq m with he | ⟨t, ht, he⟩
  · rwa [he] at h
  · rw [he] at h; rw [ht]; exact List.mem_cons_of_mem _ h

/-- Unfolding equation of `collapseWs` at a whitespace character. -/
theorem collapseWs_cons_space (a : Char) (rest : List Char) (h : pyIsSpace a = true) :
    collapseWs (a :: rest) = ' ' :: dropSpaceHead (collapseWs rest) := by
  simp [collapseWs, h]

/-- Unfolding equation of `collapseWs` at a non-whitespace character. -/
theorem collapseWs_cons_nonspace (a : Char) (rest : List Char) (h : pyIsSpace a = false) :
    collapseWs (a :: rest) = a :: collapseWs rest := by
  simp [collapseWs, h]

/-- Every character of the collapsed list is a space or a non-whitespace
character of the input. -/
theorem collapseWs_chars :
    ∀ (l : List Char) (c : Char), c ∈ collapseWs l →
      c = ' ' ∨ (c ∈ l ∧ pyIsSpace c = false) := by
  intro l
  induction l with
  | nil => intro c h; simp [collapseWs] at h
  | cons a rest ih =>
    intro c h
    by_cases hsp : pyIsSpace a = true
    · rw [collapseWs_cons_space a rest hsp] at h
      rcases List.mem_cons.1 h with h1 | h1
      · exact Or.inl h1
      · rcases ih c (dropSpaceHead_subset _ c h1) with h2 | ⟨h2, h3⟩
        · exact Or.inl h2
        · exact Or.inr ⟨List.mem_cons_of_mem _ h2, h3⟩
    · rw [collapseWs_cons_nonspace a rest (Bool.not_eq_true _ ▸ hsp)] at h
      rcases List.mem_cons.1 h with h1 | h1
      · subst h1
        exact Or.inr ⟨List.mem_cons_self _ _, Bool.not_eq_true _ ▸ hsp⟩
      · rcases ih c h1 with h2 | ⟨h2, h3⟩
        · exact Or.inl h2
        · exact Or.inr ⟨List.mem_cons_of_mem _ h2, h3⟩

/-- Collapsed text has only plain spaces as whitespace. -/
theorem collapseWs_spacesAreBlank (l : List Char) : spacesAreBlank (collapseWs l) = true := by
  rw [spacesAreBlank, List.all_eq_true]
  intro c hc
  rcases collapseWs_chars l c hc with h | ⟨_, h⟩
  · subst h; decide
  · simp [h]

/-- The tail of a two-spaces-free list is two-spaces-free. -/
theorem noTwoSpaces_tail (c : Char) (m : List Char) (h : noTwoSpaces (c :: m) = true) :
    noTwoSpaces m = true := by
  cases m with
  | nil => rfl
  | cons d t =>
    rw [noTwoSpaces, Bool.and_eq_true] at h
    exact h.2

/-- Building a two-spaces-free list by consing a character that cannot pair
with a whitespace head. -/
theorem noTwoSpaces_cons (c : Char) (m : List Char) (h1 : noTwoSpaces m = true)
    (h2 : pyIsSpace c = false ∨ ∀ d, m.head? = some d → pyIsSpace d = false) :
    noTwoSpaces (c :: m) = true := by
  cases m with
  | nil => rfl
  | cons d t =>
    rw [noTwoSpaces, Bool.and_eq_true]
    refine ⟨?_, h1⟩
    rcases h2 with h2 | h2
    · simp [h2]
    · simp [h2 d rfl]

/-- After dropping a leading space from a blank-spaced, two-spaces-free list,
the head is not whitespace. -/
theorem dropSpaceHead_head_not_space (m : List Char) (hb : spacesAreBlank m = true)
    (hn : noTwoSpaces m = true) :
    ∀ d, (dropSpaceHead m).head? = some d → pyIsSpace d = false := by
  intro d hd
  cases m with
  | nil => simp [dropSpaceHead] at hd
  | cons d0 t =>
    by_cases h0 : d0 = ' '
    · subst h0
      have ht : dropSpaceHead (' ' :: t) = t := rfl
      rw [ht] at hd
      cases t with
      | nil => simp at hd
      | cons d1 t1 =>
        simp only [List.head?_cons, Option.some.injEq] at hd
        subst hd
        rw [noTwoSpaces, Bool.and_eq_true] at hn
        have h1 := hn.1
        have hsp' : pyIsSpace ' ' = true := by decide
        simp only [hsp', Bool.true_and, Bool.not_eq_true'] at h1
        exact h1
    · rcases dropSpaceHead_eq (d0 :: t) with he | ⟨t', ht', _⟩
      · rw [he] at hd
        simp only [List.head?_cons, Option.some.injEq] at hd
        rw [spacesAreBlank, List.all_eq_true] at hb
        have hb0 := hb d0 (List.mem_cons_self _ _)
        subst hd
        by_contra hcon
        rw [Bool.not_eq_false] at hcon
        simp [hcon] at hb0
        exact h0 hb0
      · cases ht'
        exact absurd rfl h0

/-- The collapsed list never contains two adjacent whitespace characters. -/
theorem collapseWs_noTwoSpaces (l : List Char) : noTwoSpaces (collapseWs l) = true := by
  induction l with
  | nil => rfl
  | cons a rest ih =>
    by_cases hsp : pyIsSpace a = true
    · rw [collapseWs_cons_space a rest hsp]
      have hb := collapseWs_spacesAreBlank rest
      have hdrop : noTwoSpaces (dropSpaceHead (collapseWs rest)) = true := by
        rcases dropSpaceHead_eq (collapseWs rest) with he | ⟨t, ht, he⟩
        · rwa [he]
        · rw [he]
          exact noTwoSpaces_tail _ _ (ht ▸ ih)
      exact noTwoSpaces_cons _ _ hdrop
        (Or.inr (dropSpaceHead_head_not_space (collapseWs rest) hb ih))
    · rw [collapseWs_cons_nonspace a rest (Bool.not_eq_true _ ▸ hsp)]
      exact noTwoSpaces_cons _ _ ih (Or.inl (Bool.not_eq_true _ ▸ hsp))

/-- The head of `dropWhile p`, when present, fails `p`. -/
theorem dropWhile_head_not (p : Char → Bool) :
    ∀ (l : List Char) (c : Char), (l.dropWhile p).head? = some c → p c = false := by
  intro l
  induction l with
  | nil => intro c h; simp at h
  | cons a rest ih =>
    intro c h
    by_cases hp : p a = true
    · rw [List.dropWhile_cons_of_pos hp] at h
      exact ih c h
    · rw [List.dropWhile_cons_of_neg hp] at h
      simp only [List.head?_cons, Option.some.injEq] at h
      subst h
      exact Bool.not_eq_true _ ▸ hp

/-- Decomposition of `stripChars`: the output, as a prefix part of the
leading-whitespace-dropped list. -/
theorem stripChars_decomp (l : List Char) :
    ∃ t, stripChars l ++ t = l.dropWhile pyIsSpace ∧
      ∀ c ∈ t, pyIsSpace c = true := by
  refine ⟨((l.dropWhile pyIsSpace).reverse.takeWhile pyIsSpace).reverse, ?_, ?_⟩
  · rw [stripChars]
    rw [← List.reverse_append]
    rw [List.takeWhile_append_dropWhile]
    exact List.reverse_reverse _
  · intro c hc
    rw [List.mem_reverse] at hc
    have hd := List.takeWhile_append_dropWhile
      (p := pyIsSpace) (l := (l.dropWhile pyIsSpace).reverse)
    exact List.mem_takeWhile_imp hc

/-- Unfolded form of `headNotSpace`. -/
theorem headNotSpace_iff (m : List Char) :
    headNotSpace m = true ↔ ∀ c, m.head? = some c → pyIsSpace c = false := by
  rw [headNotSpace]
  cases hm : m.head? <;> simp

/-- Unfolded form of `lastNotSpace`. -/
theorem lastNotSpace_iff (m : List Char) :
    lastNotSpace m = true ↔ ∀ c, m.getLast? = some c → pyIsSpace c = false := by
  rw [lastNotSpace]
  cases hm : m.getLast? <;> simp

/-- The stripped list starts with a non-whitespace character, if any. -/
theorem stripChars_headNotSpace (l : List Char) : headNotSpace (stripChars l) = true := by
  rw [headNotSpace_iff]
  intro c hc
  obtain ⟨t, hdec, _⟩ := stripChars_decomp l
  have hne : stripChars l ≠ [] := by
    intro hnil; rw [hnil] at hc; simp at hc
  have hh : (l.dropWhile pyIsSpace).head? = some c := by
    rw [← hdec, List.head?_append_of_ne_nil _ hne]
    exact hc
  exact dropWhile_head_not pyIsSpace l c hh

/-- The stripped list ends with a non-whitespace character, if any. -/
theorem stripChars_lastNotSpace (l : List Char) : lastNotSpace (stripChars l) = true := by
  rw [lastNotSpace_iff]
  intro c hc
  rw [stripChars] at hc
  rw [List.getLast?_reverse] at hc
  exact dropWhile_head_not pyIsSpace _ c hc

/-- A two-spaces-free property passes to the left part of an append. -/
theorem noTwoSpaces_of_append_left :
    ∀ (x t : List Char), noTwoSpaces (x ++ t) = true → noTwoSpaces x = true
  | [], _, _ => rfl
  | [_], _, _ => rfl
  | a :: b :: x', t, h => by
    rw [List.cons_append, List.cons_append] at h
    rw [noTwoSpaces, Bool.and_eq_true] at h
    rw [noTwoSpaces, Bool.and_eq_true]
    refine ⟨h.1, ?_⟩
    have := noTwoSpaces_of_append_left (b :: x') t (by rw [List.cons_append]; exact h.2)
    exact this

/-- A two-spaces-free property passes to the right part of an append. -/
theorem noTwoSpaces_of_append_right :
    ∀ (x t : List Char), noTwoSpaces (x ++ t) = true → noTwoSpaces t = true
  | [], _, h => h
  | _ :: x', t, h =>
    noTwoSpaces_of_append_right x' t (noTwoSpaces_tail _ _ (by simpa using h))

/-- Characters of the stripped list come from the input. -/
theorem stripChars_subset (l : List Char) (c : Char) (h : c ∈ stripChars l) : c ∈ l := by
  obtain ⟨t, hdec, _⟩ := stripChars_decomp l
  have h1 : c ∈ l.dropWhile pyIsSpace := by
    rw [← hdec]; exact List.mem_append_left _ h
  have hd := List.takeWhile_append_dropWhile (p := pyIsSpace) (l := l)
  rw [← hd]
  exact List.mem_append_right _ h1

/-- Stripping preserves blank-space discipline. -/
theorem stripChars_spacesAreBlank (l : List Char) (h : spacesAreBlank l = true) :
    spacesAreBlank (stripChars l) = true := by
  rw [spacesAreBlank, List.all_eq_true] at h ⊢
  intro c hc
  exact h c (stripChars_subset l c hc)

/-- Stripping preserves freedom from adjacent whitespace. -/
theorem stripChars_noTwoSpaces (l : List Char) (h : noTwoSpaces l = true) :
    noTwoSpaces (stripChars l) = true := by
  obtain ⟨t, hdec, _⟩ := stripChars_decomp l
  have hdw : noTwoSpaces (l.dropWhile pyIsSpace) = true := by
    have hd := List.takeWhile_append_dropWhile (p := pyIsSpace) (l := l)
    exact noTwoSpaces_of_append_right _ _ (by rw [hd]; exact h)
  exact noTwoSpaces_of_append_left _ _ (by rw [hdec]; exact hdw)

/-- Dropping-while is the identity when the head already fails the predicate. -/
theorem dropWhile_id_of_headNot (p : Char → Bool) (m : List Char)
    (h : ∀ c, m.head? = some c → p c = false) : m.dropWhile p = m := by
  cases m with
  | nil => rfl
  | cons a t => exact List.dropWhile_cons_of_neg (by simp [h a rfl])

/-- Stripping is the identity on text already trimmed at both ends. -/
theorem stripChars_id (l : List Char) (hh : headNotSpace l = true)
    (hl : lastNotSpace l = true) : stripChars l = l := by
  rw [stripChars]
  have h1 : l.dropWhile pyIsSpace = l :=
    dropWhile_id_of_headNot _ _ (headNotSpace_iff l |>.1 hh)
  rw [h1]
  have h2 : l.reverse.dropWhile pyIsSpace = l.reverse := by
    refine dropWhile_id_of_headNot _ _ ?_
    intro c hc
    rw [List.head?_reverse] at hc
    exact (lastNotSpace_iff l).1 hl c hc
  rw [h2, List.reverse_reverse]

/-- Collapsing is the identity on text whose whitespace is already collapsed. -/
theorem collapseWs_id (l : List Char) (hb : spacesAreBlank l = true)
    (hn : noTwoSpaces l = true) : collapseWs l = l := by
  induction l with
  | nil => rfl
  | cons a rest ih =>
    have hbr : spacesAreBlank rest = true := by
      rw [spacesAreBlank, List.all_cons, Bool.and_eq_true] at hb
      exact hb.2
    have hnr := noTwoSpaces_tail a rest hn
    by_cases hsp : pyIsSpace a = true
    · have ha : a = ' ' := by
        rw [spacesAreBlank, List.all_cons, Bool.and_eq_true] at hb
        have := hb.1
        simp [hsp] at this
        exact this
      rw [collapseWs_cons_space a rest hsp, ih hbr hnr]
      subst ha
      have hds : dropSpaceHead rest = rest := by
        rcases dropSpaceHead_eq rest with he | ⟨t, ht, he⟩
        · exact he
        · exfalso
          rw [ht] at hn
          rw [noTwoSpaces, Bool.and_eq_true] at hn
          have := hn.1
          simp [pyIsSpace] at this
      rw [hds]
    · rw [collapseWs_cons_nonspace a rest (Bool.not_eq_true _ ▸ hsp), ih hbr hnr]

/-! ## Control-character removal and tag-freeness through the pipeline -/

/-- Output of the control-character filter has no control characters. -/
theorem removeCtrl_noCtrl (l : List Char) (c : Char) (h : c ∈ removeCtrl l) :
    isCtrlChar c = false := by
  have := List.of_mem_filter h
  simpa using this

/-- Characters of the filtered list come from the input. -/
theorem removeCtrl_subset (l : List Char) (c : Char) (h : c ∈ removeCtrl l) : c ∈ l :=
  List.mem_of_mem_filter h

/-- The control-character filter is the identity on clean text. -/
theorem removeCtrl_id (l : List Char) (h : ∀ c ∈ l, isCtrlChar c = false) :
    removeCtrl l = l := by
  rw [removeCtrl, List.filter_eq_self]
  intro c hc
  simp [h c hc]

/-- Converse of the `splitGt` characterisation: a decomposition at the first
`'>'` determines the result of `splitGt`. -/
theorem splitGt_of_decomp :
    ∀ (pre q : List Char), '>' ∉ pre →
      splitGt (pre ++ '>' :: q) = some (pre, ⟨q, by
        simp only [List.length_append, List.length_cons]; omega⟩) := by
  intro pre
  induction pre with
  | nil => intro q _; simp [splitGt]
  | cons a p ih =>
    intro q h
    have ha : a ≠ '>' := fun hq => h (hq ▸ List.mem_cons_self a p)
    show splitGt (a :: (p ++ '>' :: q)) = _
    rw [splitGt, if_neg ha, ih q (fun hm => h (List.mem_cons_of_mem _ hm))]

/-- A list without `'>'` admits no `splitGt` decomposition. -/
theorem splitGt_none_of_not_mem (cs : List Char) (h : '>' ∉ cs) :
    splitGt cs = Option.none := by
  cases hs : splitGt cs with
  | none => rfl
  | some pr =>
    obtain ⟨pre, post⟩ := pr
    obtain ⟨hdec, _⟩ := splitGt_eq_some cs pre post hs
    exact absurd (hdec ▸ List.mem_append_right pre (by simp)) h

/-- Unfolding equation of `tagAt` at a leading `'<'`. -/
theorem tagAt_lt (r : List Char) :
    tagAt ('<' :: r) =
      (match splitGt r with
       | some (pre, _) => decide (pre ≠ [])
       | Option.none => false) := rfl

/-- A tag match at the head survives appending on the right. -/
theorem tagAt_append (z w : List Char) (h : tagAt z = true) : tagAt (z ++ w) = true := by
  cases z with
  | nil => simp [tagAt] at h
  | cons a r =>
    by_cases ha : a = '<'
    · subst ha
      rw [tagAt_lt] at h
      cases hs : splitGt r with
      | none => rw [hs] at h; simp at h
      | some pr =>
        obtain ⟨pre, post⟩ := pr
        obtain ⟨p1, hlt⟩ := post
        rw [hs] at h
        simp only [decide_eq_true_eq] at h
        obtain ⟨hdec, hnm⟩ := splitGt_eq_some r pre ⟨p1, hlt⟩ hs
        rw [List.cons_append]
        have heq : r ++ w = pre ++ '>' :: (p1 ++ w) := by rw [hdec]; simp
        rw [heq, tagAt_lt, splitGt_of_decomp pre (p1 ++ w) hnm]
        simpa using h
    · rw [tagAt_cons_ne a r ha] at h
      cases h

/-- A tag-shaped substring in the left part survives appending on the right. -/
theorem hasTag_append_left :
    ∀ (x w : List Char), hasTag x = true → hasTag (x ++ w) = true := by
  intro x
  induction x with
  | nil => intro w h; cases h
  | cons a x' ih =>
    intro w h
    rw [hasTag_cons] at h
    rw [List.cons_append, hasTag_cons]
    rcases Bool.or_eq_true_iff.1 h with h1 | h1
    · rw [← List.cons_append, tagAt_append _ w h1]
      simp
    · rw [ih w h1]
      simp

/-- A tag-shaped substring in the right part is one of the whole append. -/
theorem hasTag_append_right :
    ∀ (x t : List Char), hasTag t = true → hasTag (x ++ t) = true := by
  intro x
  induction x with
  | nil => intro t h; exact h
  | cons a x' ih =>
    intro t h
    rw [List.cons_append, hasTag_cons, ih t h]
    simp

/-- The tail of a tag-free list is tag-free. -/
theorem hasTag_tail (c : Char) (m : List Char) (h : hasTag (c :: m) = false) :
    hasTag m = false := by
  rw [hasTag_cons] at h
  exact (Bool.or_eq_false_iff.1 h).2

/-- Whitespace collapsing preserves tag-freeness. -/
theorem collapseWs_tagFree (l : List Char) (h : hasTag l = false) :
    hasTag (collapseWs l) = false := by
  induction l with
  | nil => rfl
  | cons a rest ih =>
    have hrest : hasTag rest = false := hasTag_tail a rest h
    have hout := ih hrest
    by_cases hsp : pyIsSpace a = true
    · rw [collapseWs_cons_space a rest hsp, hasTag_cons,
          tagAt_cons_ne _ _ (by decide)]
      rcases dropSpaceHead_eq (collapseWs rest) with he | ⟨t, ht, he⟩
      · rw [he, hout]; rfl
      · rw [he]
        rw [ht] at hout
        rw [hasTag_tail _ _ hout]
        rfl
    · rw [collapseWs_cons_nonspace a rest (Bool.not_eq_true _ ▸ hsp), hasTag_cons]
      by_cases ha : a = '<'
      · subst ha
        have htag : tagAt ('<' :: rest) = false := by
          rw [hasTag_cons] at h; exact (Bool.or_eq_false_iff.1 h).1
        rw [tagAt_lt] at htag
        cases hs : splitGt rest with
        | none =>
          have hng : '>' ∉ rest := splitGt_eq_none rest hs
          have hng2 : '>' ∉ collapseWs rest := by
            intro hm
            rcases collapseWs_chars rest '>' hm with h2 | ⟨h2, _⟩
            · exact absurd h2 (by decide)
            · exact hng h2
          rw [tagAt_of_noGt _ hng2, hout]; rfl
        | some pr =>
          obtain ⟨pre, post⟩ := pr
          obtain ⟨p1, hlt⟩ := post
          rw [hs] at htag
          have hpre : pre = [] := by simpa using htag
          obtain ⟨hdec, _⟩ := splitGt_eq_some rest pre ⟨p1, hlt⟩ hs
          rw [hpre, List.nil_append] at hdec
          have hcr : collapseWs rest = '>' :: collapseWs p1 := by
            rw [hdec]; exact collapseWs_cons_nonspace '>' p1 (by decide)
          rw [hcr, tagAt_lt_gt, ← hcr, hout]
          rfl
      · rw [tagAt_cons_ne a _ ha, hout]; rfl

/-- Stripping preserves tag-freeness. -/
theorem stripChars_tagFree (l : List Char) (h : hasTag l = false) :
    hasTag (stripChars l) = false := by
  by_contra hcon
  rw [Bool.not_eq_false] at hcon
  obtain ⟨t, hdec, _⟩ := stripChars_decomp l
  have h1 : hasTag (l.dropWhile pyIsSpace) = true := by
    rw [← hdec]; exact hasTag_append_left _ _ hcon
  have h2 : hasTag l = true := by
    have hd := List.takeWhile_append_dropWhile (p := pyIsSpace) (l := l)
    rw [← hd]; exact hasTag_append_right _ _ h1
  rw [h2] at h
  cases h

/-- Tag-freeness of the left part passes to an append whose right part is
tag-free and contains no `'>'` (no tag can straddle the boundary). -/
theorem hasTag_append_noGt (x t : List Char) (hgt : '>' ∉ t) (ht : hasTag t = false)
    (hx : hasTag x = false) : hasTag (x ++ t) = false := by
  induction x with
  | nil => exact ht
  | cons a x' ih =>
    have hx' := hasTag_tail a x' hx
    rw [List.cons_append, hasTag_cons, ih hx']
    by_cases ha : a = '<'
    · subst ha
      have htag : tagAt ('<' :: x') = false := by
        rw [hasTag_cons] at hx; exact (Bool.or_eq_false_iff.1 hx).1
      rw [tagAt_lt] at htag
      cases hs : splitGt x' with
      | none =>
        have hng : '>' ∉ x' := splitGt_eq_none x' hs
        have hng2 : '>' ∉ x' ++ t := by
          intro hm
          rcases List.mem_append.1 hm with h1 | h1
          · exact hng h1
          · exact hgt h1
        rw [tagAt_of_noGt _ hng2]; rfl
      | some pr =>
        obtain ⟨pre, post⟩ := pr
        obtain ⟨p1, hlt⟩ := post
        rw [hs] at htag
        have hpre : pre = [] := by simpa using htag
        obtain ⟨hdec, _⟩ := splitGt_eq_some x' pre ⟨p1, hlt⟩ hs
        rw [hpre, List.nil_append] at hdec
        have : x' ++ t = '>' :: (p1 ++ t) := by rw [hdec]; rfl
        rw [this, tagAt_lt_gt]; rfl
    · rw [tagAt_cons_ne _ _ ha]; rfl

/-- Prefixes of tag-free text are tag-free. -/
theorem hasTag_take (l : List Char) (j : Nat) (h : hasTag l = false) :
    hasTag (l.take j) = false := by
  by_contra hcon
  rw [Bool.not_eq_false] at hcon
  have h1 := hasTag_append_left (l.take j) (l.drop j) hcon
  rw [List.take_append_drop] at h1
  rw [h1] at h
  cases h

/-- Characters of the truncated result come from the input or the ellipsis. -/
theorem applyMaxLength_chars (l : List Char) (m : Option Nat) (c : Char)
    (h : c ∈ applyMaxLength l m) : c ∈ l ∨ c = '.' := by
  cases m with
  | none => exact Or.inl h
  | some mm =>
    rw [applyMaxLength] at h
    by_cases hcond : mm ≠ 0 ∧ l.length > mm
    · rw [if_pos hcond] at h
      rcases List.mem_append.1 h with h1 | h1
      · rw [pySliceTo] at h1
        by_cases hp : (0 : Int) ≤ (mm : Int) - 3
        · rw [if_pos hp] at h1
          exact Or.inl (List.mem_of_mem_take h1)
        · rw [if_neg hp] at h1
          exact Or.inl (List.mem_of_mem_take h1)
      · right
        simpa using h1
    · rw [if_neg hcond] at h
      exact Or.inl h

/-- Joining collapsed pieces: the append of two two-spaces-free lists whose
right part does not start with whitespace is two-spaces-free. -/
theorem noTwoSpaces_append_head (x t : List Char) (hx : noTwoSpaces x = true)
    (ht : noTwoSpaces t = true)
    (hh : ∀ d, t.head? = some d → pyIsSpace d = false) :
    noTwoSpaces (x ++ t) = true := by
  induction x with
  | nil => exact ht
  | cons a x' ih =>
    have hx' := noTwoSpaces_tail a x' hx
    rw [List.cons_append]
    refine noTwoSpaces_cons a (x' ++ t) (ih hx') ?_
    cases x' with
    | nil =>
      refine Or.inr ?_
      intro d hd
      exact hh d hd
    | cons b x'' =>
      by_cases hsa : pyIsSpace a = true
      · refine Or.inr ?_
        intro d hd
        simp only [List.cons_append, List.head?_cons, Option.some.injEq] at hd
        subst hd
        rw [noTwoSpaces, Bool.and_eq_true] at hx
        have := hx.1
        simpa [hsa] using this
      · exact Or.inl (Bool.not_eq_true _ ▸ hsa)

/-- The head of a take is the head of the list when anything is taken. -/
theorem headNotSpace_take (l : List Char) (j : Nat) (h : headNotSpace l = true) :
    headNotSpace (l.take j) = true := by
  cases l with
  | nil => simp [headNotSpace]
  | cons a t =>
    cases j with
    | zero => simp [headNotSpace]
    | succ j' =>
      rw [List.take_succ_cons]
      rw [headNotSpace_iff] at h ⊢
      intro c hc
      simp only [List.head?_cons, Option.some.injEq] at hc
      exact h c (by simp [hc])

/-- An append starts with a non-whitespace character when both parts do. -/
theorem headNotSpace_append (x t : List Char) (hx : headNotSpace x = true)
    (ht : headNotSpace t = true) : headNotSpace (x ++ t) = true := by
  cases x with
  | nil => exact ht
  | cons a x' =>
    rw [headNotSpace_iff] at hx ⊢
    intro c hc
    simp only [List.cons_append, List.head?_cons, Option.some.injEq] at hc
    exact hx c (by simp [hc])

/-- The truncation step preserves the collapsed-and-trimmed discipline. -/
theorem applyMaxLength_wsCollapsed (l : List Char) (m : Option Nat)
    (hb : spacesAreBlank l = true) (hn : noTwoSpaces l = true)
    (hh : headNotSpace l = true) (hl : lastNotSpace l = true) :
    spacesAreBlank (applyMaxLength l m) = true ∧
    noTwoSpaces (applyMaxLength l m) = true ∧
    headNotSpace (applyMaxLength l m) = true ∧
    lastNotSpace (applyMaxLength l m) = true := by
  cases m with
  | none => exact ⟨hb, hn, hh, hl⟩
  | some mm =>
    rw [applyMaxLength]
    by_cases hcond : mm ≠ 0 ∧ l.length > mm
    · rw [if_pos hcond]
      have htake : ∀ j : Nat, noTwoSpaces (l.take j) = true := by
        intro j
        refine noTwoSpaces_of_append_left _ (l.drop j) ?_
        rw [List.take_append_drop]
        exact hn
      have hslice : ∃ j : Nat, pySliceTo l ((mm : Int) - 3) = l.take j := by
        rw [pySliceTo]
        by_cases hp : (0 : Int) ≤ (mm : Int) - 3
        · rw [if_pos hp]; exact ⟨_, rfl⟩
        · rw [if_neg hp]; exact ⟨_, rfl⟩
      obtain ⟨j, hj⟩ := hslice
      rw [hj]
      refine ⟨?_, ?_, ?_, ?_⟩
      · rw [spacesAreBlank, List.all_eq_true]
        intro c hc
        rcases List.mem_append.1 hc with h1 | h1
        · rw [spacesAreBlank, List.all_eq_true] at hb
          exact hb c (List.mem_of_mem_take h1)
        · have : c = '.' := by simpa using h1
          subst this
          decide
      · refine noTwoSpaces_append_head _ _ (htake j) (by decide) ?_
        intro d hd
        simp only [List.head?_cons, Option.some.injEq] at hd
        subst hd
        decide
      · exact headNotSpace_append _ _ (headNotSpace_take l j hh) (by decide)
      · rw [lastNotSpace_iff]
        intro c hc
        rw [List.getLast?_append_of_ne_nil _ (by simp)] at hc
        have : c = '.' := by
          have : "...".data.getLast? = some '.' := by decide
          rw [this] at hc
          exact (Option.some.injEq .. ▸ hc).symm
        subst this
        decide
    · rw [if_neg hcond]
      exact ⟨hb, hn, hh, hl⟩

/-- The truncation step bounds the length by the maximum (of at least 3). -/
theorem applyMaxLength_length (l : List Char) (m : Nat) (h3 : 3 ≤ m) :
    (applyMaxLength l (some m)).length ≤ m := by
  rw [applyMaxLength]
  by_cases hcond : m ≠ 0 ∧ l.length > m
  · rw [if_pos hcond]
    have hp : (0 : Int) ≤ (m : Int) - 3 := by omega
    rw [pySliceTo, if_pos hp]
    have : ((m : Int) - 3).toNat = m - 3 := by omega
    rw [this]
    simp only [List.length_append, List.length_take]
    have : "...".data.length = 3 := by decide
    rw [this]
    omega
  · rw [if_neg hcond]
    rw [not_and_or] at hcond
    rcases hcond with hc | hc
    · simp at hc
      omega
    · omega

/-- The truncation step preserves tag-freeness. -/
theorem applyMaxLength_tagFree (l : List Char) (m : Option Nat)
    (h : hasTag l = false) : hasTag (applyMaxLength l m) = false := by
  cases m with
  | none => exact h
  | some mm =>
    rw [applyMaxLength]
    by_cases hcond : mm ≠ 0 ∧ l.length > mm
    · rw [if_pos hcond]
      have hslice : ∃ j : Nat, pySliceTo l ((mm : Int) - 3) = l.take j := by
        rw [pySliceTo]
        by_cases hp : (0 : Int) ≤ (mm : Int) - 3
        · rw [if_pos hp]; exact ⟨_, rfl⟩
        · rw [if_neg hp]; exact ⟨_, rfl⟩
      obtain ⟨j, hj⟩ := hslice
      rw [hj]
      exact hasTag_append_noGt _ _ (by decide) (by decide) (hasTag_take l j h)
    · rw [if_neg hcond]; exact h

/-- No control character survives the core cleaning pipeline. -/
theorem cleanCore_noCtrl (v : PyVal) : ∀ c ∈ cleanCore v, isCtrlChar c = false := by
  intro c hc
  rw [cleanCore] at hc
  have h1 : c ∈ collapseWs (pyUnescape (stripTags (removeCtrl (pyStr v).data))) :=
    stripChars_subset _ c hc
  rcases collapseWs_chars _ c h1 with h2 | ⟨h2, hns⟩
  · subst h2; decide
  · rw [pyUnescape] at h2
    rcases pyUnescapeFuel_chars _ _ c h2 with h3 | h3 | h3
    · rw [stripTags] at h3
      rcases stripTagsFuel_chars _ _ c h3 with h4 | h4
      · exact removeCtrl_noCtrl _ c h4
      · subst h4; decide
    · rw [h3] at hns; cases hns
    · exact h3

/-- The core cleaning pipeline emits collapsed, trimmed whitespace. -/
theorem cleanCore_wsProps (v : PyVal) :
    spacesAreBlank (cleanCore v) = true ∧ noTwoSpaces (cleanCore v) = true ∧
    headNotSpace (cleanCore v) = true ∧ lastNotSpace (cleanCore v) = true := by
  rw [cleanCore]
  refine ⟨stripChars_spacesAreBlank _ (collapseWs_spacesAreBlank _),
          stripChars_noTwoSpaces _ (collapseWs_noTwoSpaces _),
          stripChars_headNotSpace _, stripChars_lastNotSpace _⟩

/-- For ampersand-free input the core cleaning pipeline emits tag-free text. -/
theorem cleanCore_tagFree (v : PyVal) (h : noAmp (pyStr v) = true) :
    hasTag (cleanCore v) = false := by
  rw [cleanCore]
  have hamp : '&' ∉ (pyStr v).data := by
    rw [noAmp] at h
    simpa using h
  have hampst : '&' ∉ stripTags (removeCtrl (pyStr v).data) := by
    intro hm
    rw [stripTags] at hm
    rcases stripTagsFuel_chars _ _ '&' hm with h1 | h1
    · exact hamp (removeCtrl_subset _ _ h1)
    · exact absurd h1 (by decide)
  have hid : pyUnescape (stripTags (removeCtrl (pyStr v).data))
      = stripTags (removeCtrl (pyStr v).data) := by
    rw [pyUnescape]
    exact pyUnescapeFuel_id_of_noAmp _ _ hampst
  rw [hid]
  have htf : hasTag (stripTags (removeCtrl (pyStr v).data)) = false := by
    rw [stripTags]
    exact stripTagsFuel_tagFree _ _ (le_refl _)
  exact stripChars_tagFree _ (collapseWs_tagFree _ htf)

/-- Main plain-text facts about `clean_text` with a maximum length of at
least 3: no control characters, collapsed trimmed whitespace, bounded length,
and (for ampersand-free input) no tag-shaped substrings. -/
theorem clean_text_plain (v : PyVal) (m : Nat) (h3 : 3 ≤ m) :
    noCtrl (clean_text v (some m)) = true ∧
    wsCollapsed (clean_text v (some m)) = true ∧
    (clean_text v (some m)).length ≤ m ∧
    (noAmp (pyStr v) = true → tagFree (clean_text v (some m)) = true) := by
  by_cases ht : pyTruthy v = true
  · have hct : clean_text v (some m) = ⟨applyMaxLength (cleanCore v) (some m)⟩ := by
      simp [clean_text, ht]
    rw [hct]
    obtain ⟨hb, hn, hh, hl⟩ := cleanCore_wsProps v
    obtain ⟨hb2, hn2, hh2, hl2⟩ := applyMaxLength_wsCollapsed (cleanCore v) (some m) hb hn hh hl
    refine ⟨?_, ?_, ?_, ?_⟩
    · rw [noCtrl, List.all_eq_true]
      intro c hc
      rcases applyMaxLength_chars (cleanCore v) (some m) c (by exact hc) with h1 | h1
      · simp [cleanCore_noCtrl v c h1]
      · subst h1; decide
    · rw [wsCollapsed]
      simp [hb2, hn2, hh2, hl2]
    · show (applyMaxLength (cleanCore v) (some m)).length ≤ m
      exact applyMaxLength_length _ m h3
    · intro hna
      rw [tagFree]
      simp [applyMaxLength_tagFree _ _ (cleanCore_tagFree v hna)]
  · have hct : clean_text v (some m) = "" := by
      simp only [clean_text]
      rw [Bool.not_eq_true] at ht
      simp [ht]
    rw [hct]
    refine ⟨by decide, by decide, by simp [String.length], by intro _; decide⟩

/-- Inversion of a successful `Except` bind. -/
theorem bind_ok_inv {α β : Type} (A : Except PyExc α) (f : α → Except PyExc β) (b : β)
    (h : Bind.bind A f = .ok b) : ∃ a, A = .ok a ∧ f a = .ok b := by
  cases A with
  | ok a => exact ⟨a, rfl, h⟩
  | error e => exact Except.noConfusion h

/-- Output of the title stage. -/
theorem sanitizeTitle_out (o : Option PyVal) (r : Option PyVal)
    (h : sanitizeTitle o = .ok r) : r = o.map (fun v => PyVal.str (clean_title v)) := by
  cases o with
  | none => injection h with h; exact h.symm
  | some v => injection h with h; exact h.symm

/-- Output of the description stage. -/
theorem sanitizeDescription_out (o : Option PyVal) (r : Option PyVal)
    (h : sanitizeDescription o = .ok r) :
    r = o.map (fun v => PyVal.str (clean_description v)) := by
  cases o with
  | none => injection h with h; exact h.symm
  | some v => injection h with h; exact h.symm

/-- Output of the venue-name stage. -/
theorem sanitizeVenueName_out (o : Option PyVal) (r : Option PyVal)
    (h : sanitizeVenueName o = .ok r) :
    r = o.map (fun v => PyVal.str (clean_text v (some 500))) := by
  cases o with
  | none => injection h with h; exact h.symm
  | some v => injection h with h; exact h.symm

/-- Output of the URL stage. -/
theorem sanitizeEventUrl_out (o : Option PyVal) (r : Option PyVal)
    (h : sanitizeEventUrl o = .ok r) :
    r = o.map (fun v => PyVal.str (validate_and_clean_url v)) := by
  cases o with
  | none => injection h with h; exact h.symm
  | some v => injection h with h; exact h.symm

/-- Output of the category stage. -/
theorem sanitizeCategory_out (o : Option PyVal) (r : Option PyVal)
    (h : sanitizeCategory o = .ok r) :
    r = o.map (fun v => PyVal.str (clean_text v (some 200))) := by
  cases o with
  | none => injection h with h; exact h.symm
  | some v => injection h with h; exact h.symm

/-- Output of the address stage. -/
theorem sanitizeAddress_out (o : Option PyVal) (r : Option PyVal)
    (h : sanitizeAddress o = .ok r) :
    r = o.map (fun v => PyVal.str (clean_text v (some 500))) := by
  cases o with
  | none => injection h with h; exact h.symm
  | some v => injection h with h; exact h.symm

/-- Output of the city stage. -/
theorem sanitizeCity_out (city address : Option PyVal) (r : Option PyVal)
    (h : sanitizeCity city address = .ok r) :
    (∀ v, city = some v → ∃ c, standardize_city_name v = .ok c ∧ r = some c) ∧
    (city = Option.none → ∀ a, address = some a →
      ∃ c, extract_city_from_address a = .ok c ∧ r = some c) ∧
    (city = Option.none → address = Option.none → r = Option.none) := by
  cases city with
  | some v =>
    replace h : Bind.bind (standardize_city_name v)
        (fun c => (pure (some c) : Except PyExc (Option PyVal))) = .ok r := h
    obtain ⟨c, hc, h2⟩ := bind_ok_inv _ _ _ h
    injection h2 with h2
    refine ⟨?_, ?_, ?_⟩
    · intro w hw
      injection hw with hw
      exact ⟨c, hw ▸ hc, h2.symm⟩
    · intro hn; exact absurd hn (by simp)
    · intro hn; exact absurd hn (by simp)
  | none =>
    cases address with
    | some a =>
      replace h : Bind.bind (extract_city_from_address a)
          (fun c => (pure (some c) : Except PyExc (Option PyVal))) = .ok r := h
      obtain ⟨c, hc, h2⟩ := bind_ok_inv _ _ _ h
      injection h2 with h2
      refine ⟨?_, ?_, ?_⟩
      · intro w hw; exact absurd hw (by simp)
      · intro _ b hb
        injection hb with hb
        exact ⟨c, hb ▸ hc, h2.symm⟩
      · intro _ hn; exact absurd hn (by simp)
    | none =>
      injection h with h
      exact ⟨fun w hw => absurd hw (by simp),
             fun _ b hb => absurd hb (by simp),
             fun _ _ => h.symm⟩

/-- Output of the start-date stage. -/
theorem sanitizeStartDate_out (o : Option PyVal) (r : Option PyVal)
    (h : sanitizeStartDate o = .ok r) :
    (∀ v, o = some v → r = some PyVal.none ∨ ∃ dt, r = some (PyVal.pydatetime dt)) ∧
    (o = Option.none → r = Option.none) := by
  cases o with
  | none =>
    injection h with h
    exact ⟨fun w hw => absurd hw (by simp), fun _ => h.symm⟩
  | some v =>
    replace h : Bind.bind (parse_date v Option.none)
        (fun d => (pure (some (match d with
                    | some dt => PyVal.pydatetime dt
                    | Option.none => PyVal.none)) : Except PyExc (Option PyVal))) = .ok r := h
    obtain ⟨d, hd, h2⟩ := bind_ok_inv _ _ _ h
    injection h2 with h2
    refine ⟨?_, fun hn => absurd hn (by simp)⟩
    intro w hw
    cases d with
    | none => exact Or.inl h2.symm
    | some dt => exact Or.inr ⟨dt, h2.symm⟩

/-- Field-level characterisation of a successful `sanitize_event_data`: text
fields are cleaned with their bounds, the URL is validated, and the
pass-through fields are untouched. -/
theorem sanitize_fields (x y : EventData) (h : sanitize_event_data x = .ok y) :
    y.title = x.title.map (fun v => PyVal.str (clean_title v)) ∧
    y.description = x.description.map (fun v => PyVal.str (clean_description v)) ∧
    y.venue_name = x.venue_name.map (fun v => PyVal.str (clean_text v (some 500))) ∧
    y.category = x.category.map (fun v => PyVal.str (clean_text v (some 200))) ∧
    y.address = x.address.map (fun v => PyVal.str (clean_text v (some 500))) ∧
    y.event_url = x.event_url.map (fun v => PyVal.str (validate_and_clean_url v)) ∧
    y.image_url = x.image_url ∧ y.source = x.source ∧ y.source_id = x.source_id ∧
    y.latitude = x.latitude ∧ y.longitude = x.longitude ∧
    y.raw_payload = x.raw_payload := by
  unfold sanitize_event_data at h
  obtain ⟨t1, ht1, h⟩ := bind_ok_inv _ _ _ h
  obtain ⟨t2, ht2, h⟩ := bind_ok_inv _ _ _ h
  obtain ⟨t3, ht3, h⟩ := bind_ok_inv _ _ _ h
  obtain ⟨t4, ht4, h⟩ := bind_ok_inv _ _ _ h
  obtain ⟨t5, ht5, h⟩ := bind_ok_inv _ _ _ h
  obtain ⟨t6, ht6, h⟩ := bind_ok_inv _ _ _ h
  obtain ⟨t7, ht7, h⟩ := bind_ok_inv _ _ _ h
  obtain ⟨t8, ht8, h⟩ := bind_ok_inv _ _ _ h
  injection h with h
  subst h
  exact ⟨sanitizeTitle_out _ _ ht1, sanitizeDescription_out _ _ ht2,
    sanitizeVenueName_out _ _ ht5, sanitizeCategory_out _ _ ht7,
    sanitizeAddress_out _ _ ht8, sanitizeEventUrl_out _ _ ht6,
    rfl, rfl, rfl, rfl, rfl, rfl⟩

/-- A mapped-clean slot satisfies the plain-text field invariant. -/
theorem plainTextField_map_clean (o : Option PyVal) (m : Nat) (h3 : 3 ≤ m) :
    plainTextField m (o.map (fun v => PyVal.str (clean_text v (some m)))) := by
  intro v hv
  cases o with
  | none => simp at hv
  | some w =>
    injection hv with hv
    obtain ⟨h1, h2, h3', _⟩ := clean_text_plain w m h3
    exact ⟨clean_text w (some m), hv.symm, h1, h2, h3'⟩

/-- A mapped-clean slot over ampersand-free input is tag-free. -/
theorem tagFree_map_clean (o : Option PyVal) (m : Nat) (h3 : 3 ≤ m)
    (hna : ∀ v, o = some v → noAmp (pyStr v) = true) :
    ∀ s, o.map (fun v => PyVal.str (clean_text v (some m))) = some (PyVal.str s) →
      tagFree s = true := by
  intro s hs
  cases o with
  | none => simp at hs
  | some w =>
    injection hs with hs
    injection hs with hs
    obtain ⟨_, _, _, h4⟩ := clean_text_plain w m h3
    exact hs ▸ h4 (hna w rfl)

/-- Claim C6 counterexample: the sanitised title of a record holding the
escaped markup `"&lt;b&gt;"` is the literal markup `"<b>"` -- tag stripping
runs before entity unescaping, so decoded entities reintroduce `<...>`
substrings. -/
theorem C6_counterexample_entities_reintroduce_markup :
    sanitize_event_data escapedTagRecord = .ok { title := some (PyVal.str "<b>") } ∧
    tagFree "<b>" = false := by
  decide

/-- Claim C6 as amended: every sanitised text field is a string with no
control characters, collapsed and trimmed whitespace, and length within its
declared bound (500/5000/500/200/500); the absence of `'<...>'` markup
additionally holds whenever the raw field value contains no ampersand (HTML
character references can decode into markup, see the counterexample). -/
theorem C6_sanitized_text_fields_are_plain (x y : EventData)
    (h : sanitize_event_data x = .ok y) :
    plainTextField 500 y.title ∧ plainTextField 5000 y.description ∧
    plainTextField 500 y.venue_name ∧ plainTextField 200 y.category ∧
    plainTextField 500 y.address ∧
    ((∀ v, x.title = some v → noAmp (pyStr v) = true) →
      ∀ s, y.title = some (PyVal.str s) → tagFree s = true) ∧
    ((∀ v, x.description = some v → noAmp (pyStr v) = true) →
      ∀ s, y.description = some (PyVal.str s) → tagFree s = true) ∧
    ((∀ v, x.venue_name = some v → noAmp (pyStr v) = true) →
      ∀ s, y.venue_name = some (PyVal.str s) → tagFree s = true) ∧
    ((∀ v, x.category = some v → noAmp (pyStr v) = true) →
      ∀ s, y.category = some (PyVal.str s) → tagFree s = true) ∧
    ((∀ v, x.address = some v → noAmp (pyStr v) = true) →
      ∀ s, y.address = some (PyVal.str s) → tagFree s = true) := by
  obtain ⟨ht, hd, hv, hc, ha, _⟩ := sanitize_fields x y h
  rw [show (fun v => PyVal.str (clean_title v))
        = (fun v => PyVal.str (clean_text v (some 500))) from rfl] at ht
  rw [show (fun v => PyVal.str (clean_description v))
        = (fun v => PyVal.str (clean_text v (some 5000))) from rfl] at hd
  refine ⟨ht ▸ plainTextField_map_clean _ 500 (by norm_num),
          hd ▸ plainTextField_map_clean _ 5000 (by norm_num),
          hv ▸ plainTextField_map_clean _ 500 (by norm_num),
          hc ▸ plainTextField_map_clean _ 200 (by norm_num),
          ha ▸ plainTextField_map_clean _ 500 (by norm_num),
          ?_, ?_, ?_, ?_, ?_⟩
  · intro hna s hs
    rw [ht] at hs
    exact tagFree_map_clean _ 500 (by norm_num) hna s hs
  · intro hna s hs
    rw [hd] at hs
    exact tagFree_map_clean _ 5000 (by norm_num) hna s hs
  · intro hna s hs
    rw [hv] at hs
    exact tagFree_map_clean _ 500 (by norm_num) hna s hs
  · intro hna s hs
    rw [hc] at hs
    exact tagFree_map_clean _ 200 (by norm_num) hna s hs
  · intro hna s hs
    rw [ha] at hs
    exact tagFree_map_clean _ 500 (by norm_num) hna s hs

/-- Witness for the amended C6: the sanitised title of `venueOne` is plain. -/
theorem C6_sanitized_text_fields_are_plain_witness :
    noCtrl "Venue One" = true ∧ wsCollapsed "Venue One" = true ∧
    ("Venue One" : String).length ≤ 500 ∧ tagFree "Venue One" = true := by
  obtain ⟨h1, _, _, _, _, htag, _⟩ :=
    C6_sanitized_text_fields_are_plain venueOne sanitizedVenueOne (by decide)
  obtain ⟨s, hs, hctrl, hws, hlen⟩ := h1 (PyVal.str "Venue One") (by decide)
  cases hs
  refine ⟨hctrl, hws, hlen, ?_⟩
  exact htag (by decide) "Venue One" (by decide)

/-! ## Lemmas about URL parsing and reconstruction -/

/-- Comparison of characters is comparison of their code points. -/
theorem char_le_iff {a b : Char} : (a ≤ b) ↔ (a.toNat ≤ b.toNat) := by
  rw [Char.le_def]
  rfl

/-- Characterisation of a successful `splitFirst`. -/
theorem splitFirst_eq_some (c : Char) :
    ∀ (l pre post : List Char), splitFirst c l = some (pre, post) →
      l = pre ++ c :: post ∧ c ∉ pre := by
  intro l
  induction l with
  | nil => intro pre post h; simp [splitFirst] at h
  | cons a rest ih =>
    intro pre post h
    by_cases ha : a = c
    · subst ha
      rw [splitFirst, if_pos rfl] at h
      obtain ⟨h1, h2⟩ := Prod.mk.injEq .. ▸ Option.some.injEq .. ▸ h
      subst h1 h2
      exact ⟨rfl, by simp⟩
    · rw [splitFirst, if_neg ha] at h
      cases hsub : splitFirst c rest with
      | none => rw [hsub] at h; simp at h
      | some pr =>
        obtain ⟨pre', post'⟩ := pr
        rw [hsub] at h
        simp only [Option.map_some'] at h
        obtain ⟨h1, h2⟩ := Prod.mk.injEq .. ▸ Option.some.injEq .. ▸ h
        obtain ⟨hdec, hnm⟩ := ih pre' post' hsub
        subst h2
        constructor
        · rw [← h1, List.cons_append, hdec]
        · rw [← h1]
          simp only [List.mem_cons, not_or]
          exact ⟨fun hcc => ha hcc.symm, hnm⟩

/-- Converse: a decomposition at the first occurrence determines the split. -/
theorem splitFirst_of_decomp (c : Char) :
    ∀ (pre q : List Char), c ∉ pre → splitFirst c (pre ++ c :: q) = some (pre, q) := by
  intro pre
  induction pre with
  | nil => intro q _; simp [splitFirst]
  | cons a p ih =>
    intro q h
    have ha : a ≠ c := fun hq => h (hq ▸ List.mem_cons_self a p)
    show splitFirst c (a :: (p ++ c :: q)) = _
    rw [splitFirst, if_neg ha, ih q (fun hm => h (List.mem_cons_of_mem _ hm))]
    rfl

/-- A list without the character admits no split. -/
theorem splitFirst_none (c : Char) :
    ∀ l : List Char, c ∉ l → splitFirst c l = Option.none := by
  intro l
  induction l with
  | nil => intro _; rfl
  | cons a rest ih =>
    intro h
    have ha : a ≠ c := fun hq => h (hq ▸ List.mem_cons_self a rest)
    rw [splitFirst, if_neg ha, ih (fun hm => h (List.mem_cons_of_mem _ hm))]
    rfl

/-- Take-while across an append whose left part satisfies the predicate and
whose right part does not start with it. -/
theorem takeWhile_append_all (p : Char → Bool) :
    ∀ (xs ys : List Char), (∀ c ∈ xs, p c = true) →
      (∀ d, ys.head? = some d → p d = false) →
      (xs ++ ys).takeWhile p = xs ∧ (xs ++ ys).dropWhile p = ys := by
  intro xs
  induction xs with
  | nil =>
    intro ys _ hy
    cases ys with
    | nil => exact ⟨rfl, rfl⟩
    | cons d t =>
      have := hy d rfl
      exact ⟨List.takeWhile_cons_of_neg (by simp [this]),
             List.dropWhile_cons_of_neg (by simp [this])⟩
  | cons a xs' ih =>
    intro ys hx hy
    have ha : p a = true := hx a (List.mem_cons_self a xs')
    have hx' : ∀ c ∈ xs', p c = true := fun c hc => hx c (List.mem_cons_of_mem _ hc)
    obtain ⟨h1, h2⟩ := ih ys hx' hy
    exact ⟨by rw [List.cons_append, List.takeWhile_cons_of_pos ha, h1],
           by rw [List.cons_append, List.dropWhile_cons_of_pos ha, h2]⟩

/-- Stripping leading/trailing C0-or-space characters is the identity on text
containing none. -/
theorem stripEnds_id (l : List Char) (h : ∀ c ∈ l, isC0OrSpace c = false) :
    stripEnds l = l := by
  rw [stripEnds]
  have h1 : l.dropWhile isC0OrSpace = l := by
    refine dropWhile_id_of_headNot _ _ ?_
    intro c hc
    cases l with
    | nil => simp at hc
    | cons a t =>
      simp only [List.head?_cons, Option.some.injEq] at hc
      exact hc ▸ h a (List.mem_cons_self a t)
  rw [h1]
  have h2 : l.reverse.dropWhile isC0OrSpace = l.reverse := by
    refine dropWhile_id_of_headNot _ _ ?_
    intro c hc
    cases hr : l.reverse with
    | nil => rw [hr] at hc; simp at hc
    | cons a t =>
      rw [hr] at hc
      simp only [List.head?_cons, Option.some.injEq] at hc
      refine hc ▸ h a ?_
      rw [← List.mem_reverse, hr]
      exact List.mem_cons_self a t
  rw [h2, List.reverse_reverse]

/-- A character strictly between space and delete is not Python whitespace. -/
theorem pyIsSpace_false_of_range (c : Char) (h1 : 32 < c.toNat) (h2 : c.toNat ≤ 0x7e) :
    pyIsSpace c = false := by
  rw [pyIsSpace]
  have e1 : decide (c = ' ') = false := decide_eq_false (fun hh => by
    have := congrArg Char.toNat hh
    rw [show (' ').toNat = 32 from rfl] at this
    omega)
  have e2 : decide (c = '\t') = false := decide_eq_false (fun hh => by
    have := congrArg Char.toNat hh
    rw [show ('\t').toNat = 9 from rfl] at this
    omega)
  have e3 : decide (c = '\n') = false := decide_eq_false (fun hh => by
    have := congrArg Char.toNat hh
    rw [show ('\n').toNat = 10 from rfl] at this
    omega)
  rw [e1, e2, e3]
  simp only [Bool.false_or, Bool.or_eq_false_iff, Bool.and_eq_false_iff,
    decide_eq_false_iff_not]
  omega

/-- Host-name characters are printable. -/
theorem isHostChar_printable (c : Char) (h : isHostChar c = true) :
    isPrintableCh c = true := by
  rw [isHostChar] at h
  rw [isPrintableCh]
  simp only [Bool.or_eq_true, isAsciiAlpha, isAsciiLowerCh, isAsciiUpperCh, isAsciiDigit,
    Bool.and_eq_true, decide_eq_true_eq, char_le_iff] at h
  rcases h with ((((((⟨h1, h2⟩ | ⟨h1, h2⟩) | ⟨h1, h2⟩) | h1) | h1) | h1) | h1) | h1 <;>
    first
      | (subst h1; decide)
      | (have hlo : 32 < c.toNat := Nat.lt_of_lt_of_le (by decide) h1
         have hhi : c.toNat ≤ 0x7e := Nat.le_trans h2 (by decide)
         simp [pyIsSpace_false_of_range c hlo hhi, hlo])

/-- A split that fails means the character is absent. -/
theorem splitFirst_eq_none (c : Char) :
    ∀ l : List Char, splitFirst c l = Option.none → c ∉ l := by
  intro l
  induction l with
  | nil => intro _; simp
  | cons a rest ih =>
    intro h
    rw [splitFirst] at h
    by_cases ha : a = c
    · rw [if_pos ha] at h; simp at h
    · rw [if_neg ha] at h
      intro hm
      rcases List.mem_cons.mp hm with hm | hm
      · exact ha hm.symm
      · cases hsub : splitFirst c rest with
        | none => exact ih hsub hm
        | some pr => rw [hsub] at h; simp at h

/-- The head surviving a drop-while falsifies the predicate. -/
theorem dropWhile_head_false (p : Char → Bool) :
    ∀ (l : List Char) (a : Char), (l.dropWhile p).head? = some a → p a = false := by
  intro l
  induction l with
  | nil => intro a h; simp at h
  | cons x t ih =>
    intro a h
    by_cases hx : p x = true
    · rw [List.dropWhile_cons_of_pos hx] at h
      exact ih a h
    · rw [List.dropWhile_cons_of_neg hx] at h
      simp only [List.head?_cons, Option.some.injEq] at h
      subst h
      simpa using hx

/-- Host-name characters are not URL delimiters. -/
theorem isHostChar_not_delim (c : Char) (h : isHostChar c = true) :
    (c = '/' || c = '?' || c = '#' : Bool) = false := by
  rw [isHostChar] at h
  simp only [Bool.or_eq_true, isAsciiAlpha, isAsciiLowerCh, isAsciiUpperCh, isAsciiDigit,
    Bool.and_eq_true, decide_eq_true_eq, char_le_iff] at h
  simp only [Bool.or_eq_false_iff, decide_eq_false_iff_not]
  rcases h with ((((((⟨h1, h2⟩ | ⟨h1, h2⟩) | ⟨h1, h2⟩) | h1) | h1) | h1) | h1) | h1 <;>
    first
      | (subst h1; decide)
      | (have g1 : ('a').toNat = 97 := rfl
         have g2 : ('z').toNat = 122 := rfl
         have g3 : ('A').toNat = 65 := rfl
         have g4 : ('Z').toNat = 90 := rfl
         have g5 : ('0').toNat = 48 := rfl
         have g6 : ('9').toNat = 57 := rfl
         refine ⟨⟨fun hh => ?_, fun hh => ?_⟩, fun hh => ?_⟩ <;>
          · have := congrArg Char.toNat hh
            simp only [show ('/').toNat = 47 from rfl, show ('?').toNat = 63 from rfl,
              show ('#').toNat = 35 from rfl] at this
            omega)

/-- A list of host-name characters does not contain a non-host character. -/
theorem contains_false_of_all_hostChar (l : List Char) (h : l.all isHostChar = true)
    (c : Char) (hc : isHostChar c = false) : l.contains c = false := by
  induction l with
  | nil => rfl
  | cons a t ih =>
    simp only [List.all_cons, Bool.and_eq_true] at h
    have ha : ¬(c = a) := by
      intro hh
      rw [hh, h.1] at hc
      simp at hc
    simp only [List.contains_cons, Bool.or_eq_false_iff]
    exact ⟨by simpa using ha, ih h.2⟩

/-- Printable characters are not C0 controls or the space. -/
theorem isPrintableCh_not_c0 (c : Char) (h : isPrintableCh c = true) :
    isC0OrSpace c = false := by
  rw [isPrintableCh] at h
  simp only [Bool.and_eq_true, decide_eq_true_eq] at h
  rw [isC0OrSpace]
  simp only [decide_eq_false_iff_not]
  omega

/-- Printable characters are not Python whitespace. -/
theorem isPrintableCh_not_space (c : Char) (h : isPrintableCh c = true) :
    pyIsSpace c = false := by
  rw [isPrintableCh] at h
  simp only [Bool.and_eq_true, Bool.not_eq_true'] at h
  exact h.2

/-- Printable characters survive the tab/CR/LF filter. -/
theorem isPrintableCh_keep_tcn (c : Char) (h : isPrintableCh c = true) :
    (!(c = '\t' || c.toNat = 0xd || c = '\n') : Bool) = true := by
  rw [isPrintableCh] at h
  simp only [Bool.and_eq_true, decide_eq_true_eq] at h
  simp only [Bool.not_eq_true', Bool.or_eq_false_iff, decide_eq_false_iff_not]
  refine ⟨⟨fun hh => ?_, fun hh => ?_⟩, fun hh => ?_⟩ <;>
    first
      | (have hcg := congrArg Char.toNat hh
         simp only [show ('\t').toNat = 9 from rfl, show ('\n').toNat = 10 from rfl] at hcg
         omega)
      | omega

/-- The URL parser is the composition of its four stages. -/
theorem pyUrlParse_eq (s : String) :
    pyUrlParse s =
      urlTail (urlSchemeSplit (urlPreprocess s)).1
        (urlNetlocSplit (urlSchemeSplit (urlPreprocess s)).2).1
        (urlNetlocSplit (urlSchemeSplit (urlPreprocess s)).2).2 := rfl

/-- The netloc produced by the netloc split contains no delimiter. -/
theorem urlNetlocSplit_netloc (cs1 : List Char) :
    ∀ c ∈ (urlNetlocSplit cs1).1, (c = '/' || c = '?' || c = '#' : Bool) = false := by
  intro c hc
  unfold urlNetlocSplit at hc
  split at hc
  · have := List.mem_takeWhile_imp hc
    simpa using this
  · simp at hc

/-- After a netloc split, the remainder starts with a delimiter (or there was no netloc). -/
theorem urlNetlocSplit_rest (cs1 : List Char) :
    (urlNetlocSplit cs1).1 = [] ∨
      ∀ a, (urlNetlocSplit cs1).2.head? = some a →
        (a = '/' || a = '?' || a = '#' : Bool) = true := by
  unfold urlNetlocSplit
  split
  · right
    intro a ha
    have h2 := dropWhile_head_false _ _ _ ha
    simp only [Bool.not_eq_false'] at h2
    exact h2
  · left; rfl

/-- Structure of a successful tail: netloc has no delimiter, the path no query or fragment marker, the query no fragment marker, and with a netloc the path is empty or absolute. -/
theorem urlTail_invariants (scheme netloc cs2 : List Char) (p : ParsedUrl)
    (hn : ∀ c ∈ netloc, (c = '/' || c = '?' || c = '#' : Bool) = false)
    (hd : netloc = [] ∨ ∀ a, cs2.head? = some a →
      (a = '/' || a = '?' || a = '#' : Bool) = true)
    (h : urlTail scheme netloc cs2 = .ok p) :
    (∀ c ∈ p.netloc.data, (c = '/' || c = '?' || c = '#' : Bool) = false) ∧
    '#' ∉ p.path.data ∧ '?' ∉ p.path.data ∧ '#' ∉ p.query.data ∧
    (p.netloc.data = [] ∨ p.path.data = [] ∨ p.path.data.head? = some '/') := by
  unfold urlTail at h
  split at h
  · exact absurd h (by simp)
  · cases hf : splitFirst '#' cs2 with
    | none =>
      simp only [hf] at h
      have hnf : '#' ∉ cs2 := splitFirst_eq_none '#' cs2 hf
      cases hq : splitFirst '?' cs2 with
      | none =>
        simp only [hq] at h
        injection h with h
        subst h
        have hnq : '?' ∉ cs2 := splitFirst_eq_none '?' cs2 hq
        refine ⟨hn, hnf, hnq, by simp, ?_⟩
        rcases hd with hd | hd
        · left; exact hd
        · cases cs2 with
          | nil => right; left; rfl
          | cons a t =>
            have ha := hd a rfl
            have ha2 : ¬(a = '#') := fun hh => hnf (hh ▸ List.mem_cons_self a t)
            have ha3 : ¬(a = '?') := fun hh => hnq (hh ▸ List.mem_cons_self a t)
            simp only [decide_eq_false ha2, decide_eq_false ha3, Bool.or_false] at ha
            right; right
            simp only [List.head?_cons, Option.some.injEq]
            simpa using ha
      | some pq =>
        obtain ⟨pa, qu⟩ := pq
        simp only [hq] at h
        injection h with h
        subst h
        obtain ⟨hdec, hnm⟩ := splitFirst_eq_some '?' cs2 pa qu hq
        have hpa_f : '#' ∉ pa := fun hm => hnf (hdec ▸ List.mem_append_left _ hm)
        have hqu_f : '#' ∉ qu := fun hm =>
          hnf (hdec ▸ List.mem_append_right _ (List.mem_cons_of_mem _ hm))
        refine ⟨hn, hpa_f, hnm, hqu_f, ?_⟩
        rcases hd with hd | hd
        · left; exact hd
        · cases hpa : pa with
          | nil => right; left; rfl
          | cons a t =>
            have hcs : cs2.head? = some a := by rw [hdec, hpa]; rfl
            have ha := hd a hcs
            have ha2 : ¬(a = '#') := fun hh =>
              hpa_f (hh ▸ (hpa ▸ List.mem_cons_self a t))
            have ha3 : ¬(a = '?') := fun hh =>
              hnm (hh ▸ (hpa ▸ List.mem_cons_self a t))
            simp only [decide_eq_false ha2, decide_eq_false ha3, Bool.or_false] at ha
            right; right
            simp only [List.head?_cons, Option.some.injEq]
            simpa using ha
    | some qf =>
      obtain ⟨q1, fr⟩ := qf
      simp only [hf] at h
      obtain ⟨hdec1, hnm1⟩ := splitFirst_eq_some '#' cs2 q1 fr hf
      cases hq : splitFirst '?' q1 with
      | none =>
        simp only [hq] at h
        injection h with h
        subst h
        have hnq : '?' ∉ q1 := splitFirst_eq_none '?' q1 hq
        refine ⟨hn, hnm1, hnq, by simp, ?_⟩
        rcases hd with hd | hd
        · left; exact hd
        · cases hq1 : q1 with
          | nil => right; left; rfl
          | cons a t =>
            have hcs : cs2.head? = some a := by rw [hdec1, hq1]; rfl
            have ha := hd a hcs
            have ha2 : ¬(a = '#') := fun hh =>
              hnm1 (hh ▸ (hq1 ▸ List.mem_cons_self a t))
            have ha3 : ¬(a = '?') := fun hh =>
              hnq (hh ▸ (hq1 ▸ List.mem_cons_self a t))
            simp only [decide_eq_false ha2, decide_eq_false ha3, Bool.or_false] at ha
            right; right
            simp only [List.head?_cons, Option.some.injEq]
            simpa using ha
      | some pq =>
        obtain ⟨pa, qu⟩ := pq
        simp only [hq] at h
        injection h with h
        subst h
        obtain ⟨hdec2, hnm2⟩ := splitFirst_eq_some '?' q1 pa qu hq
        have hpa_f : '#' ∉ pa := fun hm => hnm1 (hdec2 ▸ List.mem_append_left _ hm)
        have hqu_f : '#' ∉ qu := fun hm =>
          hnm1 (hdec2 ▸ List.mem_append_right _ (List.mem_cons_of_mem _ hm))
        refine ⟨hn, hpa_f, hnm2, hqu_f, ?_⟩
        rcases hd with hd | hd
        · left; exact hd
        · cases hpa : pa with
          | nil => right; left; rfl
          | cons a t =>
            have hcs : cs2.head? = some a := by rw [hdec1, hdec2, hpa]; rfl
            have ha := hd a hcs
            have ha2 : ¬(a = '#') := fun hh =>
              hpa_f (hh ▸ (hpa ▸ List.mem_cons_self a t))
            have ha3 : ¬(a = '?') := fun hh =>
              hnm2 (hh ▸ (hpa ▸ List.mem_cons_self a t))
            simp only [decide_eq_false ha2, decide_eq_false ha3, Bool.or_false] at ha
            right; right
            simp only [List.head?_cons, Option.some.injEq]
            simpa using ha

/-- Structural facts about every successful parse. -/
theorem pyUrlParse_invariants (s : String) (p : ParsedUrl)
    (h : pyUrlParse s = .ok p) :
    (∀ c ∈ p.netloc.data, (c = '/' || c = '?' || c = '#' : Bool) = false) ∧
    '#' ∉ p.path.data ∧ '?' ∉ p.path.data ∧ '#' ∉ p.query.data ∧
    (p.netloc.data = [] ∨ p.path.data = [] ∨ p.path.data.head? = some '/') := by
  rw [pyUrlParse_eq] at h
  exact urlTail_invariants _ _ _ p (urlNetlocSplit_netloc _) (urlNetlocSplit_rest _) h

/-- A string with empty character data is the empty string. -/
theorem data_eq_nil_iff (s : String) : s.data = [] → s = "" := by
  intro h
  apply String.ext
  rw [h]

/-- Normal form of the reconstructed URL when a netloc is present and the path is empty or absolute. -/
theorem pyUrlUnparse_normal (sch nl pa qu fr : String)
    (hn : nl ≠ "") (hsch : sch ≠ "")
    (hadj : pa.data = [] ∨ pa.data.head? = some '/') :
    pyUrlUnparse ⟨sch, nl, pa, qu, fr⟩ =
      ⟨sch.data ++ ':' :: '/' :: '/' :: (nl.data ++
        (pa.data ++ (if qu.data = [] then [] else '?' :: qu.data) ++
         (if fr.data = [] then [] else '#' :: fr.data)))⟩ := by
  have hpaAdj : (if pa.data ≠ [] && !leadsWith "/".data pa.data
      then '/' :: pa.data else pa.data) = pa.data := by
    rcases hadj with hadj | hadj
    · rw [hadj]; simp
    · cases hpa : pa.data with
      | nil => simp
      | cons a t =>
        rw [hpa] at hadj
        simp only [List.head?_cons, Option.some.injEq] at hadj
        subst hadj
        rw [show leadsWith "/".data ('/' :: t) = true from rfl]
        simp
  unfold pyUrlUnparse
  simp only []
  rw [if_pos (show (decide (nl ≠ "") || leadsWith "//".data pa.data) = true by simp [hn])]
  rw [hpaAdj]
  by_cases hqu : qu.data = [] <;> by_cases hfr : fr.data = []
  · have hqu2 : qu = "" := data_eq_nil_iff qu hqu
    have hfr2 : fr = "" := data_eq_nil_iff fr hfr
    subst hqu2; subst hfr2
    apply String.ext
    simp [hsch, show "//".data = ['/', '/'] from rfl, show ("" : String).data = [] from rfl,
      List.append_assoc]
  · have hqu2 : qu = "" := data_eq_nil_iff qu hqu
    have hfr2 : fr ≠ "" := fun hh => hfr (hh ▸ rfl)
    subst hqu2
    apply String.ext
    simp [hsch, hfr, hfr2, show "//".data = ['/', '/'] from rfl,
      show ("" : String).data = [] from rfl, List.append_assoc]
  · have hqu2 : qu ≠ "" := fun hh => hqu (hh ▸ rfl)
    have hfr2 : fr = "" := data_eq_nil_iff fr hfr
    subst hfr2
    apply String.ext
    simp [hsch, hqu, hqu2, show "//".data = ['/', '/'] from rfl,
      show ("" : String).data = [] from rfl, List.append_assoc]
  · have hqu2 : qu ≠ "" := fun hh => hqu (hh ▸ rfl)
    have hfr2 : fr ≠ "" := fun hh => hfr (hh ▸ rfl)
    apply String.ext
    simp [hsch, hqu, hqu2, hfr, hfr2, show "//".data = ['/', '/'] from rfl,
      List.append_assoc]

/-- Parsing a reconstructed http/https URL reaches the tail stage with the scheme, netloc and remainder intact. -/
theorem pyUrlParse_reconstruct (sch nl rest : List Char)
    (hsch : sch = "http".data ∨ sch = "https".data)
    (hhost : nl.all isHostChar = true)
    (hrest_pr : ∀ c ∈ rest, isPrintableCh c = true)
    (hrest_hd : ∀ a, rest.head? = some a → (a = '/' || a = '?' || a = '#' : Bool) = true) :
    pyUrlParse ⟨sch ++ ':' :: '/' :: '/' :: (nl ++ rest)⟩ = urlTail sch nl rest := by
  have hAllPr : ∀ c ∈ sch ++ ':' :: '/' :: '/' :: (nl ++ rest), isPrintableCh c = true := by
    intro c hc
    rcases List.mem_append.mp hc with hc | hc
    · rcases hsch with h | h <;> subst h <;>
        [(simp only [show "http".data = ['h', 't', 't', 'p'] from rfl] at hc);
         (simp only [show "https".data = ['h', 't', 't', 'p', 's'] from rfl] at hc)] <;>
        fin_cases hc <;> decide
    · rcases List.mem_cons.mp hc with hc | hc
      · subst hc; decide
      · rcases List.mem_cons.mp hc with hc | hc
        · subst hc; decide
        · rcases List.mem_cons.mp hc with hc | hc
          · subst hc; decide
          · rcases List.mem_append.mp hc with hc | hc
            · exact isHostChar_printable c (List.all_eq_true.mp hhost c hc)
            · exact hrest_pr c hc
  have hpre : urlPreprocess ⟨sch ++ ':' :: '/' :: '/' :: (nl ++ rest)⟩ =
      sch ++ ':' :: '/' :: '/' :: (nl ++ rest) := by
    show (stripEnds (sch ++ ':' :: '/' :: '/' :: (nl ++ rest))).filter _ = _
    rw [stripEnds_id _ (fun c hc => isPrintableCh_not_c0 c (hAllPr c hc))]
    exact List.filter_eq_self.mpr (fun c hc => by
      simpa using isPrintableCh_keep_tcn c (hAllPr c hc))
  have hss : urlSchemeSplit (sch ++ ':' :: '/' :: '/' :: (nl ++ rest)) =
      (sch, '/' :: '/' :: (nl ++ rest)) := by
    unfold urlSchemeSplit
    have hni : ':' ∉ sch := by rcases hsch with h | h <;> subst h <;> decide
    simp only [splitFirst_of_decomp ':' sch ('/' :: '/' :: (nl ++ rest)) hni]
    rcases hsch with h | h <;> subst h <;>
      rw [if_pos (by decide)] <;>
      first
        | rw [show List.map asciiLower "http".data = "http".data from by decide]
        | rw [show List.map asciiLower "https".data = "https".data from by decide]
  have hnlo : ∀ c ∈ nl, ((fun c => !(c = '/' || c = '?' || c = '#' : Bool)) c) = true := by
    intro c hc
    have hh := List.all_eq_true.mp hhost c hc
    simp only [Bool.not_eq_true']
    exact isHostChar_not_delim c hh
  have hns : urlNetlocSplit ('/' :: '/' :: (nl ++ rest)) = (nl, rest) := by
    unfold urlNetlocSplit
    rw [if_pos (show leadsWith "//".data ('/' :: '/' :: (nl ++ rest)) = true from rfl)]
    have hdrop : List.drop 2 ('/' :: '/' :: (nl ++ rest)) = nl ++ rest := rfl
    rw [hdrop]
    obtain ⟨h1, h2⟩ := takeWhile_append_all (fun c => !(c = '/' || c = '?' || c = '#' : Bool))
      nl rest hnlo
      (fun d hd => by
        simp only [Bool.not_eq_false']
        exact hrest_hd d hd)
    rw [h1, h2]
  rw [pyUrlParse_eq, hpre, hss]
  show urlTail sch (urlNetlocSplit ('/' :: '/' :: (nl ++ rest))).1
    (urlNetlocSplit ('/' :: '/' :: (nl ++ rest))).2 = urlTail sch nl rest
  rw [hns]

/-- The tail stage recovers path, query and fragment from their reconstructed concatenation. -/
theorem urlTail_reconstruct (sch nl pa qu fr : List Char)
    (hhost : nl.all isHostChar = true)
    (hp1 : '#' ∉ pa) (hp2 : '?' ∉ pa) (hq1 : '#' ∉ qu) :
    urlTail sch nl (pa ++ (if qu = [] then [] else '?' :: qu) ++
        (if fr = [] then [] else '#' :: fr)) =
      .ok ⟨⟨sch⟩, ⟨nl⟩, ⟨pa⟩, ⟨qu⟩, ⟨fr⟩⟩ := by
  have hbr1 : nl.contains '[' = false :=
    contains_false_of_all_hostChar nl hhost '[' (by decide)
  have hbr2 : nl.contains ']' = false :=
    contains_false_of_all_hostChar nl hhost ']' (by decide)
  have hnq : '#' ∉ pa ++ (if qu = [] then [] else '?' :: qu) := by
    intro hm
    rcases List.mem_append.mp hm with hm | hm
    · exact hp1 hm
    · by_cases hqu : qu = []
      · rw [if_pos hqu] at hm; simp at hm
      · rw [if_neg hqu] at hm
        rcases List.mem_cons.mp hm with hm | hm
        · exact absurd hm (by decide)
        · exact hq1 hm
  unfold urlTail
  rw [if_neg (show ¬(((nl.contains '[' && !nl.contains ']') ||
      (nl.contains ']' && !nl.contains '[')) = true) by
    rw [hbr1, hbr2]; simp)]
  by_cases hfr : fr = []
  · rw [if_pos hfr, List.append_nil]
    simp only [splitFirst_none '#' _ hnq]
    by_cases hqu : qu = []
    · rw [if_pos hqu, List.append_nil] at *
      simp only [splitFirst_none '?' pa hp2]
      rw [hfr, hqu]
    · rw [if_neg hqu] at *
      simp only [splitFirst_of_decomp '?' pa qu hp2]
      rw [hfr]
  · rw [if_neg hfr]
    simp only [splitFirst_of_decomp '#' _ fr hnq]
    by_cases hqu : qu = []
    · rw [if_pos hqu, List.append_nil] at *
      simp only [splitFirst_none '?' pa hp2]
      rw [hqu]
    · rw [if_neg hqu] at *
      simp only [splitFirst_of_decomp '?' pa qu hp2]

/-- Round trip: re-parsing the reconstruction of a well-formed parse result gives it back. -/
theorem pyUrlParse_unparse (p : ParsedUrl)
    (hs : p.scheme = "http" ∨ p.scheme = "https")
    (hn : p.netloc ≠ "")
    (hhost : p.netloc.data.all isHostChar = true)
    (hpath : ∀ c ∈ p.path.data, isPrintableCh c = true)
    (hquery : ∀ c ∈ p.query.data, isPrintableCh c = true)
    (hfrag : ∀ c ∈ p.fragment.data, isPrintableCh c = true)
    (hp1 : '#' ∉ p.path.data) (hp2 : '?' ∉ p.path.data) (hq1 : '#' ∉ p.query.data)
    (hsl : p.path.data = [] ∨ p.path.data.head? = some '/') :
    pyUrlParse (pyUrlUnparse p) = .ok p := by
  obtain ⟨sch, nl, pa, qu, fr⟩ := p
  replace hs : sch = "http" ∨ sch = "https" := hs
  replace hn : nl ≠ "" := hn
  replace hhost : nl.data.all isHostChar = true := hhost
  replace hpath : ∀ c ∈ pa.data, isPrintableCh c = true := hpath
  replace hquery : ∀ c ∈ qu.data, isPrintableCh c = true := hquery
  replace hfrag : ∀ c ∈ fr.data, isPrintableCh c = true := hfrag
  replace hp1 : '#' ∉ pa.data := hp1
  replace hp2 : '?' ∉ pa.data := hp2
  replace hq1 : '#' ∉ qu.data := hq1
  replace hsl : pa.data = [] ∨ pa.data.head? = some '/' := hsl
  have hschne : sch ≠ "" := by rcases hs with h | h <;> subst h <;> decide
  rw [pyUrlUnparse_normal sch nl pa qu fr hn hschne hsl]
  have hrest_pr : ∀ c ∈ pa.data ++ (if qu.data = [] then [] else '?' :: qu.data) ++
      (if fr.data = [] then [] else '#' :: fr.data), isPrintableCh c = true := by
    intro c hc
    rcases List.mem_append.mp hc with hc | hc
    · rcases List.mem_append.mp hc with hc | hc
      · exact hpath c hc
      · by_cases hqu : qu.data = []
        · rw [if_pos hqu] at hc; simp at hc
        · rw [if_neg hqu] at hc
          rcases List.mem_cons.mp hc with hc | hc
          · subst hc; decide
          · exact hquery c hc
    · by_cases hfr : fr.data = []
      · rw [if_pos hfr] at hc; simp at hc
      · rw [if_neg hfr] at hc
        rcases List.mem_cons.mp hc with hc | hc
        · subst hc; decide
        · exact hfrag c hc
  have hrest_hd : ∀ a, (pa.data ++ (if qu.data = [] then [] else '?' :: qu.data) ++
      (if fr.data = [] then [] else '#' :: fr.data)).head? = some a →
      (a = '/' || a = '?' || a = '#' : Bool) = true := by
    intro a ha
    rcases hsl with hpa | hpa
    · rw [hpa, List.nil_append] at ha
      by_cases hqu : qu.data = []
      · rw [if_pos hqu, List.nil_append] at ha
        by_cases hfr : fr.data = []
        · rw [if_pos hfr] at ha; simp at ha
        · rw [if_neg hfr] at ha
          simp only [List.head?_cons, Option.some.injEq] at ha
          subst ha; decide
      · rw [if_neg hqu, List.cons_append] at ha
        simp only [List.head?_cons, Option.some.injEq] at ha
        subst ha; decide
    · cases hpd : pa.data with
      | nil => rw [hpd] at hpa; simp at hpa
      | cons b t =>
        rw [hpd] at hpa
        simp only [List.head?_cons, Option.some.injEq] at hpa
        subst hpa
        rw [hpd, List.cons_append, List.cons_append] at ha
        simp only [List.head?_cons, Option.some.injEq] at ha
        subst ha; decide
  have hrec := pyUrlParse_reconstruct sch.data nl.data
    (pa.data ++ (if qu.data = [] then [] else '?' :: qu.data) ++
      (if fr.data = [] then [] else '#' :: fr.data))
    (by rcases hs with h | h <;> subst h <;> [left; right] <;> rfl)
    hhost hrest_pr hrest_hd
  rw [hrec]
  have := urlTail_reconstruct sch.data nl.data pa.data qu.data fr.data hhost hp1 hp2 hq1
  rw [this]

/-- What a successful validators.url check certifies about the parse result. -/
theorem validatorsUrl_spec (s : String) (p : ParsedUrl) (hp : pyUrlParse s = .ok p)
    (hv : validatorsUrl s = true) :
    (p.scheme = "http" ∨ p.scheme = "https") ∧ p.netloc ≠ "" ∧
    p.netloc.data.contains '.' = true ∧
    p.netloc.data.all isHostChar = true ∧
    (∀ c ∈ p.path.data, isPrintableCh c = true) ∧
    (∀ c ∈ p.query.data, isPrintableCh c = true) ∧
    (∀ c ∈ p.fragment.data, isPrintableCh c = true) := by
  unfold validatorsUrl at hv
  rw [hp] at hv
  simp only [Bool.and_eq_true, Bool.or_eq_true, decide_eq_true_eq] at hv
  exact ⟨hv.1.1.1.1.1.1, hv.1.1.1.1.1.2, hv.1.1.1.1.2, hv.1.1.1.2,
    List.all_eq_true.mp hv.1.1.2, List.all_eq_true.mp hv.1.2, List.all_eq_true.mp hv.2⟩

/-- Every non-empty result of the checking stage is the reconstruction of a
parse that passed the scheme, netloc and `validators` checks. -/
theorem validateTail_output (u2 : String) :
    validateTail u2 = "" ∨
    ∃ p, pyUrlParse u2 = .ok p ∧ validatorsUrl u2 = true ∧
      validateTail u2 = pyUrlUnparse p := by
  unfold validateTail
  split
  · left; rfl
  · rename_i p hp
    split
    · left; rfl
    · split
      · left; rfl
      · split
        · left; rfl
        · rename_i hcond
          right
          refine ⟨p, hp, ?_, rfl⟩
          simp only [HAS_VALIDATORS, Bool.true_and, Bool.not_eq_true',
            Bool.not_eq_false] at hcond
          exact hcond

/-- Every non-empty result of URL validation is the reconstruction of a parse
that passed the scheme, netloc and `validators` checks. -/
theorem validate_output (u : PyVal) :
    validate_and_clean_url u = "" ∨
    ∃ s p, pyUrlParse s = .ok p ∧ validatorsUrl s = true ∧
      validate_and_clean_url u = pyUrlUnparse p := by
  unfold validate_and_clean_url
  simp only []
  split
  · left; rfl
  · split
    · left; rfl
    · rcases validateTail_output (schemePrefix (pyStrip (pyStr u))) with h | ⟨p, hp, hv, he⟩
      · left; exact h
      · right; exact ⟨_, p, hp, hv, he⟩

/-- C7: `validate_and_clean_url` prepends `https://` to scheme-less input and
returns the empty string for invalid or absent input
(`validate_and_clean_url "example.com/event" = "https://example.com/event"`,
`validate_and_clean_url "not a url" = ""`, `validate_and_clean_url None = ""`),
and every non-empty result is a syntactically valid http/https URL with scheme
and host present. -/
theorem C7_url_normalization :
    validate_and_clean_url (.str "example.com/event") = "https://example.com/event" ∧
    validate_and_clean_url (.str "not a url") = "" ∧
    validate_and_clean_url .none = "" ∧
    ∀ u, validate_and_clean_url u ≠ "" →
      isValidHttpUrl (validate_and_clean_url u) = true := by
  refine ⟨by decide, by decide, by decide, ?_⟩
  intro u hne
  rcases validate_output u with h | ⟨s, p, hp, hv, heq⟩
  · exact absurd h hne
  · rw [heq]
    obtain ⟨hs, hn, hdot, hhost, hpa, hqu, hfr⟩ := validatorsUrl_spec s p hp hv
    obtain ⟨hninv, hp1, hp2, hq1, hsl⟩ := pyUrlParse_invariants s p hp
    have hsl2 : p.path.data = [] ∨ p.path.data.head? = some '/' := by
      rcases hsl with h | h
      · exact absurd (data_eq_nil_iff p.netloc h) hn
      · exact h
    have hrt := pyUrlParse_unparse p hs hn hhost hpa hqu hfr hp1 hp2 hq1 hsl2
    unfold isValidHttpUrl
    rw [hrt]
    rcases hs with h | h <;> simp [h, hn]

/-- Closed instance of the universal part of C7 at a concrete input. -/
theorem C7_url_normalization_witness :
    isValidHttpUrl (validate_and_clean_url (.str "example.com/event")) = true :=
  C7_url_normalization.2.2.2 (.str "example.com/event") (by decide)

/-- Code-point characterisation of the lowercase test. -/
theorem isAsciiLowerCh_iff (c : Char) :
    isAsciiLowerCh c = true ↔ 97 ≤ c.toNat ∧ c.toNat ≤ 122 := by
  rw [isAsciiLowerCh]
  simp only [Bool.and_eq_true, decide_eq_true_eq, char_le_iff]
  rw [show ('a').toNat = 97 from rfl, show ('z').toNat = 122 from rfl]

/-- Code-point characterisation of the uppercase test. -/
theorem isAsciiUpperCh_iff (c : Char) :
    isAsciiUpperCh c = true ↔ 65 ≤ c.toNat ∧ c.toNat ≤ 90 := by
  rw [isAsciiUpperCh]
  simp only [Bool.and_eq_true, decide_eq_true_eq, char_le_iff]
  rw [show ('A').toNat = 65 from rfl, show ('Z').toNat = 90 from rfl]

/-- Code point of the uppercased form of a lowercase letter. -/
theorem asciiUpper_of_lower (c : Char) (h : isAsciiLowerCh c = true) :
    (asciiUpper c).toNat = c.toNat - 32 := by
  rw [asciiUpper, if_pos h]
  obtain ⟨h1, h2⟩ := (isAsciiLowerCh_iff c).mp h
  exact toNat_ofNat_valid (Or.inl (by omega))

/-- Code point of the lowercased form of an uppercase letter. -/
theorem asciiLower_of_upper (c : Char) (h : isAsciiUpperCh c = true) :
    (asciiLower c).toNat = c.toNat + 32 := by
  rw [asciiLower, if_pos h]
  obtain ⟨h1, h2⟩ := (isAsciiUpperCh_iff c).mp h
  exact toNat_ofNat_valid (Or.inl (by omega))

/-- Characters with equal code points are equal. -/
theorem char_eq_of_toNat {a b : Char} (h : a.toNat = b.toNat) : a = b := by
  have := congrArg Char.ofNat h
  rwa [Char.ofNat_toNat, Char.ofNat_toNat] at this

/-- Lowercasing absorbs a previous uppercasing. -/
theorem asciiLower_asciiUpper (c : Char) : asciiLower (asciiUpper c) = asciiLower c := by
  by_cases hl : isAsciiLowerCh c = true
  · obtain ⟨h1, h2⟩ := (isAsciiLowerCh_iff c).mp hl
    have hup := asciiUpper_of_lower c hl
    have hU : isAsciiUpperCh (asciiUpper c) = true := by
      rw [isAsciiUpperCh_iff, hup]; omega
    have hnotU : isAsciiUpperCh c = false := by
      rw [Bool.eq_false_iff]
      intro hh
      obtain ⟨g1, g2⟩ := (isAsciiUpperCh_iff c).mp hh
      omega
    apply char_eq_of_toNat
    rw [asciiLower_of_upper _ hU, hup, asciiLower, hnotU]
    simp only [Bool.false_eq_true, if_false]
    omega
  · rw [asciiUpper, if_neg hl]

/-- Lowercasing a character is idempotent. -/
theorem asciiLower_idem (c : Char) : asciiLower (asciiLower c) = asciiLower c := by
  by_cases hu : isAsciiUpperCh c = true
  · have hlo := asciiLower_of_upper c hu
    obtain ⟨h1, h2⟩ := (isAsciiUpperCh_iff c).mp hu
    have hnotU : isAsciiUpperCh (asciiLower c) = false := by
      rw [Bool.eq_false_iff]
      intro hh
      obtain ⟨g1, g2⟩ := (isAsciiUpperCh_iff _).mp hh
      omega
    conv_lhs => rw [asciiLower, hnotU]
    simp
  · have hin : asciiLower c = c := by rw [asciiLower, if_neg hu]
    rw [hin]
    exact hin

/-- Uppercasing a character is idempotent. -/
theorem asciiUpper_idem (c : Char) : asciiUpper (asciiUpper c) = asciiUpper c := by
  by_cases hl : isAsciiLowerCh c = true
  · have hup := asciiUpper_of_lower c hl
    obtain ⟨h1, h2⟩ := (isAsciiLowerCh_iff c).mp hl
    have hnotL : isAsciiLowerCh (asciiUpper c) = false := by
      rw [Bool.eq_false_iff]
      intro hh
      obtain ⟨g1, g2⟩ := (isAsciiLowerCh_iff _).mp hh
      omega
    conv_lhs => rw [asciiUpper, hnotL]
    simp
  · have hin : asciiUpper c = c := by rw [asciiUpper, if_neg hl]
    rw [hin]
    exact hin

/-- Uppercasing absorbs a previous lowercasing. -/
theorem asciiUpper_asciiLower (c : Char) : asciiUpper (asciiLower c) = asciiUpper c := by
  by_cases hu : isAsciiUpperCh c = true
  · obtain ⟨h1, h2⟩ := (isAsciiUpperCh_iff c).mp hu
    have hlo := asciiLower_of_upper c hu
    have hL : isAsciiLowerCh (asciiLower c) = true := by
      rw [isAsciiLowerCh_iff, hlo]; omega
    have hnotL : isAsciiLowerCh c = false := by
      rw [Bool.eq_false_iff]
      intro hh
      obtain ⟨g1, g2⟩ := (isAsciiLowerCh_iff c).mp hh
      omega
    apply char_eq_of_toNat
    rw [asciiUpper_of_lower _ hL, hlo, asciiUpper, hnotL]
    simp only [Bool.false_eq_true, if_false]
    omega
  · rw [asciiLower, if_neg hu]

/-- Case mapping preserves letterhood (upper). -/
theorem isAsciiAlpha_asciiUpper (c : Char) : isAsciiAlpha (asciiUpper c) = isAsciiAlpha c := by
  by_cases hl : isAsciiLowerCh c = true
  · obtain ⟨h1, h2⟩ := (isAsciiLowerCh_iff c).mp hl
    have hup := asciiUpper_of_lower c hl
    have hU : isAsciiUpperCh (asciiUpper c) = true := by
      rw [isAsciiUpperCh_iff, hup]; omega
    rw [isAsciiAlpha, isAsciiAlpha, hl, hU]
    simp
  · rw [asciiUpper, if_neg hl]

/-- Case mapping preserves letterhood (lower). -/
theorem isAsciiAlpha_asciiLower (c : Char) : isAsciiAlpha (asciiLower c) = isAsciiAlpha c := by
  by_cases hu : isAsciiUpperCh c = true
  · obtain ⟨h1, h2⟩ := (isAsciiUpperCh_iff c).mp hu
    have hlo := asciiLower_of_upper c hu
    have hL : isAsciiLowerCh (asciiLower c) = true := by
      rw [isAsciiLowerCh_iff, hlo]; omega
    rw [isAsciiAlpha, isAsciiAlpha, hu, hL]
    simp
  · rw [asciiLower, if_neg hu]

/-- Case mapping preserves whitespace-hood (upper). -/
theorem pyIsSpace_asciiUpper (c : Char) : pyIsSpace (asciiUpper c) = pyIsSpace c := by
  by_cases hl : isAsciiLowerCh c = true
  · obtain ⟨h1, h2⟩ := (isAsciiLowerCh_iff c).mp hl
    have hup := asciiUpper_of_lower c hl
    rw [pyIsSpace_false_of_range c (by omega) (by omega),
        pyIsSpace_false_of_range (asciiUpper c) (by omega) (by omega)]
  · rw [asciiUpper, if_neg hl]

/-- Case mapping preserves whitespace-hood (lower). -/
theorem pyIsSpace_asciiLower (c : Char) : pyIsSpace (asciiLower c) = pyIsSpace c := by
  by_cases hu : isAsciiUpperCh c = true
  · obtain ⟨h1, h2⟩ := (isAsciiUpperCh_iff c).mp hu
    have hlo := asciiLower_of_upper c hu
    rw [pyIsSpace_false_of_range c (by omega) (by omega),
        pyIsSpace_false_of_range (asciiLower c) (by omega) (by omega)]
  · rw [asciiLower, if_neg hu]

/-- Lowercasing after title-casing equals lowercasing. -/
theorem titleMapAux_map_lower :
    ∀ (b : Bool) (l : List Char),
      (titleMapAux b l).map asciiLower = l.map asciiLower := by
  intro b l
  induction l generalizing b with
  | nil => rfl
  | cons c rest ih =>
    rw [titleMapAux]
    simp only [List.map_cons]
    rw [ih]
    congr 1
    by_cases ha : isAsciiAlpha c = true
    · rw [if_pos ha]
      by_cases hb : b = true
      · rw [if_pos hb, asciiLower_idem]
      · rw [if_neg hb, asciiLower_asciiUpper]
    · rw [if_neg ha]

/-- Title-casing preserves the whitespace mask. -/
theorem titleMapAux_map_space :
    ∀ (b : Bool) (l : List Char),
      (titleMapAux b l).map pyIsSpace = l.map pyIsSpace := by
  intro b l
  induction l generalizing b with
  | nil => rfl
  | cons c rest ih =>
    rw [titleMapAux]
    simp only [List.map_cons]
    rw [ih]
    congr 1
    by_cases ha : isAsciiAlpha c = true
    · rw [if_pos ha]
      by_cases hb : b = true
      · rw [if_pos hb, pyIsSpace_asciiLower]
      · rw [if_neg hb, pyIsSpace_asciiUpper]
    · rw [if_neg ha]

/-- Title-casing is idempotent. -/
theorem titleMapAux_idem :
    ∀ (b : Bool) (l : List Char),
      titleMapAux b (titleMapAux b l) = titleMapAux b l := by
  intro b l
  induction l generalizing b with
  | nil => rfl
  | cons c rest ih =>
    by_cases ha : isAsciiAlpha c = true
    · cases b
      · simp only [titleMapAux, ha, isAsciiAlpha_asciiUpper, asciiUpper_idem, ih,
          Bool.false_eq_true, if_false, if_true]
      · simp only [titleMapAux, ha, isAsciiAlpha_asciiLower, asciiLower_idem, ih, if_true]
    · have ha0 : isAsciiAlpha c = false := by
        revert ha; cases isAsciiAlpha c <;> simp
      simp only [titleMapAux, ha0, Bool.false_eq_true, if_false, ih]

/-- Stripping commutes with a whitespace-preserving character map. -/
theorem stripChars_map (f : Char → Char) (hf : ∀ c, pyIsSpace (f c) = pyIsSpace c) :
    ∀ l : List Char, stripChars (l.map f) = (stripChars l).map f := by
  intro l
  have hcomp : pyIsSpace ∘ f = pyIsSpace := funext hf
  rw [stripChars, stripChars]
  rw [List.dropWhile_map, hcomp, ← List.map_reverse, List.dropWhile_map, hcomp,
    ← List.map_reverse]

/-- Equal whitespace masks transfer the no-leading-space property. -/
theorem mapSpace_head (A B : List Char) (h : A.map pyIsSpace = B.map pyIsSpace)
    (hB : headNotSpace B = true) : headNotSpace A = true := by
  have hh : A.head?.map pyIsSpace = B.head?.map pyIsSpace := by
    rw [← List.head?_map, ← List.head?_map, h]
  rw [headNotSpace_iff] at hB ⊢
  intro c hc
  rw [hc] at hh
  cases hBh : B.head? with
  | none => rw [hBh] at hh; simp at hh
  | some d =>
    rw [hBh] at hh
    simp only [Option.map_some'] at hh
    injection hh with hh
    rw [hh]
    exact hB d hBh

/-- Equal whitespace masks transfer the no-trailing-space property. -/
theorem mapSpace_last (A B : List Char) (h : A.map pyIsSpace = B.map pyIsSpace)
    (hB : lastNotSpace B = true) : lastNotSpace A = true := by
  have hh : A.getLast?.map pyIsSpace = B.getLast?.map pyIsSpace := by
    rw [← List.getLast?_map, ← List.getLast?_map, h]
  rw [lastNotSpace_iff] at hB ⊢
  intro c hc
  rw [hc] at hh
  cases hBh : B.getLast? with
  | none => rw [hBh] at hh; simp at hh
  | some d =>
    rw [hBh] at hh
    simp only [Option.map_some'] at hh
    injection hh with hh
    rw [hh]
    exact hB d hBh

/-- Lowercasing after `str.title` equals lowercasing. -/
theorem pyLower_pyTitle (u : String) : pyLower (pyTitle u) = pyLower u := by
  show (⟨(titleMapAux false u.data).map asciiLower⟩ : String) = ⟨u.data.map asciiLower⟩
  rw [titleMapAux_map_lower]

/-- Stripping commutes with lowercasing. -/
theorem pyStrip_pyLower (s : String) : pyStrip (pyLower s) = pyLower (pyStrip s) := by
  show (⟨stripChars (s.data.map asciiLower)⟩ : String) = ⟨(stripChars s.data).map asciiLower⟩
  rw [stripChars_map asciiLower pyIsSpace_asciiLower]

/-- Stripping is idempotent. -/
theorem pyStrip_idem (s : String) : pyStrip (pyStrip s) = pyStrip s := by
  show (⟨stripChars (stripChars s.data)⟩ : String) = ⟨stripChars s.data⟩
  rw [stripChars_id _ (stripChars_headNotSpace _) (stripChars_lastNotSpace _)]

/-- Title-casing an already-stripped string needs no further strip. -/
theorem pyStrip_pyTitle_stripped (u : String) (hh : headNotSpace u.data = true)
    (hl : lastNotSpace u.data = true) : pyStrip (pyTitle u) = pyTitle u := by
  show (⟨stripChars (titleMapAux false u.data)⟩ : String) = ⟨titleMapAux false u.data⟩
  rw [stripChars_id _ (mapSpace_head _ _ (titleMapAux_map_space false u.data) hh)
      (mapSpace_last _ _ (titleMapAux_map_space false u.data) hl)]

/-- Title-casing a string is idempotent. -/
theorem pyTitle_idem (u : String) : pyTitle (pyTitle u) = pyTitle u := by
  show (⟨titleMapAux false (titleMapAux false u.data)⟩ : String) = ⟨titleMapAux false u.data⟩
  rw [titleMapAux_idem]

/-- Title-casing preserves non-emptiness. -/
theorem pyTitle_ne_empty (u : String) (h : u ≠ "") : pyTitle u ≠ "" := by
  intro hh
  apply h
  have hlen : (titleMapAux false u.data).length = (u.data.map pyIsSpace).length := by
    rw [← titleMapAux_map_space false u.data, List.length_map]
  rw [List.length_map] at hlen
  have h0 : (titleMapAux false u.data) = [] := by
    have := congrArg String.data hh
    exact this
  rw [h0] at hlen
  apply String.ext
  have : u.data.length = 0 := by simpa using hlen.symm
  simpa using List.length_eq_zero.mp this

/-- The normalised form of the title-case fallback equals the original normalised form. -/
theorem cityNormalize_stable (s : String) :
    pyStrip (pyLower (pyTitle (pyStrip s))) = pyStrip (pyLower s) := by
  rw [pyLower_pyTitle, pyStrip_pyLower, pyStrip_idem, ← pyStrip_pyLower]

/-- The title-case fallback is a fixed point of strip-and-title. -/
theorem cityFallback_stable (s : String) :
    pyTitle (pyStrip (pyTitle (pyStrip s))) = pyTitle (pyStrip s) := by
  rw [pyStrip_pyTitle_stripped (pyStrip s) (stripChars_headNotSpace s.data)
      (stripChars_lastNotSpace s.data), pyTitle_idem]


/-- Both city lookups only ever produce the two canonical names. -/
theorem cityLookup_values (n c : String)
    (h : cityExactLookup n = some c ∨ citySubstringLookup n = some c) :
    c = "Johannesburg" ∨ c = "Pretoria" := by
  have htab : ∀ kv ∈ CITY_NAME_MAPPINGS, kv.2 = "Johannesburg" ∨ kv.2 = "Pretoria" := by
    decide
  rcases h with h | h
  · rw [cityExactLookup] at h
    cases hf : CITY_NAME_MAPPINGS.find? (fun kv => kv.1 = n) with
    | none => rw [hf] at h; simp at h
    | some kv =>
      rw [hf] at h
      simp only [Option.map_some'] at h
      injection h with h
      exact h ▸ htab kv (List.mem_of_find?_eq_some hf)
  · rw [citySubstringLookup] at h
    cases hf : CITY_NAME_MAPPINGS.find? (fun kv => listContains kv.1.data n.data) with
    | none => rw [hf] at h; simp at h
    | some kv =>
      rw [hf] at h
      simp only [Option.map_some'] at h
      injection h with h
      exact h ▸ htab kv (List.mem_of_find?_eq_some hf)

/-- The canonical city names are fixed points of standardisation. -/
theorem standardize_canonical (c : String)
    (h : c = "Johannesburg" ∨ c = "Pretoria") :
    standardize_city_name (.str c) = .ok (.str c) := by
  rcases h with h | h <;> subst h <;> decide

/-- City extraction from an address yields None or a canonical name. -/
theorem extract_values (a c : PyVal) (h : extract_city_from_address a = .ok c) :
    c = .none ∨ c = .str "Johannesburg" ∨ c = .str "Pretoria" := by
  unfold extract_city_from_address at h
  split at h
  · injection h with h; exact Or.inl h.symm
  · cases a with
    | str s =>
      simp only [] at h
      cases hf : citySubstringLookup (pyLower s) with
      | none => rw [hf] at h; injection h with h; exact Or.inl h.symm
      | some canonical =>
        rw [hf] at h
        injection h with h
        rcases cityLookup_values (pyLower s) canonical (Or.inr hf) with hc | hc
        · rw [← h, hc]; exact Or.inr (Or.inl rfl)
        · rw [← h, hc]; exact Or.inr (Or.inr rfl)
    | none => injection h
    | bool b => injection h
    | int n => injection h
    | float x => injection h
    | pydate d => injection h
    | pydatetime t => injection h
    | obj i => injection h

/-- City standardisation is stable on its own output, provided a string input does not strip to empty. -/
theorem standardize_stable (v c : PyVal) (h : standardize_city_name v = .ok c)
    (hgood : ∀ s, v = .str s → pyStrip s ≠ "") :
    standardize_city_name c = .ok c := by
  unfold standardize_city_name at h
  split at h
  · injection h with h
    rw [← h]
    rfl
  · rename_i htr
    split at h
    · rename_i s
      simp only [] at h
      cases he : cityExactLookup (pyStrip (pyLower s)) with
      | some canonical =>
        rw [he] at h
        injection h with h
        rw [← h]
        exact standardize_canonical canonical
          (cityLookup_values _ _ (Or.inl he))
      | none =>
        rw [he] at h
        cases hs : citySubstringLookup (pyStrip (pyLower s)) with
        | some canonical =>
          rw [hs] at h
          injection h with h
          rw [← h]
          exact standardize_canonical canonical
            (cityLookup_values _ _ (Or.inr hs))
        | none =>
          rw [hs] at h
          injection h with h
          rw [← h]
          -- fallback: c = .str (pyTitle (pyStrip s))
          have hne : pyStrip s ≠ "" := hgood s rfl
          have htne : pyTitle (pyStrip s) ≠ "" := pyTitle_ne_empty _ hne
          unfold standardize_city_name
          rw [if_neg (by simpa [pyTruthy] using htne)]
          simp only []
          have hnorm : pyStrip (pyLower (pyTitle (pyStrip s))) = pyStrip (pyLower s) :=
            cityNormalize_stable s
          rw [hnorm, he, hs, cityFallback_stable]
    · injection h

/-- Stripping is the identity on whitespace-free text. -/
theorem stripChars_id_of_noSpace (l : List Char) (h : ∀ c ∈ l, pyIsSpace c = false) :
    stripChars l = l := by
  rw [stripChars]
  have h1 : l.dropWhile pyIsSpace = l := by
    refine dropWhile_id_of_headNot _ _ ?_
    intro c hc
    cases l with
    | nil => simp at hc
    | cons a t =>
      simp only [List.head?_cons, Option.some.injEq] at hc
      exact hc ▸ h a (List.mem_cons_self a t)
  rw [h1]
  have h2 : l.reverse.dropWhile pyIsSpace = l.reverse := by
    refine dropWhile_id_of_headNot _ _ ?_
    intro c hc
    cases hr : l.reverse with
    | nil => rw [hr] at hc; simp at hc
    | cons a t =>
      rw [hr] at hc
      simp only [List.head?_cons, Option.some.injEq] at hc
      refine hc ▸ h a ?_
      rw [← List.mem_reverse, hr]
      exact List.mem_cons_self a t
  rw [h2, List.reverse_reverse]

/-- Every character of the reconstructed URL of a well-formed parse result is printable. -/
theorem unparse_chars (p : ParsedUrl)
    (hs : p.scheme = "http" ∨ p.scheme = "https")
    (hn : p.netloc ≠ "") (hhost : p.netloc.data.all isHostChar = true)
    (hpa : ∀ c ∈ p.path.data, isPrintableCh c = true)
    (hqu : ∀ c ∈ p.query.data, isPrintableCh c = true)
    (hfr : ∀ c ∈ p.fragment.data, isPrintableCh c = true)
    (hsl : p.path.data = [] ∨ p.path.data.head? = some '/') :
    ∀ c ∈ (pyUrlUnparse p).data, isPrintableCh c = true := by
  obtain ⟨sch, nl, pa, qu, fr⟩ := p
  replace hs : sch = "http" ∨ sch = "https" := hs
  replace hn : nl ≠ "" := hn
  replace hhost : nl.data.all isHostChar = true := hhost
  replace hpa : ∀ c ∈ pa.data, isPrintableCh c = true := hpa
  replace hqu : ∀ c ∈ qu.data, isPrintableCh c = true := hqu
  replace hfr : ∀ c ∈ fr.data, isPrintableCh c = true := hfr
  replace hsl : pa.data = [] ∨ pa.data.head? = some '/' := hsl
  have hschne : sch ≠ "" := by rcases hs with h | h <;> subst h <;> decide
  rw [pyUrlUnparse_normal sch nl pa qu fr hn hschne hsl]
  intro c hc
  replace hc : c ∈ sch.data ++ ':' :: '/' :: '/' :: (nl.data ++
      (pa.data ++ (if qu.data = [] then [] else '?' :: qu.data) ++
       (if fr.data = [] then [] else '#' :: fr.data))) := hc
  rcases List.mem_append.mp hc with hc | hc
  · rcases hs with h | h <;> subst h <;>
      [(simp only [show "http".data = ['h', 't', 't', 'p'] from rfl] at hc);
       (simp only [show "https".data = ['h', 't', 't', 'p', 's'] from rfl] at hc)] <;>
      fin_cases hc <;> decide
  · rcases List.mem_cons.mp hc with hc | hc
    · subst hc; decide
    · rcases List.mem_cons.mp hc with hc | hc
      · subst hc; decide
      · rcases List.mem_cons.mp hc with hc | hc
        · subst hc; decide
        · rcases List.mem_append.mp hc with hc | hc
          · exact isHostChar_printable c (List.all_eq_true.mp hhost c hc)
          · rcases List.mem_append.mp hc with hc | hc
            · rcases List.mem_append.mp hc with hc | hc
              · exact hpa c hc
              · by_cases hq0 : qu.data = []
                · rw [if_pos hq0] at hc; simp at hc
                · rw [if_neg hq0] at hc
                  rcases List.mem_cons.mp hc with hc | hc
                  · subst hc; decide
                  · exact hqu c hc
            · by_cases hf0 : fr.data = []
              · rw [if_pos hf0] at hc; simp at hc
              · rw [if_neg hf0] at hc
                rcases List.mem_cons.mp hc with hc | hc
                · subst hc; decide
                · exact hfr c hc

/-- URL validation is idempotent: validating its own output reproduces it. -/
theorem validate_stable (u : PyVal) :
    validate_and_clean_url (.str (validate_and_clean_url u)) = validate_and_clean_url u := by
  rcases validate_output u with h | ⟨s, p, hp, hv, heq⟩
  · rw [h]; rfl
  · rw [heq]
    obtain ⟨hs, hn, hdot, hhost, hpaA, hquA, hfrA⟩ := validatorsUrl_spec s p hp hv
    obtain ⟨hninv, hp1, hp2, hq1, hsl0⟩ := pyUrlParse_invariants s p hp
    have hsl : p.path.data = [] ∨ p.path.data.head? = some '/' := by
      rcases hsl0 with h0 | h0
      · exact absurd (data_eq_nil_iff p.netloc h0) hn
      · exact h0
    have hrt := pyUrlParse_unparse p hs hn hhost hpaA hquA hfrA hp1 hp2 hq1 hsl
    have hpr := unparse_chars p hs hn hhost hpaA hquA hfrA hsl
    have hSne : pyUrlUnparse p ≠ "" := by
      intro hh
      rw [hh] at hrt
      have h0 : pyUrlParse "" = .ok ⟨"", "", "", "", ""⟩ := rfl
      rw [h0] at hrt
      injection hrt with hrt
      rw [← hrt] at hn
      exact hn rfl
    have hstrip : pyStrip (pyUrlUnparse p) = pyUrlUnparse p := by
      show (⟨stripChars (pyUrlUnparse p).data⟩ : String) = pyUrlUnparse p
      rw [stripChars_id_of_noSpace (pyUrlUnparse p).data
        (fun c hc => isPrintableCh_not_space c (hpr c hc))]
    have hpref : schemePrefix (pyUrlUnparse p) = pyUrlUnparse p := by
      unfold schemePrefix
      have hschne : p.scheme ≠ "" := by
        rcases hs with h0 | h0 <;> rw [h0] <;> decide
      obtain ⟨sch, nl, pa, qu, fr⟩ := p
      replace hs : sch = "http" ∨ sch = "https" := hs
      replace hn : nl ≠ "" := hn
      replace hschne : sch ≠ "" := hschne
      replace hsl : pa.data = [] ∨ pa.data.head? = some '/' := hsl
      rw [pyUrlUnparse_normal sch nl pa qu fr hn hschne hsl]
      rcases hs with h0 | h0 <;> subst h0
      · rw [if_neg (by
          rw [show leadsWith "http://".data (("http" : String).data ++ ':' :: '/' :: '/' ::
            (nl.data ++ (pa.data ++ (if qu.data = [] then [] else '?' :: qu.data) ++
             (if fr.data = [] then [] else '#' :: fr.data)))) = true from rfl]
          simp)]
        rw [if_neg (by
          rw [show leadsWith "//".data (("http" : String).data ++ ':' :: '/' :: '/' ::
            (nl.data ++ (pa.data ++ (if qu.data = [] then [] else '?' :: qu.data) ++
             (if fr.data = [] then [] else '#' :: fr.data)))) = false from rfl]
          simp)]
      · rw [if_neg (by
          rw [show leadsWith "https://".data (("https" : String).data ++ ':' :: '/' :: '/' ::
            (nl.data ++ (pa.data ++ (if qu.data = [] then [] else '?' :: qu.data) ++
             (if fr.data = [] then [] else '#' :: fr.data)))) = true from rfl]
          simp)]
        rw [if_neg (by
          rw [show leadsWith "//".data (("https" : String).data ++ ':' :: '/' :: '/' ::
            (nl.data ++ (pa.data ++ (if qu.data = [] then [] else '?' :: qu.data) ++
             (if fr.data = [] then [] else '#' :: fr.data)))) = false from rfl]
          simp)]
    have hvS : validatorsUrl (pyUrlUnparse p) = true := by
      unfold validatorsUrl
      rw [hrt]
      simp only [Bool.and_eq_true, Bool.or_eq_true, decide_eq_true_eq]
      exact ⟨⟨⟨⟨⟨⟨hs, hn⟩, hdot⟩, hhost⟩, List.all_eq_true.mpr hpaA⟩,
        List.all_eq_true.mpr hquA⟩, List.all_eq_true.mpr hfrA⟩
    unfold validate_and_clean_url
    rw [if_neg (show ¬(!pyTruthy (.str (pyUrlUnparse p))) = true by
      simp [pyTruthy, hSne])]
    simp only []
    rw [show pyStrip (pyStr (.str (pyUrlUnparse p))) = pyUrlUnparse p from hstrip]
    rw [if_neg hSne, hpref]
    unfold validateTail
    rw [hrt]
    simp only []
    rw [if_neg (by
      simp only [Bool.or_eq_true, decide_eq_true_eq]
      rintro (h0 | h0)
      · rcases hs with h1 | h1 <;> rw [h1] at h0 <;> exact absurd h0 (by decide)
      · exact hn h0)]
    rw [if_neg (by
      simp only [Bool.and_eq_true, decide_eq_true_eq]
      rintro ⟨h0, h1⟩
      rcases hs with h2 | h2
      · exact h0 h2
      · exact h1 h2)]
    rw [if_neg (by rw [hvS]; simp [HAS_VALIDATORS])]

/-- No ampersand survives the core cleaning pipeline when the input has none. -/
theorem cleanCore_noAmp (v : PyVal) (h : noAmp (pyStr v) = true) :
    '&' ∉ cleanCore v := by
  rw [cleanCore]
  have hamp : '&' ∉ (pyStr v).data := by
    rw [noAmp] at h
    simpa using h
  have hampst : '&' ∉ stripTags (removeCtrl (pyStr v).data) := by
    intro hm
    rw [stripTags] at hm
    rcases stripTagsFuel_chars _ _ '&' hm with h1 | h1
    · exact hamp (removeCtrl_subset _ _ h1)
    · exact absurd h1 (by decide)
  have hid : pyUnescape (stripTags (removeCtrl (pyStr v).data))
      = stripTags (removeCtrl (pyStr v).data) := by
    rw [pyUnescape]
    exact pyUnescapeFuel_id_of_noAmp _ _ hampst
  rw [hid]
  intro hm
  have hmem := stripChars_subset _ _ hm
  rcases collapseWs_chars _ _ hmem with h1 | ⟨h1, _⟩
  · exact absurd h1 (by decide)
  · exact hampst h1

/-- The core cleaning pipeline is a fixed point on its own ampersand-free
output. -/
theorem cleanCore_stable (v : PyVal) (hna : noAmp (pyStr v) = true) :
    cleanCore (.str ⟨cleanCore v⟩) = cleanCore v := by
  show stripChars (collapseWs (pyUnescape (stripTags (removeCtrl (cleanCore v))))) = cleanCore v
  rw [removeCtrl_id _ (fun c hc => cleanCore_noCtrl v c hc)]
  rw [stripTags, stripTagsFuel_id_of_tagFree _ _ (cleanCore_tagFree v hna)]
  rw [pyUnescape, pyUnescapeFuel_id_of_noAmp _ _ (cleanCore_noAmp v hna)]
  obtain ⟨hb, hnn, hh, hl⟩ := cleanCore_wsProps v
  rw [collapseWs_id _ hb hnn]
  exact stripChars_id _ hh hl

/-- Cleaning the empty string gives the empty string. -/
theorem clean_text_empty (m : Option Nat) : clean_text (.str "") m = "" := by
  rw [clean_text]
  rfl

/-- Untruncated cleaning: when the cleaned form fits within the bound,
`clean_text` with that bound is the cleaned form itself. -/
theorem clean_text_of_fits (v : PyVal) (m : Nat)
    (hlen : (cleanUntruncated v).length ≤ m) (ht : pyTruthy v = true) :
    clean_text v (some m) = ⟨cleanCore v⟩ := by
  have hlen2 : (cleanCore v).length ≤ m := by
    have h0 : cleanUntruncated v = ⟨cleanCore v⟩ := by
      rw [cleanUntruncated, ht]
      rfl
    rw [h0] at hlen
    exact hlen
  rw [clean_text, ht]
  show (⟨applyMaxLength (cleanCore v) (some m)⟩ : String) = ⟨cleanCore v⟩
  rw [applyMaxLength, if_neg (by
    rintro ⟨_, hgt⟩
    omega)]

/-- `clean_text` with a bound of at least 3 is idempotent on ampersand-free
input, including inputs whose cleaned form is truncated: the truncated output
`take (m-3) ++ "..."` is itself control-free, tag-free, ampersand-free,
whitespace-collapsed and of length at most `m`, hence a fixed point. -/
theorem clean_text_stable (v : PyVal) (m : Nat) (h3 : 3 ≤ m)
    (hna : noAmp (pyStr v) = true) :
    clean_text (.str (clean_text v (some m))) (some m) = clean_text v (some m) := by
  by_cases ht : pyTruthy v = true
  · have hct : clean_text v (some m) = ⟨applyMaxLength (cleanCore v) (some m)⟩ := by
      rw [clean_text, ht]
      rfl
    have hnoCtrl : ∀ c ∈ applyMaxLength (cleanCore v) (some m), isCtrlChar c = false := by
      intro c hc
      rcases applyMaxLength_chars (cleanCore v) (some m) c hc with h1 | h1
      · exact cleanCore_noCtrl v c h1
      · subst h1; decide
    have hnoAmp : '&' ∉ applyMaxLength (cleanCore v) (some m) := by
      intro hm
      rcases applyMaxLength_chars (cleanCore v) (some m) '&' hm with h1 | h1
      · exact cleanCore_noAmp v hna h1
      · exact absurd h1 (by decide)
    have htf : hasTag (applyMaxLength (cleanCore v) (some m)) = false :=
      applyMaxLength_tagFree _ _ (cleanCore_tagFree v hna)
    obtain ⟨hb, hn2, hh, hl⟩ := cleanCore_wsProps v
    obtain ⟨hb2, hn3, hh2, hl2⟩ :=
      applyMaxLength_wsCollapsed (cleanCore v) (some m) hb hn2 hh hl
    have hlen : (applyMaxLength (cleanCore v) (some m)).length ≤ m :=
      applyMaxLength_length _ m h3
    rw [hct]
    by_cases hemp : applyMaxLength (cleanCore v) (some m) = []
    · rw [hemp]
      exact clean_text_empty (some m)
    · have htr : pyTruthy (.str ⟨applyMaxLength (cleanCore v) (some m)⟩) = true := by
        simp only [pyTruthy, bne_iff_ne, ne_eq, decide_eq_true_eq]
        intro hh0
        exact hemp (congrArg String.data hh0)
      have hcore2 : cleanCore (.str ⟨applyMaxLength (cleanCore v) (some m)⟩)
          = applyMaxLength (cleanCore v) (some m) := by
        show stripChars (collapseWs (pyUnescape (stripTags
          (removeCtrl (applyMaxLength (cleanCore v) (some m)))))) =
          applyMaxLength (cleanCore v) (some m)
        rw [removeCtrl_id _ hnoCtrl]
        rw [stripTags, stripTagsFuel_id_of_tagFree _ _ htf]
        rw [pyUnescape, pyUnescapeFuel_id_of_noAmp _ _ hnoAmp]
        rw [collapseWs_id _ hb2 hn3]
        exact stripChars_id _ hh2 hl2
      have hfits :
          (cleanUntruncated (.str ⟨applyMaxLength (cleanCore v) (some m)⟩)).length ≤ m := by
        rw [cleanUntruncated, htr]
        show (⟨cleanCore (.str ⟨applyMaxLength (cleanCore v) (some m)⟩)⟩ : String).length ≤ m
        rw [hcore2]
        exact hlen
      rw [clean_text_of_fits _ m hfits htr, hcore2]
  · have h0 : clean_text v (some m) = "" := by
      rw [clean_text]
      rw [Bool.not_eq_true] at ht
      rw [ht]
      rfl
    rw [h0, clean_text_empty]

/-- City and start-date slots of a successful `sanitize_event_data`: a present
city is standardised, an absent city is extracted from a present address, both
are absent otherwise, and the start-date slot becomes a datetime or `None`. -/
theorem sanitize_city_date (x y : EventData) (h : sanitize_event_data x = .ok y) :
    (∀ v, x.city = some v → ∃ c, standardize_city_name v = .ok c ∧ y.city = some c) ∧
    (x.city = Option.none → ∀ a, x.address = some a →
      ∃ c, extract_city_from_address a = .ok c ∧ y.city = some c) ∧
    (x.city = Option.none → x.address = Option.none → y.city = Option.none) ∧
    (∀ v, x.start_date = some v → y.start_date = some PyVal.none ∨
      ∃ dt, y.start_date = some (PyVal.pydatetime dt)) ∧
    (x.start_date = Option.none → y.start_date = Option.none) := by
  unfold sanitize_event_data at h
  obtain ⟨t1, ht1, h⟩ := bind_ok_inv _ _ _ h
  obtain ⟨t2, ht2, h⟩ := bind_ok_inv _ _ _ h
  obtain ⟨t3, ht3, h⟩ := bind_ok_inv _ _ _ h
  obtain ⟨t4, ht4, h⟩ := bind_ok_inv _ _ _ h
  obtain ⟨t5, ht5, h⟩ := bind_ok_inv _ _ _ h
  obtain ⟨t6, ht6, h⟩ := bind_ok_inv _ _ _ h
  obtain ⟨t7, ht7, h⟩ := bind_ok_inv _ _ _ h
  obtain ⟨t8, ht8, h⟩ := bind_ok_inv _ _ _ h
  injection h with h
  subst h
  obtain ⟨hc1, hc2, hc3⟩ := sanitizeCity_out _ _ _ ht3
  obtain ⟨hd1, hd2⟩ := sanitizeStartDate_out _ _ ht4
  exact ⟨hc1, hc2, hc3, hd1, hd2⟩

/-- A record each of whose slots is a fixed point of its field transformer is a
fixed point of the sanitiser. -/
theorem sanitize_fixpoint (y : EventData)
    (h1 : ∀ v, y.title = some v → ∃ t, v = PyVal.str t ∧ clean_text (.str t) (some 500) = t)
    (h2 : ∀ v, y.description = some v →
      ∃ t, v = PyVal.str t ∧ clean_text (.str t) (some 5000) = t)
    (h3 : ∀ v, y.city = some v → standardize_city_name v = .ok v)
    (h4 : y.city = Option.none → y.address = Option.none)
    (h5 : ∀ v, y.start_date = some v → (∃ dt, v = PyVal.pydatetime dt) ∨ v = PyVal.none)
    (h6 : ∀ v, y.venue_name = some v →
      ∃ t, v = PyVal.str t ∧ clean_text (.str t) (some 500) = t)
    (h7 : ∀ v, y.event_url = some v →
      ∃ t, v = PyVal.str t ∧ validate_and_clean_url (.str t) = t)
    (h8 : ∀ v, y.category = some v →
      ∃ t, v = PyVal.str t ∧ clean_text (.str t) (some 200) = t)
    (h9 : ∀ v, y.address = some v →
      ∃ t, v = PyVal.str t ∧ clean_text (.str t) (some 500) = t) :
    sanitize_event_data y = .ok y := by
  obtain ⟨ti, de, ci, ad, ve, ca, ur, im, sd, so, si, la, lo, rp⟩ := y
  replace h1 : ∀ v, ti = some v → ∃ t, v = PyVal.str t ∧
    clean_text (.str t) (some 500) = t := h1
  replace h2 : ∀ v, de = some v → ∃ t, v = PyVal.str t ∧
    clean_text (.str t) (some 5000) = t := h2
  replace h3 : ∀ v, ci = some v → standardize_city_name v = .ok v := h3
  replace h4 : ci = Option.none → ad = Option.none := h4
  replace h5 : ∀ v, sd = some v → (∃ dt, v = PyVal.pydatetime dt) ∨ v = PyVal.none := h5
  replace h6 : ∀ v, ve = some v → ∃ t, v = PyVal.str t ∧
    clean_text (.str t) (some 500) = t := h6
  replace h7 : ∀ v, ur = some v → ∃ t, v = PyVal.str t ∧
    validate_and_clean_url (.str t) = t := h7
  replace h8 : ∀ v, ca = some v → ∃ t, v = PyVal.str t ∧
    clean_text (.str t) (some 200) = t := h8
  replace h9 : ∀ v, ad = some v → ∃ t, v = PyVal.str t ∧
    clean_text (.str t) (some 500) = t := h9
  have s1 : sanitizeTitle ti = pure ti := by
    unfold sanitizeTitle
    cases ti with
    | none => rfl
    | some v =>
      obtain ⟨t, rfl, hct⟩ := h1 v rfl
      show (pure (some (PyVal.str (clean_title (.str t)))) : Except PyExc (Option PyVal)) = _
      rw [show clean_title (PyVal.str t) = t from hct]
  have s2 : sanitizeDescription de = pure de := by
    unfold sanitizeDescription
    cases de with
    | none => rfl
    | some v =>
      obtain ⟨t, rfl, hct⟩ := h2 v rfl
      show (pure (some (PyVal.str (clean_description (.str t)))) :
        Except PyExc (Option PyVal)) = _
      rw [show clean_description (PyVal.str t) = t from hct]
  have s3 : sanitizeCity ci ad = pure ci := by
    unfold sanitizeCity
    cases ci with
    | some v =>
      show (do let c ← standardize_city_name v
               pure (some c) : Except PyExc (Option PyVal)) = _
      rw [h3 v rfl]
      rfl
    | none =>
      have had : ad = Option.none := h4 rfl
      subst had
      rfl
  have s4 : sanitizeStartDate sd = pure sd := by
    unfold sanitizeStartDate
    cases sd with
    | none => rfl
    | some v =>
      rcases h5 v rfl with ⟨dt, rfl⟩ | rfl <;> rfl
  have s6 : sanitizeVenueName ve = pure ve := by
    unfold sanitizeVenueName
    cases ve with
    | none => rfl
    | some v =>
      obtain ⟨t, rfl, hct⟩ := h6 v rfl
      show (pure (some (PyVal.str (clean_text (.str t) (some 500)))) :
        Except PyExc (Option PyVal)) = _
      rw [hct]
  have s7 : sanitizeEventUrl ur = pure ur := by
    unfold sanitizeEventUrl
    cases ur with
    | none => rfl
    | some v =>
      obtain ⟨t, rfl, hvt⟩ := h7 v rfl
      show (pure (some (PyVal.str (validate_and_clean_url (.str t)))) :
        Except PyExc (Option PyVal)) = _
      rw [hvt]
  have s8 : sanitizeCategory ca = pure ca := by
    unfold sanitizeCategory
    cases ca with
    | none => rfl
    | some v =>
      obtain ⟨t, rfl, hct⟩ := h8 v rfl
      show (pure (some (PyVal.str (clean_text (.str t) (some 200)))) :
        Except PyExc (Option PyVal)) = _
      rw [hct]
  have s9 : sanitizeAddress ad = pure ad := by
    unfold sanitizeAddress
    cases ad with
    | none => rfl
    | some v =>
      obtain ⟨t, rfl, hct⟩ := h9 v rfl
      show (pure (some (PyVal.str (clean_text (.str t) (some 500)))) :
        Except PyExc (Option PyVal)) = _
      rw [hct]
  unfold sanitize_event_data
  rw [show (⟨ti, de, ci, ad, ve, ca, ur, im, sd, so, si, la, lo, rp⟩ : EventData).title
        = ti from rfl,
      show (⟨ti, de, ci, ad, ve, ca, ur, im, sd, so, si, la, lo, rp⟩ : EventData).description
        = de from rfl,
      show (⟨ti, de, ci, ad, ve, ca, ur, im, sd, so, si, la, lo, rp⟩ : EventData).city
        = ci from rfl,
      show (⟨ti, de, ci, ad, ve, ca, ur, im, sd, so, si, la, lo, rp⟩ : EventData).address
        = ad from rfl,
      show (⟨ti, de, ci, ad, ve, ca, ur, im, sd, so, si, la, lo, rp⟩ : EventData).start_date
        = sd from rfl,
      show (⟨ti, de, ci, ad, ve, ca, ur, im, sd, so, si, la, lo, rp⟩ : EventData).venue_name
        = ve from rfl,
      show (⟨ti, de, ci, ad, ve, ca, ur, im, sd, so, si, la, lo, rp⟩ : EventData).event_url
        = ur from rfl,
      show (⟨ti, de, ci, ad, ve, ca, ur, im, sd, so, si, la, lo, rp⟩ : EventData).category
        = ca from rfl]
  rw [s1, pure_bind, s2, pure_bind, s3, pure_bind, s4, pure_bind, s6, pure_bind,
    s7, pure_bind, s8, pure_bind, s9, pure_bind]
  rfl

/-- Claim C2 counterexample: sanitising the double-escaped description
`"Tom &amp;amp; Jerry"` once yields `"Tom &amp; Jerry"`, and sanitising that
output decodes one more entity level, so the sanitiser is not idempotent on
every raw record. -/
theorem C2_counterexample_double_escaped :
    sanitize_event_data doubleEscapedRecord =
      .ok { description := some (.str "Tom &amp; Jerry") } ∧
    sanitize_event_data { description := some (.str "Tom &amp; Jerry") } =
      .ok { description := some (.str "Tom & Jerry") } ∧
    (sanitize_event_data doubleEscapedRecord).bind sanitize_event_data ≠
      sanitize_event_data doubleEscapedRecord := by
  decide

/-- Claim C2 as amended: the sanitiser is idempotent on records whose present
text-field values stringify without an ampersand and whose city value, when a
string, does not strip to empty: the first sanitised output is a fixed point
of the sanitiser. -/
theorem C2_sanitize_idempotent (x y : EventData)
    (hx : sanitize_event_data x = .ok y)
    (ht : ∀ v, x.title = some v → noAmp (pyStr v) = true)
    (hd : ∀ v, x.description = some v → noAmp (pyStr v) = true)
    (hv : ∀ v, x.venue_name = some v → noAmp (pyStr v) = true)
    (hc : ∀ v, x.category = some v → noAmp (pyStr v) = true)
    (ha : ∀ v, x.address = some v → noAmp (pyStr v) = true)
    (hcity : ∀ s, x.city = some (PyVal.str s) → pyStrip s ≠ "") :
    sanitize_event_data y = .ok y := by
  obtain ⟨ft, fd, fv, fc, fa, fu, fim, fso, fsi, fla, flo, frp⟩ := sanitize_fields x y hx
  obtain ⟨gc1, gc2, gc3, gd1, gd2⟩ := sanitize_city_date x y hx
  apply sanitize_fixpoint
  · intro v hv'
    rw [ft] at hv'
    cases hxt : x.title with
    | none => rw [hxt] at hv'; simp at hv'
    | some w =>
      rw [hxt] at hv'
      simp only [Option.map_some'] at hv'
      injection hv' with hv'
      exact ⟨clean_text w (some 500), hv'.symm,
        clean_text_stable w 500 (by norm_num) (ht w hxt)⟩
  · intro v hv'
    rw [fd] at hv'
    cases hxt : x.description with
    | none => rw [hxt] at hv'; simp at hv'
    | some w =>
      rw [hxt] at hv'
      simp only [Option.map_some'] at hv'
      injection hv' with hv'
      exact ⟨clean_text w (some 5000), hv'.symm,
        clean_text_stable w 5000 (by norm_num) (hd w hxt)⟩
  · intro v hv'
    cases hxc : x.city with
    | some w =>
      obtain ⟨c, hsc, hyc⟩ := gc1 w hxc
      rw [hv'] at hyc
      injection hyc with hyc
      subst hyc
      refine standardize_stable w v hsc ?_
      intro s hs
      exact hcity s (hs ▸ hxc)
    | none =>
      cases hxa : x.address with
      | some a =>
        obtain ⟨c, hext, hyc⟩ := gc2 hxc a hxa
        rw [hv'] at hyc
        injection hyc with hyc
        subst hyc
        rcases extract_values a v hext with rfl | rfl | rfl
        · rfl
        · exact standardize_canonical "Johannesburg" (Or.inl rfl)
        · exact standardize_canonical "Pretoria" (Or.inr rfl)
      | none =>
        have h0 := gc3 hxc hxa
        rw [hv'] at h0
        exact absurd h0 (by simp)
  · intro hyc
    cases hxc : x.city with
    | some w =>
      obtain ⟨c, _, hyc2⟩ := gc1 w hxc
      rw [hyc] at hyc2
      exact absurd hyc2 (by simp)
    | none =>
      cases hxa : x.address with
      | some a =>
        obtain ⟨c, _, hyc2⟩ := gc2 hxc a hxa
        rw [hyc] at hyc2
        exact absurd hyc2 (by simp)
      | none =>
        rw [fa, hxa]
        rfl
  · intro v hv'
    cases hxs : x.start_date with
    | some w =>
      rcases gd1 w hxs with hy | ⟨dt, hy⟩
      · rw [hv'] at hy
        injection hy with hy
        exact Or.inr hy
      · rw [hv'] at hy
        injection hy with hy
        exact Or.inl ⟨dt, hy⟩
    | none =>
      have h0 := gd2 hxs
      rw [hv'] at h0
      exact absurd h0 (by simp)
  · intro v hv'
    rw [fv] at hv'
    cases hxt : x.venue_name with
    | none => rw [hxt] at hv'; simp at hv'
    | some w =>
      rw [hxt] at hv'
      simp only [Option.map_some'] at hv'
      injection hv' with hv'
      exact ⟨clean_text w (some 500), hv'.symm,
        clean_text_stable w 500 (by norm_num) (hv w hxt)⟩
  · intro v hv'
    rw [fu] at hv'
    cases hxu : x.event_url with
    | none => rw [hxu] at hv'; simp at hv'
    | some w =>
      rw [hxu] at hv'
      simp only [Option.map_some'] at hv'
      injection hv' with hv'
      exact ⟨validate_and_clean_url w, hv'.symm, validate_stable w⟩
  · intro v hv'
    rw [fc] at hv'
    cases hxt : x.category with
    | none => rw [hxt] at hv'; simp at hv'
    | some w =>
      rw [hxt] at hv'
      simp only [Option.map_some'] at hv'
      injection hv' with hv'
      exact ⟨clean_text w (some 200), hv'.symm,
        clean_text_stable w 200 (by norm_num) (hc w hxt)⟩
  · intro v hv'
    rw [fa] at hv'
    cases hxt : x.address with
    | none => rw [hxt] at hv'; simp at hv'
    | some w =>
      rw [hxt] at hv'
      simp only [Option.map_some'] at hv'
      injection hv' with hv'
      exact ⟨clean_text w (some 500), hv'.symm,
        clean_text_stable w 500 (by norm_num) (ha w hxt)⟩

/-- Closed instance of the amended idempotence at a concrete record: the
sanitised form of `venueOne` is a fixed point of the sanitiser. -/
theorem C2_sanitize_idempotent_witness :
    sanitize_event_data sanitizedVenueOne = .ok sanitizedVenueOne :=
  C2_sanitize_idempotent venueOne sanitizedVenueOne (by decide)
    (by intro v hv; injection hv with hv; subst hv; decide)
    (by intro v hv; simp [venueOne] at hv)
    (by intro v hv; simp [venueOne] at hv)
    (by intro v hv; simp [venueOne] at hv)
    (by intro v hv; simp [venueOne] at hv)
    (by intro s hs; injection hs with hs; injection hs with hs; subst hs; decide)
